import Mathlib

/-!
# Verification of the stage-alts Live Filesystem Remap Engine

Shallow embedding of the stage-alts repository (Rust) in Lean 4.

The embedding follows `src/alts.rs` (the `StageAltManager` selection state
machine and the lookup patcher) and `src/search.rs` (the search-section
walker and the order-fix pass).

Modelling conventions:
* `Hash40` (a 40-bit content hash) is modelled as `Nat`.  The hash-join
  operation (`Hash40Ext::join_path` / `concat`, whose implementation lives
  outside the provided sources) is modelled as an injective pairing, per the
  spec's description of PathHash concatenation.
* The archive's `file_hash_to_path_index` table and the search section's
  `path_to_index` table are hash-keyed tables of 24-bit link indices.  They
  are modelled as association lists (`List (Hash40 × Nat)`); `binary_search`
  on the sorted Rust slices is modelled by first-match lookup, and the
  in-place `set_index` writes are modelled by value replacement.  Index
  fields are 24-bit bitfields in the Rust code; every value ever written is
  a previously read field value (or a backed-up one), so the bit masking is
  the identity and is omitted.
* Rust panics (`unwrap`, slice-index out of bounds, unsigned underflow in
  debug mode) and non-terminating loops are modelled by `Option` results
  (`none` = the call does not return normally).  Loops that the Rust code
  performs with unbounded `loop`/recursion take an explicit fuel parameter;
  all fueled definitions recurse structurally on the fuel so that they
  evaluate by `rfl`/`decide`.  Integer arithmetic on `usize` that can wrap
  is written with an explicit `% 2 ^ 64` (release-mode wrapping semantics,
  which is how the shipped mod is built).
-/

namespace StageAlts

/-- A 40-bit path hash (`smash_arc::Hash40`), modelled as a natural number. -/
abbrev Hash40 := Nat

/-- The sentinel index `0xFF_FFFF` marking "no entry" in the search tables. -/
def invalidIdx : Nat := 0xFFFFFF

/-- `usize::MAX`, used by the manager as the "fresh session" cursor sentinel. -/
def usizeMax : Nat := 2 ^ 64 - 1

/-- Modelled from the spec: PathHash concatenation (`Hash40Ext::join_path`,
whose definition is not among the provided sources).  The spec requires the
joined hash to be computable from the parent hash and the child hash alone
and to commit to the concatenated string; an injective Cantor-style pairing
stands in for the CRC-based implementation. -/
def joinPath (parent child : Hash40) : Hash40 :=
  (parent + child) * (parent + child + 1) / 2 + child + 1

/-- First-match lookup in a hash-keyed table (models `binary_search_by_key`
over the sorted slice, and `BTreeMap::get`). -/
def hfind {α : Type} : List (Hash40 × α) → Hash40 → Option α
  | [], _ => none
  | (k, v) :: rest, h => if k = h then some v else hfind rest h

/-- In-place value replacement at a key (models `set_index` on the table
slot found for that hash).  Keys are untouched; an absent key is a no-op
(the code only writes a slot it has just found). -/
def hset {α : Type} : List (Hash40 × α) → Hash40 → α → List (Hash40 × α)
  | [], _, _ => []
  | (k, w) :: rest, h, v => (if k = h then (k, v) else (k, w)) :: hset rest h v

@[simp] theorem hfind_nil {α : Type} (h : Hash40) : hfind ([] : List (Hash40 × α)) h = none := rfl

theorem hfind_cons {α : Type} (k : Hash40) (v : α) (rest : List (Hash40 × α)) (h : Hash40) :
    hfind ((k, v) :: rest) h = if k = h then some v else hfind rest h := rfl

theorem hset_keys {α : Type} (l : List (Hash40 × α)) (h : Hash40) (v : α) :
    (hset l h v).map Prod.fst = l.map Prod.fst := by
  induction l with
  | nil => rfl
  | cons p rest ih =>
    obtain ⟨k, w⟩ := p
    by_cases hk : k = h <;> simp [hset, hk, ih]

theorem hfind_hset_self {α : Type} (l : List (Hash40 × α)) (h : Hash40) (v : α)
    (hmem : (hfind l h).isSome) : hfind (hset l h v) h = some v := by
  induction l with
  | nil => simp [hfind] at hmem
  | cons p rest ih =>
    obtain ⟨k, w⟩ := p
    by_cases hk : k = h
    · simp [hset, hfind_cons, hk]
    · rw [hfind_cons, if_neg hk] at hmem
      simp only [hset, if_neg hk]
      rw [hfind_cons, if_neg hk]
      exact ih hmem

theorem hfind_hset_other {α : Type} (l : List (Hash40 × α)) (h h' : Hash40) (v : α)
    (hne : h' ≠ h) : hfind (hset l h v) h' = hfind l h' := by
  induction l with
  | nil => rfl
  | cons p rest ih =>
    obtain ⟨k, w⟩ := p
    by_cases hk : k = h
    · simp only [hset, if_pos hk]
      rw [hfind_cons, hfind_cons]
      have hk' : k ≠ h' := fun hh => hne (hk ▸ hh ▸ rfl)
      rw [if_neg hk', if_neg hk']
      exact ih
    · simp only [hset, if_neg hk]
      rw [hfind_cons, hfind_cons]
      by_cases hk2 : k = h'
      · simp [hk2]
      · rw [if_neg hk2, if_neg hk2]
        exact ih

theorem hfind_isSome_iff_mem {α : Type} (l : List (Hash40 × α)) (h : Hash40) :
    (hfind l h).isSome ↔ h ∈ l.map Prod.fst := by
  induction l with
  | nil => simp [hfind]
  | cons p rest ih =>
    obtain ⟨k, w⟩ := p
    by_cases hk : k = h
    · simp [hfind_cons, hk]
    · simp only [hfind_cons, hk, if_false, List.map, List.mem_cons]
      rw [ih]
      constructor
      · exact fun hm => Or.inr hm
      · rintro (hm | hm)
        · exact absurd hm.symm hk
        · exact hm

theorem hset_isSome {α : Type} (l : List (Hash40 × α)) (h h' : Hash40) (v : α) :
    (hfind (hset l h v) h').isSome = (hfind l h').isSome := by
  rw [Bool.eq_iff_iff, hfind_isSome_iff_mem, hfind_isSome_iff_mem, hset_keys]

/-- Two tables with the same key skeleton, distinct keys, and pointwise-equal
lookups are equal as lists. -/
theorem hfind_ext_eq {α : Type} (l l' : List (Hash40 × α))
    (hkeys : l'.map Prod.fst = l.map Prod.fst)
    (hnd : (l.map Prod.fst).Nodup)
    (hext : ∀ h, hfind l' h = hfind l h) : l' = l := by
  induction l generalizing l' with
  | nil =>
    cases l' with
    | nil => rfl
    | cons p rest => simp at hkeys
  | cons p rest ih =>
    obtain ⟨k, v⟩ := p
    cases l' with
    | nil => simp at hkeys
    | cons q rest' =>
      obtain ⟨k', v'⟩ := q
      simp only [List.map, List.cons.injEq] at hkeys
      obtain ⟨hk1, hrest⟩ := hkeys
      simp only [List.map, List.nodup_cons] at hnd
      obtain ⟨hknotin, hndrest⟩ := hnd
      have hv : v' = v := by
        have hx := hext k
        rw [hk1] at hx
        rw [hfind_cons, hfind_cons, if_pos rfl, if_pos rfl] at hx
        exact Option.some.injEq .. ▸ hx ▸ rfl
      have hext2 : ∀ h, hfind rest' h = hfind rest h := by
        intro h
        by_cases hkh : k = h
        · have h1 : ¬ (hfind rest h).isSome := by
            rw [hfind_isSome_iff_mem]
            exact fun hm => hknotin (hkh ▸ hm)
          have h2 : ¬ (hfind rest' h).isSome := by
            rw [hfind_isSome_iff_mem, hrest]
            exact fun hm => hknotin (hkh ▸ hm)
          cases hr : hfind rest h with
          | none =>
            cases hr2 : hfind rest' h with
            | none => rfl
            | some w => exact absurd (by simp [hr2]) h2
          | some w => exact absurd (by simp [hr]) h1
        · have hx := hext h
          rw [hfind_cons, hfind_cons, hk1] at hx
          rwa [if_neg hkh, if_neg hkh] at hx
      rw [hk1, hv, ih rest' hrest hndrest hext2]

/-! ## The search section (`src/search.rs`)

`LoadedSearchSection` splits into the traversal-relevant tables (folder
hash→index, folder entries, `path_list_indices`, `path_list`) and the
`path_to_index` table that the lookup patcher rewrites.  The patcher never
touches the traversal tables and the order-fix pass never touches
`path_to_index`, so the two groups are kept in separate structures. -/

/-- One `PathListEntry`: the full-path hash plus its `path.index()` bits
(the sibling link), the file-name hash, the extension hash, the parent hash,
and the directory flag.  Only the sibling link is ever mutated. -/
structure PathEntry where
  path : Hash40
  sibling : Nat
  fileName : Hash40
  ext : Hash40
  parent : Hash40
  isDir : Bool
  deriving DecidableEq, Repr

/-- One `FolderPathListEntry`: the folder's path hash and its first-child
index (an index into `path_list_indices`).  Only `firstChild` is mutated. -/
structure FolderEntry where
  path : Hash40
  firstChild : Nat
  deriving DecidableEq, Repr

/-- The traversal-relevant tables of the search section. -/
structure SearchLayout where
  folderPathToIndex : List (Hash40 × Nat)
  folderPathList : List FolderEntry
  pathListIndices : List Nat
  pathList : List PathEntry
  deriving DecidableEq, Repr

/-- The full search section: the traversal layout plus the `path_to_index`
table patched by the manager. -/
structure SearchSection where
  layout : SearchLayout
  pathToIndex : List (Hash40 × Nat)
  deriving DecidableEq, Repr

/-- `get_folder_path_entry_from_hash`: look the hash up in
`folder_path_to_index`; an index of `0xFF_FFFF` or a missing hash is
`Err(Missing)`; otherwise index into `folder_path_list`. -/
def getFolderPathEntry (L : SearchLayout) (h : Hash40) : Option FolderEntry :=
  match hfind L.folderPathToIndex h with
  | none => none
  | some idx => if idx = invalidIdx then none else L.folderPathList.get? idx

/-- A node produced by the walker (`SearchEntry` in `src/search.rs`): a file
or a folder with recursively walked children; the payload is the
`path_list` index. -/
inductive SearchEntry where
  | file (index : Nat)
  | folder (index : Nat) (children : List SearchEntry)

/-- The `path_list` index carried by a walker node (both constructors carry
one; this mirrors the `match entry { File(i) => i, Folder{index: i, ..} => i }`
extractions in `src/search.rs`). -/
def SearchEntry.topIndex : SearchEntry → Nat
  | .file i => i
  | .folder i _ => i

/-- The sibling-chain loop shared by `walk_search_section`: follow
`path_list_indices`/`path_list` sibling links from a first-child index,
visiting each entry.  `none` models a Rust slice-index panic or a chain
longer than the fuel (the Rust loop has no bound of its own). -/
def siblingWalk (L : SearchLayout) (visit : PathEntry → Nat → Option SearchEntry) :
    Nat → Nat → Option (List SearchEntry)
  | 0, _ => none
  | fuel + 1, childIndex =>
    if childIndex = invalidIdx then some []
    else
      match L.pathListIndices.get? childIndex with
      | none => none
      | some pathIndex =>
        if pathIndex = invalidIdx then some []
        else
          match L.pathList.get? pathIndex with
          | none => none
          | some p =>
            match visit p pathIndex with
            | none => none
            | some entry =>
              match siblingWalk L visit fuel p.sibling with
              | none => none
              | some rest => some (entry :: rest)

/-- `walk_search_section`: bounded-depth traversal.  Yields `[]` when
`depth == 0` (note: an equality test, not `≤`) or when the folder hash is
absent; otherwise walks the folder's sibling chain, recursing into
subfolders with `depth - 1`. -/
def walk_search_section : Nat → SearchLayout → Hash40 → Int → Option (List SearchEntry)
  | 0, _, _, _ => none
  | fuel + 1, L, h, depth =>
    if depth = 0 then some []
    else
      match getFolderPathEntry L h with
      | none => some []
      | some fe =>
        siblingWalk L
          (fun p pathIndex =>
            if p.isDir then
              match walk_search_section fuel L p.path (depth - 1) with
              | none => none
              | some children => some (.folder pathIndex children)
            else some (.file pathIndex))
          (fuel + 1) fe.firstChild

/-- Modelled from the spec: `FlattenVec::flatten` (not among the provided
sources) — collapse a walked tree into its depth-first sequence of file
nodes, discarding folder nodes but preserving order.  Fueled so that it
evaluates structurally; `none` would mean the fuel ran out. -/
def flattenEntries : Nat → List SearchEntry → Option (List SearchEntry)
  | 0, _ => none
  | _ + 1, [] => some []
  | fuel + 1, .file i :: rest =>
    match flattenEntries fuel rest with
    | none => none
    | some out => some (.file i :: out)
  | fuel + 1, .folder _ children :: rest =>
    match flattenEntries fuel children, flattenEntries fuel rest with
    | some cs, some out => some (cs ++ out)
    | _, _ => none

/-! ## `get_direct_child` and `file_order_fix` (`src/search.rs`) -/

/-- The name-searching sibling loop of `get_direct_child`.  The outer
`Option` is `none` on a slice-index panic or exhausted fuel; the inner
`Option` is the search result. -/
def getDirectChildLoop (L : SearchLayout) (child : Hash40) : Nat → Nat → Option (Option Nat)
  | 0, _ => none
  | fuel + 1, childIndex =>
    if childIndex = invalidIdx then some none
    else
      match L.pathListIndices.get? childIndex with
      | none => none
      | some pathIndex =>
        if pathIndex = invalidIdx then some none
        else
          match L.pathList.get? pathIndex with
          | none => none
          | some p =>
            if p.fileName = child then some (some pathIndex)
            else getDirectChildLoop L child fuel p.sibling

/-- `get_direct_child`: resolve the parent's path entry and folder entry
(a miss is `Some none`, i.e. "not found", per the `?`/`.ok()?` early
returns), then scan its sibling chain for a child with the given
file name. -/
def get_direct_child (fuel : Nat) (L : SearchLayout) (index : Nat) (child : Hash40) :
    Option (Option Nat) :=
  match L.pathList.get? index with
  | none => some none
  | some parent =>
    match getFolderPathEntry L parent.path with
    | none => some none
    | some folder => getDirectChildLoop L child fuel folder.firstChild

/-- `get_path_list_index_from_hash`: look the hash up in `path_to_index`;
a missing hash or the sentinel index is `Err(Missing)` (inner `none`);
indexing `path_list_indices` out of bounds panics (outer `none`). -/
def getPathListIndex (s : SearchSection) (h : Hash40) : Option (Option Nat) :=
  match hfind s.pathToIndex h with
  | none => some none
  | some idx =>
    if idx = invalidIdx then some none
    else
      match s.layout.pathListIndices.get? idx with
      | none => none
      | some v => some (some v)

/-- Overwrite a path entry's sibling link (`path.set_index`); an
out-of-bounds index is a panic. -/
def setSibling (s : SearchSection) (i v : Nat) : Option SearchSection :=
  match s.layout.pathList.get? i with
  | none => none
  | some p =>
    some { s with layout :=
      { s.layout with pathList := s.layout.pathList.set i { p with sibling := v } } }

/-- Overwrite a folder entry's first-child index
(`set_first_child_index`); an out-of-bounds index is a panic. -/
def setFirstChild (s : SearchSection) (i v : Nat) : Option SearchSection :=
  match s.layout.folderPathList.get? i with
  | none => none
  | some fe =>
    some { s with layout :=
      { s.layout with folderPathList :=
          s.layout.folderPathList.set i { fe with firstChild := v } } }

/-- The chain-rebuilding epilogue of `file_order_fix`: link each entry of
`ordered` to the next and terminate the last with the sentinel. -/
def writeChain : SearchSection → List Nat → Option SearchSection
  | s, [] => some s
  | s, [i] => setSibling s i invalidIdx
  | s, i :: j :: rest =>
    match setSibling s i j with
    | none => none
    | some s2 => writeChain s2 (j :: rest)

/-- The "tack the unmatched destination entries on the end" pass of
`file_order_fix`. -/
def appendMissing (ordered : List Nat) : List SearchEntry → List Nat
  | [] => ordered
  | e :: rest =>
    if ordered.contains e.topIndex then appendMissing ordered rest
    else appendMissing (ordered ++ [e.topIndex]) rest

/-- The matching loop of `file_order_fix`: for each source entry look up a
same-named destination child; append it to `ordered` and recurse
(`fixRec`) into matching directory pairs.  The state mutates through the
recursive calls. -/
def fixLoop (fixRec : SearchSection → Hash40 → Hash40 → Option SearchSection)
    (gdcFuel dstIndex : Nat) :
    List SearchEntry → SearchSection → List Nat → Option (SearchSection × List Nat)
  | [], s, ordered => some (s, ordered)
  | entry :: rest, s, ordered =>
    match s.layout.pathList.get? entry.topIndex with
    | none => none
    | some srcChild =>
      match get_direct_child gdcFuel s.layout dstIndex srcChild.fileName with
      | none => none
      | some none => fixLoop fixRec gdcFuel dstIndex rest s ordered
      | some (some dstChild) =>
        match s.layout.pathList.get? dstChild with
        | none => none
        | some dstChildPath =>
          if dstChildPath.isDir then
            match fixRec s srcChild.path dstChildPath.path with
            | none => none
            | some s2 => fixLoop fixRec gdcFuel dstIndex rest s2 (ordered ++ [dstChild])
          else fixLoop fixRec gdcFuel dstIndex rest s (ordered ++ [dstChild])

/-- `file_order_fix`: rewrite the destination folder's sibling chain so its
children appear in the source folder's order (recursing into matching
subfolders), with unmatched destination children appended at the end. -/
def file_order_fix : Nat → SearchSection → Hash40 → Hash40 → Option SearchSection
  | 0, _, _, _ => none
  | fuel + 1, s, src, dst =>
    match getPathListIndex s dst with
    | none => none
    | some none => some s
    | some (some dstIndex) =>
      match s.layout.pathList.get? dstIndex with
      | none => none
      | some dstPath =>
        if !dstPath.isDir then some s
        else
          match walk_search_section (fuel + 1) s.layout src 1 with
          | none => none
          | some sourceEntries =>
            if sourceEntries.isEmpty then some s
            else
              match fixLoop (file_order_fix fuel) (fuel + 1) dstIndex sourceEntries s [] with
              | none => none
              | some (s2, ordered) =>
                match walk_search_section (fuel + 1) s2.layout dst 1 with
                | none => none
                | some dstEntries =>
                  match hfind s2.layout.folderPathToIndex dst with
                  | none => some s2
                  | some folderPathIndex =>
                    match appendMissing ordered dstEntries with
                    | [] => setFirstChild s2 folderPathIndex invalidIdx
                    | first :: more =>
                      match setFirstChild s2 folderPathIndex first with
                      | none => none
                      | some s3 => writeChain s3 (first :: more)

/-! ## The manager data model (`src/alts.rs`) -/

/-- A user-facing stage selection (`alts.rs::Selection`). -/
inductive Selection where
  | regular (name : Hash40) (alt : Nat)
  | random
  | invalid
  deriving DecidableEq, Repr

/-- One discovered stage alt (`alts.rs::StageAlt`).  `alt_folders` is the
base-folder→variant-folder map, `sharing_base` maps base files to their
(base, variant) link indices, `ui_paths` are the five UI texture paths. -/
structure StageAlt where
  alt_folders : List (Hash40 × Hash40)
  sharing_base : List (Hash40 × Nat × Nat)
  ui_paths : List Hash40
  is_normal_ws : Bool
  is_normal_ignore : Bool
  is_battle_ws : Bool
  is_battle_ignore : Bool
  deriving DecidableEq, Repr

/-- Per-stage catalog entry (`alts.rs::StageAltInfo`). -/
structure StageAltInfo where
  stage_name : Hash40
  stage_folder : Hash40
  normal_folder : Hash40
  battle_folder : Hash40
  alts_found : List StageAlt
  deriving DecidableEq, Repr

/-- The manager (`alts.rs::StageAltManager`).  The unused `folder_backup`
field (initialised from the same table as `path_backup`) is included for
completeness. -/
structure StageAltManager where
  filepath_backup : List (Hash40 × Nat)
  path_backup : List (Hash40 × Nat)
  folder_backup : List (Hash40 × Nat)
  alt_infos : List (Hash40 × StageAltInfo)
  selection : List Selection
  current_index : Nat
  current_alt : Option StageAlt
  is_online : Bool
  deriving DecidableEq, Repr

/-- The global patched state (`FilesystemInfo`): the archive's
`file_hash_to_path_index` table and the search section. -/
structure Fs where
  arcTab : List (Hash40 × Nat)
  sec : SearchSection
  deriving DecidableEq, Repr

/-- `Hash40::from("resultstage")` (CRC-40 of the string). -/
def resultStageHash : Hash40 := 0xb0f62f83c

/-- `StageAltManager::set_stage_use_count`: reset the selection list to
`count` `Invalid` entries. -/
def set_stage_use_count (mgr : StageAltManager) (count : Nat) : StageAltManager :=
  { mgr with selection := List.replicate count .invalid }

/-- `StageAltManager::set_stage_selection`: overwrite one slot; an
out-of-range index logs and is ignored. -/
def set_stage_selection (mgr : StageAltManager) (index : Nat) (sel : Selection) :
    StageAltManager :=
  if index ≥ mgr.selection.length then mgr
  else { mgr with selection := mgr.selection.set index sel }

/-- `StageAltManager::get_sharing_base_for_alt_folder`: the `folder`
argument is unused by the source; the current alt's whole `sharing_base`
is returned whenever an alt is active. -/
def get_sharing_base_for_alt_folder (mgr : StageAltManager) (folder : Hash40) :
    Option (List (Hash40 × Nat × Nat)) :=
  mgr.current_alt.map fun alt => alt.sharing_base

/-- The wifi-safety skip test shared by `get_next_alt`/`get_prev_alt`:
`self.is_online && ((is_battle && !alt.is_battle_ws) || (!is_battle && !alt.is_normal_ws))`. -/
def wifiSkip (isOnline : Bool) (isBattle : Bool) (alt : StageAlt) : Bool :=
  isOnline && ((isBattle && !alt.is_battle_ws) || (!isBattle && !alt.is_normal_ws))

/-- `StageAltManager::get_prev_alt`.  The unsigned decrement
`current_index - 1` is modelled with release-mode wrapping
(`(ci + 2^64 - 1) % 2^64`); the recursion takes fuel because the source can
recurse forever (e.g. on an empty alt list). -/
def get_prev_alt : Nat → StageAltManager → Hash40 → Nat → Bool → Option Nat
  | 0, _, _, _, _ => none
  | fuel + 1, mgr, stageName, currentIndex, isBattle =>
    match hfind mgr.alt_infos stageName with
    | none => some 0
    | some info =>
      let prev := (currentIndex + (2 ^ 64 - 1)) % 2 ^ 64
      match info.alts_found.get? prev with
      | some alt =>
        if wifiSkip mgr.is_online isBattle alt then
          get_prev_alt fuel mgr stageName prev isBattle
        else some prev
      | none => get_prev_alt fuel mgr stageName info.alts_found.length isBattle

/-- `StageAltManager::get_next_alt` (same shape, stepping forward). -/
def get_next_alt : Nat → StageAltManager → Hash40 → Nat → Bool → Option Nat
  | 0, _, _, _, _ => none
  | fuel + 1, mgr, stageName, currentIndex, isBattle =>
    match hfind mgr.alt_infos stageName with
    | none => some 0
    | some info =>
      match info.alts_found.get? (currentIndex + 1) with
      | some alt =>
        if wifiSkip mgr.is_online isBattle alt then
          get_next_alt fuel mgr stageName (currentIndex + 1) isBattle
        else some (currentIndex + 1)
      | none => some 0

/-- The retry loop of `get_random_alt`: each iteration consumes one raw
draw from `rng` (modelling `rand::random::<usize>()`), reduces it modulo
the alt count, and re-draws when the draw is disqualified.  `none` means
the supplied draws ran out (the source loops forever). -/
def randomLoop (alts : List StageAlt) (isOnline isBattle : Bool) : List Nat → Option Nat
  | [] => none
  | r :: rest =>
    let alt := r % alts.length
    match alts.get? alt with
    | none => none
    | some a =>
      if isBattle then
        if isOnline && !a.is_battle_ws then randomLoop alts isOnline isBattle rest
        else if a.is_battle_ignore then randomLoop alts isOnline isBattle rest
        else some alt
      else
        if isOnline && !a.is_normal_ws then randomLoop alts isOnline isBattle rest
        else if a.is_normal_ignore then randomLoop alts isOnline isBattle rest
        else some alt

/-- `StageAltManager::get_random_alt`. -/
def get_random_alt (mgr : StageAltManager) (stageName : Hash40) (isBattle : Bool)
    (rng : List Nat) : Option Nat :=
  match hfind mgr.alt_infos stageName with
  | none => some 0
  | some info =>
    if info.alts_found.isEmpty then some 0
    else randomLoop info.alts_found mgr.is_online isBattle rng

/-! ## The lookup patcher (`hack_lookups_for_alt` / `unhack_lookups_for_alt`) -/

/-- Insertion into the `file_lookup` `HashMap`: overwrite the value when
the key is already present, otherwise append. -/
def hinsert {α : Type} (l : List (Hash40 × α)) (k : Hash40) (v : α) : List (Hash40 × α) :=
  if (hfind l k).isSome then hset l k v else l ++ [(k, v)]

/-- Build `file_lookup`: for every `(base, modded)` folder pair in
iteration order, walk the base folder one level, and for every direct file
child named `n` insert `base/n ↦ modded/n` into the accumulating map. -/
def computeFileLookupFrom (fuel : Nat) (L : SearchLayout) :
    List (Hash40 × Hash40) → List (Hash40 × Hash40) → Option (List (Hash40 × Hash40))
  | [], acc => some acc
  | (base, modded) :: rest, acc =>
    match walk_search_section fuel L base 1 with
    | none => none
    | some entries =>
      match flattenEntries fuel entries with
      | none => none
      | some files =>
        match computeFileLookupFrom.files L base modded files with
        | none => none
        | some pairs =>
          computeFileLookupFrom fuel L rest
            (pairs.foldl (fun acc p => hinsert acc p.1 p.2) acc)
where
  /-- The inner per-file loop: skip non-file entries, read the file name
  from `path_list`, and produce the `(base/n, modded/n)` pair. -/
  files (L : SearchLayout) (base modded : Hash40) :
      List SearchEntry → Option (List (Hash40 × Hash40))
    | [] => some []
    | .folder _ _ :: rest => files L base modded rest
    | .file index :: rest =>
      match L.pathList.get? index with
      | none => none
      | some p =>
        match files L base modded rest with
        | none => none
        | some out => some ((joinPath base p.fileName, joinPath modded p.fileName) :: out)

/-- `file_lookup` for an alt's folder map, starting from an empty map. -/
def computeFileLookup (fuel : Nat) (L : SearchLayout)
    (folders : List (Hash40 × Hash40)) : Option (List (Hash40 × Hash40)) :=
  computeFileLookupFrom fuel L folders []

/-- The apply pass over one hash table (both the archive pass and the
search pass of `hack_lookups_for_alt` have this shape): resolve the
variant's index in the same table; a missing variant skips the entry; then
find the base's slot (a missing base is an `unwrap` panic → `none`) and
overwrite it with the variant's index. -/
def hackPass : List (Hash40 × Hash40) → List (Hash40 × Nat) → Option (List (Hash40 × Nat))
  | [], tab => some tab
  | (base, modded) :: rest, tab =>
    match hfind tab modded with
    | none => hackPass rest tab
    | some idx =>
      match hfind tab base with
      | none => none
      | some _ => hackPass rest (hset tab base idx)

/-- The revert pass over one hash table: look the base up in the snapshot
taken at manager construction (a missing entry is an `unwrap` panic), find
its slot (likewise), and write the snapshot value back. -/
def unhackPass (backup : List (Hash40 × Nat)) :
    List (Hash40 × Hash40) → List (Hash40 × Nat) → Option (List (Hash40 × Nat))
  | [], tab => some tab
  | (base, _modded) :: rest, tab =>
    match hfind backup base with
    | none => none
    | some v =>
      match hfind tab base with
      | none => none
      | some _ => unhackPass backup rest (hset tab base v)

/-- `StageAltManager::hack_lookups_for_alt`: no-op without an active alt;
otherwise build `file_lookup` from the (unpatched) folder layout and run
the archive pass then the search pass. -/
def hack_lookups_for_alt (fuel : Nat) (mgr : StageAltManager) (fs : Fs) : Option Fs :=
  match mgr.current_alt with
  | none => some fs
  | some alt =>
    match computeFileLookup fuel fs.sec.layout alt.alt_folders with
    | none => none
    | some fl =>
      match hackPass fl fs.arcTab with
      | none => none
      | some arcTab2 =>
        match hackPass fl fs.sec.pathToIndex with
        | none => none
        | some p2i2 => some { arcTab := arcTab2, sec := { fs.sec with pathToIndex := p2i2 } }

/-- `StageAltManager::unhack_lookups_for_alt`: no-op without an active alt;
otherwise rebuild `file_lookup` and restore every base slot from the
construction-time snapshots. -/
def unhack_lookups_for_alt (fuel : Nat) (mgr : StageAltManager) (fs : Fs) : Option Fs :=
  match mgr.current_alt with
  | none => some fs
  | some alt =>
    match computeFileLookup fuel fs.sec.layout alt.alt_folders with
    | none => none
    | some fl =>
      match unhackPass mgr.filepath_backup fl fs.arcTab with
      | none => none
      | some arcTab2 =>
        match unhackPass mgr.path_backup fl fs.sec.pathToIndex with
        | none => none
        | some p2i2 => some { arcTab := arcTab2, sec := { fs.sec with pathToIndex := p2i2 } }

/-- `StageAltManager::change_alt`: revert the active alt's patches, swap
`current_alt`, apply the new alt's patches. -/
def change_alt (fuel : Nat) (mgr : StageAltManager) (fs : Fs) (newAlt : Option StageAlt) :
    Option (StageAltManager × Fs) :=
  match unhack_lookups_for_alt fuel mgr fs with
  | none => none
  | some fs1 =>
    let mgr2 := { mgr with current_alt := newAlt }
    match hack_lookups_for_alt fuel mgr2 fs1 with
    | none => none
    | some fs2 => some (mgr2, fs2)

/-- The selection-consuming prologue of `advance_alt`: an empty selection
list or the incoming results pseudo-stage forces `Random`; otherwise the
cursor advances round-robin (a `usize::MAX` cursor means "fresh session,
consume slot 0") and the slot is read. -/
def select_step (mgr : StageAltManager) (incoming : Hash40) :
    Option (Selection × StageAltManager) :=
  if mgr.selection.isEmpty then some (.random, mgr)
  else if incoming = resultStageHash then some (.random, mgr)
  else if mgr.current_index = usizeMax then
    match mgr.selection.get? 0 with
    | none => none
    | some s => some (s, { mgr with current_index := 0 })
  else
    match mgr.selection.get? ((mgr.current_index + 1) % mgr.selection.length) with
    | none => none
    | some s =>
      some (s, { mgr with current_index := (mgr.current_index + 1) % mgr.selection.length })

/-- `StageAltManager::advance_alt`.  `rng` supplies the raw draws for the
`Random` branch.  `none` models a panic (out-of-range selection index,
patching `unwrap`) or a retry loop that never ends. -/
def advance_alt (fuel : Nat) (mgr : StageAltManager) (fs : Fs) (incoming : Hash40)
    (isBattle : Bool) (rng : List Nat) : Option (StageAltManager × Fs) :=
  match select_step mgr incoming with
  | none => none
  | some (sel, mgr1) =>
    match sel with
    | .invalid => change_alt fuel mgr1 fs none
    | .random =>
      match get_random_alt mgr1 incoming isBattle rng with
      | none => none
      | some altId =>
        if altId = 0 then change_alt fuel mgr1 fs none
        else
          change_alt fuel mgr1 fs
            ((hfind mgr1.alt_infos incoming).bind fun info => info.alts_found.get? altId)
    | .regular name alt =>
      -- NOTE: the source's `if alt == 0 { self.change_alt(None); }` has no
      -- `return`; the unconditional `change_alt` below still runs after it.
      match (if alt = 0 then change_alt fuel mgr1 fs none else some (mgr1, fs)) with
      | none => none
      | some (mgr2, fs2) =>
        change_alt fuel mgr2 fs2
          ((hfind mgr2.alt_infos name).bind fun info => info.alts_found.get? alt)

/-! ## Properties of the patch passes -/

theorem hackPass_keys (fl : List (Hash40 × Hash40)) (tab tab' : List (Hash40 × Nat))
    (h : hackPass fl tab = some tab') : tab'.map Prod.fst = tab.map Prod.fst := by
  induction fl generalizing tab with
  | nil =>
    simp only [hackPass] at h
    cases h
    rfl
  | cons p rest ih =>
    obtain ⟨base, modded⟩ := p
    simp only [hackPass] at h
    cases hm : hfind tab modded with
    | none =>
      rw [hm] at h
      exact ih tab h
    | some idx =>
      rw [hm] at h
      cases hb : hfind tab base with
      | none => rw [hb] at h; cases h
      | some w =>
        rw [hb] at h
        rw [ih (hset tab base idx) h, hset_keys]

theorem hackPass_frame (fl : List (Hash40 × Hash40)) (tab tab' : List (Hash40 × Nat))
    (h : hackPass fl tab = some tab') :
    ∀ x, x ∉ fl.map Prod.fst → hfind tab' x = hfind tab x := by
  induction fl generalizing tab with
  | nil =>
    simp only [hackPass] at h
    cases h
    exact fun x _ => rfl
  | cons p rest ih =>
    obtain ⟨base, modded⟩ := p
    intro x hx
    simp only [List.map, List.mem_cons] at hx
    push_neg at hx
    obtain ⟨hxb, hxrest⟩ := hx
    simp only [hackPass] at h
    cases hm : hfind tab modded with
    | none =>
      rw [hm] at h
      exact ih tab h x hxrest
    | some idx =>
      rw [hm] at h
      cases hb : hfind tab base with
      | none => rw [hb] at h; cases h
      | some w =>
        rw [hb] at h
        rw [ih (hset tab base idx) h x hxrest]
        exact hfind_hset_other tab base x idx hxb

theorem unhackPass_keys (backup : List (Hash40 × Nat)) (fl : List (Hash40 × Hash40))
    (tab tab' : List (Hash40 × Nat)) (h : unhackPass backup fl tab = some tab') :
    tab'.map Prod.fst = tab.map Prod.fst := by
  induction fl generalizing tab with
  | nil =>
    simp only [unhackPass] at h
    cases h
    rfl
  | cons p rest ih =>
    obtain ⟨base, modded⟩ := p
    simp only [unhackPass] at h
    cases hbk : hfind backup base with
    | none => rw [hbk] at h; cases h
    | some v =>
      rw [hbk] at h
      cases hb : hfind tab base with
      | none => rw [hb] at h; cases h
      | some w =>
        rw [hb] at h
        rw [ih (hset tab base v) h, hset_keys]

theorem unhackPass_frame (backup : List (Hash40 × Nat)) (fl : List (Hash40 × Hash40))
    (tab tab' : List (Hash40 × Nat)) (h : unhackPass backup fl tab = some tab') :
    ∀ x, x ∉ fl.map Prod.fst → hfind tab' x = hfind tab x := by
  induction fl generalizing tab with
  | nil =>
    simp only [unhackPass] at h
    cases h
    exact fun x _ => rfl
  | cons p rest ih =>
    obtain ⟨base, modded⟩ := p
    intro x hx
    simp only [List.map, List.mem_cons] at hx
    push_neg at hx
    obtain ⟨hxb, hxrest⟩ := hx
    simp only [unhackPass] at h
    cases hbk : hfind backup base with
    | none => rw [hbk] at h; cases h
    | some v =>
      rw [hbk] at h
      cases hb : hfind tab base with
      | none => rw [hb] at h; cases h
      | some w =>
        rw [hb] at h
        rw [ih (hset tab base v) h x hxrest]
        exact hfind_hset_other tab base x v hxb

/-- After a successful revert pass, every base slot named by `file_lookup`
holds its snapshot value. -/
theorem unhackPass_restores (backup : List (Hash40 × Nat)) (fl : List (Hash40 × Hash40))
    (tab tab' : List (Hash40 × Nat)) (h : unhackPass backup fl tab = some tab') :
    ∀ x, x ∈ fl.map Prod.fst → hfind tab' x = hfind backup x := by
  induction fl generalizing tab with
  | nil => intro x hx; simp at hx
  | cons p rest ih =>
    obtain ⟨base, modded⟩ := p
    intro x hx
    simp only [unhackPass] at h
    cases hbk : hfind backup base with
    | none => rw [hbk] at h; cases h
    | some v =>
      rw [hbk] at h
      cases hb : hfind tab base with
      | none => rw [hb] at h; cases h
      | some w =>
        rw [hb] at h
        simp only [List.map, List.mem_cons] at hx
        by_cases hxrest : x ∈ rest.map Prod.fst
        · exact ih (hset tab base v) h x hxrest
        · have hxb : x = base := by
            cases hx with
            | inl hh => exact hh
            | inr hh => exact absurd hh hxrest
          subst hxb
          rw [unhackPass_frame backup rest (hset tab x v) tab' h x hxrest]
          rw [hfind_hset_self tab x v (by simp [hb]), hbk]

/-! ## Concrete example world used by witnesses -/

/-- Concrete layout: one folder (hash `1`) whose single direct child is the
file at `path_list` slot `0`, named `5`. -/
def cLayout : SearchLayout :=
  { folderPathToIndex := [(1, 0)]
  , folderPathList := [{ path := 1, firstChild := 0 }]
  , pathListIndices := [0]
  , pathList := [{ path := 27, sibling := invalidIdx, fileName := 5, ext := 9,
                   parent := 1, isDir := false }] }

/-- Concrete pristine filesystem state.  `27 = joinPath 1 5` and
`34 = joinPath 2 5` are the base and variant file hashes. -/
def cFs : Fs :=
  { arcTab := [(27, 10), (34, 20)]
  , sec := { layout := cLayout, pathToIndex := [(27, 100), (34, 200)] } }

/-- Concrete alt remapping folder `1` to folder `2`. -/
def cAlt : StageAlt :=
  { alt_folders := [(1, 2)], sharing_base := [(27, 10, 20)], ui_paths := [0, 0, 0, 0, 0]
  , is_normal_ws := true, is_normal_ignore := false
  , is_battle_ws := true, is_battle_ignore := false }

/-- A manager whose current alt is `cAlt`, with snapshots matching `cFs`. -/
def cMgrA : StageAltManager :=
  { filepath_backup := [(27, 10), (34, 20)]
  , path_backup := [(27, 100), (34, 200)]
  , folder_backup := [(27, 100), (34, 200)]
  , alt_infos := [], selection := [], current_index := 0
  , current_alt := some cAlt, is_online := false }

/-- `cFs` after applying `cAlt`'s patches. -/
def cFs1 : Fs :=
  { arcTab := [(27, 20), (34, 20)]
  , sec := { layout := cLayout, pathToIndex := [(27, 200), (34, 200)] } }

example : computeFileLookup 10 cLayout cAlt.alt_folders = some [(27, 34)] := rfl
example : hack_lookups_for_alt 10 cMgrA cFs = some cFs1 := rfl
example : unhack_lookups_for_alt 10 cMgrA cFs1 = some cFs := rfl

/-! ## C1: apply-then-revert restores the construction-time snapshot -/

/-- C1.  For every alt `A` and every table slot that applying `A`'s patches
modified, applying and then reverting `A` leaves the slot equal to the value
recorded in the construction-time snapshots (`filepath_backup` /
`path_backup`) — not the value it held just before the apply. -/
theorem apply_revert_restores_snapshot (fuel : Nat) (mgr : StageAltManager) (fs fs1 fs2 : Fs)
    (happly : hack_lookups_for_alt fuel mgr fs = some fs1)
    (hrevert : unhack_lookups_for_alt fuel mgr fs1 = some fs2) :
    (∀ x, hfind fs1.arcTab x ≠ hfind fs.arcTab x →
      hfind fs2.arcTab x = hfind mgr.filepath_backup x) ∧
    (∀ x, hfind fs1.sec.pathToIndex x ≠ hfind fs.sec.pathToIndex x →
      hfind fs2.sec.pathToIndex x = hfind mgr.path_backup x) := by
  cases halt : mgr.current_alt with
  | none =>
    simp only [hack_lookups_for_alt, halt] at happly
    cases happly
    exact ⟨fun x hx => absurd rfl hx, fun x hx => absurd rfl hx⟩
  | some alt =>
    simp only [hack_lookups_for_alt, halt] at happly
    cases hfl : computeFileLookup fuel fs.sec.layout alt.alt_folders with
    | none =>
      simp only [hfl] at happly
      exact Option.noConfusion happly
    | some fl =>
      simp only [hfl] at happly
      cases ha : hackPass fl fs.arcTab with
      | none =>
        simp only [ha] at happly
        exact Option.noConfusion happly
      | some arcTab2 =>
        simp only [ha] at happly
        cases hp : hackPass fl fs.sec.pathToIndex with
        | none =>
          simp only [hp] at happly
          exact Option.noConfusion happly
        | some p2i2 =>
          simp only [hp, Option.some.injEq] at happly
          subst happly
          simp only [unhack_lookups_for_alt, halt, hfl] at hrevert
          cases hua : unhackPass mgr.filepath_backup fl arcTab2 with
          | none =>
            simp only [hua] at hrevert
            exact Option.noConfusion hrevert
          | some arcTab3 =>
            simp only [hua] at hrevert
            cases hup : unhackPass mgr.path_backup fl p2i2 with
            | none =>
              simp only [hup] at hrevert
              exact Option.noConfusion hrevert
            | some p2i3 =>
              simp only [hup, Option.some.injEq] at hrevert
              subst hrevert
              constructor
              · intro x hx
                have hmem : x ∈ fl.map Prod.fst := by
                  by_contra hnot
                  exact hx (hackPass_frame fl fs.arcTab arcTab2 ha x hnot)
                exact unhackPass_restores mgr.filepath_backup fl arcTab2 arcTab3 hua x hmem
              · intro x hx
                have hmem : x ∈ fl.map Prod.fst := by
                  by_contra hnot
                  exact hx (hackPass_frame fl fs.sec.pathToIndex p2i2 hp x hnot)
                exact unhackPass_restores mgr.path_backup fl p2i2 p2i3 hup x hmem

/-- C1 witness: on the concrete world, `cAlt`'s patch changes slot `27`
(from `10` to `20`); after apply + revert the slot holds the snapshot value
again. -/
theorem apply_revert_restores_snapshot_witness :
    hfind cFs1.arcTab 27 ≠ hfind cFs.arcTab 27 ∧
    hfind cFs.arcTab 27 = hfind cMgrA.filepath_backup 27 := by
  constructor
  · decide
  · have h := (apply_revert_restores_snapshot 10 cMgrA cFs cFs1 cFs rfl rfl).1 27 (by decide)
    exact h.symm ▸ rfl

/-! ## C5: behaviour of the apply pass on missing hashes -/

theorem hfind_hset_none {α : Type} (l : List (Hash40 × α)) (k h : Hash40) (v : α) :
    (hfind (hset l k v) h = none) ↔ (hfind l h = none) := by
  constructor
  · intro hh
    cases hl : hfind l h with
    | none => rfl
    | some w =>
      have := hset_isSome l k h v
      rw [hh, hl] at this
      simp at this
  · intro hh
    cases hl : hfind (hset l k v) h with
    | none => rfl
    | some w =>
      have := hset_isSome l k h v
      rw [hh, hl] at this
      simp at this

/-- C5 (amended).  If every entry whose variant hash resolves also has its
base hash present in the table, the apply pass runs to completion, and every
slot all of whose `file_lookup` entries have an unregistered variant is left
untouched (the variant file is skipped, not an error). -/
theorem hackPass_skips_unregistered (fl : List (Hash40 × Hash40)) (tab : List (Hash40 × Nat))
    (hdom : ∀ p ∈ fl, (hfind tab p.2).isSome → (hfind tab p.1).isSome) :
    ∃ tab', hackPass fl tab = some tab' ∧
      ∀ x, (∀ p ∈ fl, p.1 = x → hfind tab p.2 = none) → hfind tab' x = hfind tab x := by
  induction fl generalizing tab with
  | nil => exact ⟨tab, rfl, fun x _ => rfl⟩
  | cons p rest ih =>
    obtain ⟨base, modded⟩ := p
    cases hm : hfind tab modded with
    | none =>
      obtain ⟨tab', hrun, hframe⟩ := ih tab (fun q hq hs => hdom q (List.mem_cons_of_mem _ hq) hs)
      refine ⟨tab', ?_, ?_⟩
      · simp only [hackPass, hm]
        exact hrun
      · intro x hx
        exact hframe x fun q hq hqx => hx q (List.mem_cons_of_mem _ hq) hqx
    | some idx =>
      have hbase : (hfind tab base).isSome :=
        hdom (base, modded) (List.mem_cons_self _ _) (by simp [hm])
      cases hb : hfind tab base with
      | none => rw [hb] at hbase; simp at hbase
      | some w =>
        have hdom2 : ∀ q ∈ rest, (hfind (hset tab base idx) q.2).isSome →
            (hfind (hset tab base idx) q.1).isSome := by
          intro q hq hs
          rw [hset_isSome] at hs ⊢
          exact hdom q (List.mem_cons_of_mem _ hq) hs
        obtain ⟨tab', hrun, hframe⟩ := ih (hset tab base idx) hdom2
        refine ⟨tab', ?_, ?_⟩
        · simp only [hackPass, hm, hb]
          exact hrun
        · intro x hx
          have hxb : base ≠ x := by
            intro hh
            have := hx (base, modded) (List.mem_cons_self _ _) hh
            rw [hm] at this
            cases this
          have hrest : ∀ q ∈ rest, q.1 = x → hfind (hset tab base idx) q.2 = none := by
            intro q hq hqx
            rw [hfind_hset_none]
            exact hx q (List.mem_cons_of_mem _ hq) hqx
          rw [hframe x hrest]
          exact hfind_hset_other tab base x idx (fun hh => hxb hh.symm)

/-- C5 witness for the amended statement: a lookup whose single entry has an
unregistered variant (`2` is absent) succeeds and leaves the base slot `1`
untouched. -/
theorem hackPass_skips_unregistered_witness :
    ∃ tab', hackPass [(1, 2)] [(1, 7)] = some tab' ∧ hfind tab' 1 = hfind [(1, 7)] 1 := by
  obtain ⟨tab', hrun, hframe⟩ := hackPass_skips_unregistered [(1, 2)] [(1, 7)] (by decide)
  exact ⟨tab', hrun, hframe 1 (by decide)⟩

/-- C5 counterexample: a base hash (`1`) absent from the table while its
variant (`2`) resolves makes the whole pass abort (the `unwrap` panics); the
file is not skipped and patching does not continue. -/
theorem hackPass_missing_base_aborts : hackPass [(1, 2)] [(2, 5)] = none := rfl

/-! ## C2: exactly the current alt's patches are live -/

/-- The manager/table invariant: the construction-time snapshots record the
pristine state `fs0`, and the live tables `fs` are exactly `fs0` with the
current alt's patches applied (so at most one alt's patches are live, and
`current_alt` reflects exactly which). -/
def ManagerInv (fuel : Nat) (mgr : StageAltManager) (fs0 fs : Fs) : Prop :=
  mgr.filepath_backup = fs0.arcTab ∧
  mgr.path_backup = fs0.sec.pathToIndex ∧
  hack_lookups_for_alt fuel mgr fs0 = some fs

/-- The apply step reads the manager only through `current_alt`. -/
theorem hack_lookups_congr (fuel : Nat) (mgr mgr' : StageAltManager) (fs : Fs)
    (h : mgr.current_alt = mgr'.current_alt) :
    hack_lookups_for_alt fuel mgr fs = hack_lookups_for_alt fuel mgr' fs := by
  simp only [hack_lookups_for_alt, h]

/-- Reverting from an invariant state restores the pristine tables
exactly (the snapshot values, not the previous alt's values). -/
theorem unhack_after_hack (fuel : Nat) (mgr : StageAltManager) (fs0 fs fs1 : Fs)
    (hnd1 : (fs0.arcTab.map Prod.fst).Nodup)
    (hnd2 : (fs0.sec.pathToIndex.map Prod.fst).Nodup)
    (hinv : ManagerInv fuel mgr fs0 fs)
    (hun : unhack_lookups_for_alt fuel mgr fs = some fs1) :
    fs1 = fs0 := by
  obtain ⟨hb1, hb2, hhack⟩ := hinv
  cases halt : mgr.current_alt with
  | none =>
    simp only [hack_lookups_for_alt, halt, Option.some.injEq] at hhack
    simp only [unhack_lookups_for_alt, halt, Option.some.injEq] at hun
    rw [← hun, ← hhack]
  | some alt =>
    simp only [hack_lookups_for_alt, halt] at hhack
    cases hfl : computeFileLookup fuel fs0.sec.layout alt.alt_folders with
    | none =>
      simp only [hfl] at hhack
      exact Option.noConfusion hhack
    | some fl =>
      simp only [hfl] at hhack
      cases ha : hackPass fl fs0.arcTab with
      | none =>
        simp only [ha] at hhack
        exact Option.noConfusion hhack
      | some arcTab2 =>
        simp only [ha] at hhack
        cases hp : hackPass fl fs0.sec.pathToIndex with
        | none =>
          simp only [hp] at hhack
          exact Option.noConfusion hhack
        | some p2i2 =>
          simp only [hp, Option.some.injEq] at hhack
          subst hhack
          simp only [unhack_lookups_for_alt, halt, hfl] at hun
          cases hua : unhackPass mgr.filepath_backup fl arcTab2 with
          | none =>
            simp only [hua] at hun
            exact Option.noConfusion hun
          | some arcTab3 =>
            simp only [hua] at hun
            cases hup : unhackPass mgr.path_backup fl p2i2 with
            | none =>
              simp only [hup] at hun
              exact Option.noConfusion hun
            | some p2i3 =>
              simp only [hup, Option.some.injEq] at hun
              subst hun
              have harc : arcTab3 = fs0.arcTab := by
                apply hfind_ext_eq fs0.arcTab arcTab3 _ hnd1
                · intro x
                  by_cases hx : x ∈ fl.map Prod.fst
                  · rw [unhackPass_restores mgr.filepath_backup fl arcTab2 arcTab3 hua x hx, hb1]
                  · rw [unhackPass_frame mgr.filepath_backup fl arcTab2 arcTab3 hua x hx,
                      hackPass_frame fl fs0.arcTab arcTab2 ha x hx]
                · rw [unhackPass_keys mgr.filepath_backup fl arcTab2 arcTab3 hua,
                    hackPass_keys fl fs0.arcTab arcTab2 ha]
              have hpp : p2i3 = fs0.sec.pathToIndex := by
                apply hfind_ext_eq fs0.sec.pathToIndex p2i3 _ hnd2
                · intro x
                  by_cases hx : x ∈ fl.map Prod.fst
                  · rw [unhackPass_restores mgr.path_backup fl p2i2 p2i3 hup x hx, hb2]
                  · rw [unhackPass_frame mgr.path_backup fl p2i2 p2i3 hup x hx,
                      hackPass_frame fl fs0.sec.pathToIndex p2i2 hp x hx]
                · rw [unhackPass_keys mgr.path_backup fl p2i2 p2i3 hup,
                    hackPass_keys fl fs0.sec.pathToIndex p2i2 hp]
              rw [harc, hpp]

/-- `change_alt` preserves the invariant: it reverts the active alt (back to
pristine) and then applies exactly the new alt. -/
theorem change_alt_inv (fuel : Nat) (mgr : StageAltManager) (fs0 fs : Fs)
    (newAlt : Option StageAlt) (mgr' : StageAltManager) (fs' : Fs)
    (hnd1 : (fs0.arcTab.map Prod.fst).Nodup)
    (hnd2 : (fs0.sec.pathToIndex.map Prod.fst).Nodup)
    (hinv : ManagerInv fuel mgr fs0 fs)
    (hstep : change_alt fuel mgr fs newAlt = some (mgr', fs')) :
    ManagerInv fuel mgr' fs0 fs' ∧ mgr'.current_alt = newAlt := by
  unfold change_alt at hstep
  cases hun : unhack_lookups_for_alt fuel mgr fs with
  | none =>
    simp only [hun] at hstep
    exact Option.noConfusion hstep
  | some fs1 =>
    simp only [hun] at hstep
    have hfs1 : fs1 = fs0 := unhack_after_hack fuel mgr fs0 fs fs1 hnd1 hnd2 hinv hun
    subst hfs1
    cases hha : hack_lookups_for_alt fuel { mgr with current_alt := newAlt } fs1 with
    | none =>
      simp only [hha] at hstep
      exact Option.noConfusion hstep
    | some fs2 =>
      simp only [hha, Option.some.injEq, Prod.mk.injEq] at hstep
      obtain ⟨rfl, rfl⟩ := hstep
      exact ⟨⟨hinv.1, hinv.2.1, hha⟩, rfl⟩

/-- `select_step` touches only the cursor and selection bookkeeping. -/
theorem select_step_frame (mgr mgr1 : StageAltManager) (incoming : Hash40) (sel : Selection)
    (h : select_step mgr incoming = some (sel, mgr1)) :
    mgr1.filepath_backup = mgr.filepath_backup ∧
    mgr1.path_backup = mgr.path_backup ∧
    mgr1.current_alt = mgr.current_alt := by
  unfold select_step at h
  split at h
  · simp only [Option.some.injEq, Prod.mk.injEq] at h
    obtain ⟨rfl, rfl⟩ := h
    exact ⟨rfl, rfl, rfl⟩
  · split at h
    · simp only [Option.some.injEq, Prod.mk.injEq] at h
      obtain ⟨rfl, rfl⟩ := h
      exact ⟨rfl, rfl, rfl⟩
    · split at h
      · cases hg : mgr.selection.get? 0 with
        | none =>
          simp only [hg] at h
          exact Option.noConfusion h
        | some s =>
          simp only [hg, Option.some.injEq, Prod.mk.injEq] at h
          obtain ⟨rfl, rfl⟩ := h
          exact ⟨rfl, rfl, rfl⟩
      · cases hg : mgr.selection.get? ((mgr.current_index + 1) % mgr.selection.length) with
        | none =>
          simp only [hg] at h
          exact Option.noConfusion h
        | some s =>
          simp only [hg, Option.some.injEq, Prod.mk.injEq] at h
          obtain ⟨rfl, rfl⟩ := h
          exact ⟨rfl, rfl, rfl⟩

/-- C2.  Every successful `advance_alt` transition preserves the invariant
that the live tables are exactly the pristine tables plus the (single)
current alt's patches: each branch reverts the active alt before applying
the newly resolved one, so patches are never double-applied and never
applied over another alt's patches. -/
theorem advance_alt_preserves_inv (fuel : Nat) (mgr : StageAltManager) (fs0 fs : Fs)
    (incoming : Hash40) (isBattle : Bool) (rng : List Nat)
    (mgr' : StageAltManager) (fs' : Fs)
    (hnd1 : (fs0.arcTab.map Prod.fst).Nodup)
    (hnd2 : (fs0.sec.pathToIndex.map Prod.fst).Nodup)
    (hinv : ManagerInv fuel mgr fs0 fs)
    (hstep : advance_alt fuel mgr fs incoming isBattle rng = some (mgr', fs')) :
    ManagerInv fuel mgr' fs0 fs' := by
  unfold advance_alt at hstep
  cases hsel : select_step mgr incoming with
  | none =>
    simp only [hsel] at hstep
    exact Option.noConfusion hstep
  | some p =>
    obtain ⟨sel, mgr1⟩ := p
    simp only [hsel] at hstep
    obtain ⟨hf1, hf2, hfa⟩ := select_step_frame mgr mgr1 incoming sel hsel
    have hinv1 : ManagerInv fuel mgr1 fs0 fs := by
      refine ⟨hf1.trans hinv.1, hf2.trans hinv.2.1, ?_⟩
      rw [hack_lookups_congr fuel mgr1 mgr fs0 hfa]
      exact hinv.2.2
    cases sel with
    | invalid =>
      exact (change_alt_inv fuel mgr1 fs0 fs none mgr' fs' hnd1 hnd2 hinv1 hstep).1
    | random =>
      cases hr : get_random_alt mgr1 incoming isBattle rng with
      | none =>
        simp only [hr] at hstep
        exact Option.noConfusion hstep
      | some altId =>
        simp only [hr] at hstep
        by_cases h0 : altId = 0
        · rw [if_pos h0] at hstep
          exact (change_alt_inv fuel mgr1 fs0 fs none mgr' fs' hnd1 hnd2 hinv1 hstep).1
        · rw [if_neg h0] at hstep
          exact (change_alt_inv fuel mgr1 fs0 fs _ mgr' fs' hnd1 hnd2 hinv1 hstep).1
    | regular name alt =>
      simp only at hstep
      by_cases h0 : alt = 0
      · rw [if_pos h0] at hstep
        cases hc : change_alt fuel mgr1 fs none with
        | none =>
          simp only [hc] at hstep
          exact Option.noConfusion hstep
        | some q =>
          obtain ⟨mgr2, fs2⟩ := q
          simp only [hc] at hstep
          have hinv2 := (change_alt_inv fuel mgr1 fs0 fs none mgr2 fs2 hnd1 hnd2 hinv1 hc).1
          exact (change_alt_inv fuel mgr2 fs0 fs2 _ mgr' fs' hnd1 hnd2 hinv2 hstep).1
      · rw [if_neg h0] at hstep
        simp only at hstep
        exact (change_alt_inv fuel mgr1 fs0 fs _ mgr' fs' hnd1 hnd2 hinv1 hstep).1

/-- A manager with no active alt, empty catalog and empty selection, with
snapshots matching `cFs`. -/
def cMgr0 : StageAltManager :=
  { filepath_backup := [(27, 10), (34, 20)]
  , path_backup := [(27, 100), (34, 200)]
  , folder_backup := [(27, 100), (34, 200)]
  , alt_infos := [], selection := [], current_index := 0
  , current_alt := none, is_online := false }

/-- C2 witness: a concrete `advance_alt` step (empty selection list forces
`Random`; no catalog entry resolves to no alt) preserves the invariant. -/
theorem advance_alt_preserves_inv_witness : ManagerInv 10 cMgr0 cFs cFs :=
  advance_alt_preserves_inv 10 cMgr0 cFs cFs 7 false [] cMgr0 cFs
    (by decide) (by decide) ⟨rfl, rfl, rfl⟩ rfl

/-! ## C9: `set_stage_use_count` is a pure selection-list reset -/

/-- C9.  `set_stage_use_count n` replaces the selection list with `n`
`Invalid` entries and changes nothing else: cursor, active alt, online
flag, catalog and backup tables are untouched, for every prior state. -/
theorem set_stage_use_count_frame (mgr : StageAltManager) (n : Nat) :
    (set_stage_use_count mgr n).selection = List.replicate n .invalid ∧
    (set_stage_use_count mgr n).current_index = mgr.current_index ∧
    (set_stage_use_count mgr n).current_alt = mgr.current_alt ∧
    (set_stage_use_count mgr n).is_online = mgr.is_online ∧
    (set_stage_use_count mgr n).alt_infos = mgr.alt_infos ∧
    (set_stage_use_count mgr n).filepath_backup = mgr.filepath_backup ∧
    (set_stage_use_count mgr n).path_backup = mgr.path_backup ∧
    (set_stage_use_count mgr n).folder_backup = mgr.folder_backup :=
  ⟨rfl, rfl, rfl, rfl, rfl, rfl, rfl, rfl⟩

/-! ## C10: `get_sharing_base_for_alt_folder` ignores its argument -/

/-- C10.  The query returns the current alt's entire `sharing_base`
whenever an alt is active and `none` otherwise, for every folder hash —
the `folder` argument does not influence the result at all. -/
theorem get_sharing_base_ignores_folder (mgr : StageAltManager) (f g : Hash40) :
    get_sharing_base_for_alt_folder mgr f = get_sharing_base_for_alt_folder mgr g ∧
    (mgr.current_alt = none → get_sharing_base_for_alt_folder mgr f = none) ∧
    ∀ alt, mgr.current_alt = some alt →
      get_sharing_base_for_alt_folder mgr f = some alt.sharing_base := by
  refine ⟨rfl, ?_, ?_⟩
  · intro h
    simp [get_sharing_base_for_alt_folder, h]
  · intro alt h
    simp [get_sharing_base_for_alt_folder, h]

/-- C10 witness: folder `3` is not among `cAlt.alt_folders`, yet the query
still returns the whole `sharing_base`. -/
theorem get_sharing_base_ignores_folder_witness :
    get_sharing_base_for_alt_folder cMgrA 3 = some cAlt.sharing_base :=
  (get_sharing_base_ignores_folder cMgrA 3 99).2.2 cAlt rfl

/-! ## C3: `Regular { alt := 0 }` does not end in the no-alt state -/

/-- The synthetic vanilla alt for stage `7` (identity folder map on the
`normal` folder, always safe), as the spec's catalog builder would create
at index 0. -/
def c3Vanilla : StageAlt :=
  { alt_folders := [(3, 3)], sharing_base := [], ui_paths := [0, 0, 0, 0, 0]
  , is_normal_ws := true, is_normal_ignore := false
  , is_battle_ws := true, is_battle_ignore := false }

/-- Catalog entry for stage `7` holding only the vanilla alt. -/
def c3Info : StageAltInfo :=
  { stage_name := 7, stage_folder := 8, normal_folder := 3, battle_folder := 4
  , alts_found := [c3Vanilla] }

/-- A fresh-session manager whose next selection is `Regular(7, 0)`. -/
def c3Mgr : StageAltManager :=
  { filepath_backup := [(27, 10), (34, 20)]
  , path_backup := [(27, 100), (34, 200)]
  , folder_backup := [(27, 100), (34, 200)]
  , alt_infos := [(7, c3Info)], selection := [.regular 7 0]
  , current_index := usizeMax, current_alt := none, is_online := false }

/-- C3 (failing input).  Consuming `Regular(7, 0)` should leave the manager
in the no-alt state, but the `alt == 0` arm of `advance_alt` falls through
(missing `return`) into the unconditional `change_alt`, which installs
`alts_found[0]`: afterwards `current_alt` is `Some(vanilla)`, not `None`. -/
theorem advance_alt_regular_zero_bug :
    (advance_alt 10 c3Mgr cFs 7 false []).map (fun r => r.1.current_alt) =
      some (some c3Vanilla) := rfl

/-! ## C4: the random draw does not exclude ordinal 0 -/

/-- A second, fully qualified (safe, not ignored) alt for stage `7`. -/
def c4Alt1 : StageAlt :=
  { alt_folders := [], sharing_base := [], ui_paths := [0, 0, 0, 0, 0]
  , is_normal_ws := true, is_normal_ignore := false
  , is_battle_ws := true, is_battle_ignore := false }

/-- Catalog entry for stage `7` with the vanilla entry and one real alt. -/
def c4Info : StageAltInfo :=
  { stage_name := 7, stage_folder := 8, normal_folder := 3, battle_folder := 4
  , alts_found := [c3Vanilla, c4Alt1] }

/-- Offline manager with the two-entry catalog for stage `7`. -/
def c4Mgr : StageAltManager :=
  { filepath_backup := [(27, 10), (34, 20)]
  , path_backup := [(27, 100), (34, 200)]
  , folder_backup := [(27, 100), (34, 200)]
  , alt_infos := [(7, c4Info)], selection := []
  , current_index := 0, current_alt := none, is_online := false }

/-- C4 counterexample: stage `7` has a non-empty discovered alt list, yet a
raw draw of `0` lands on index 0 (the synthetic vanilla entry), is not
disqualified by any flag, and is returned — ordinal 0 *is* a candidate of
the draw. -/
theorem get_random_alt_returns_zero :
    get_random_alt c4Mgr 7 false [0] = some 0 ∧ (hfind c4Mgr.alt_infos 7).isSome = true :=
  ⟨rfl, rfl⟩

/-- Every ordinal the retry loop returns is in range and passes both the
online-safety and the ignore check for the requested form. -/
theorem randomLoop_qualified (alts : List StageAlt) (onl b : Bool) (rng : List Nat) (k : Nat)
    (h : randomLoop alts onl b rng = some k) :
    ∃ a, alts.get? k = some a ∧
      (b = true → a.is_battle_ignore = false ∧ (onl = true → a.is_battle_ws = true)) ∧
      (b = false → a.is_normal_ignore = false ∧ (onl = true → a.is_normal_ws = true)) := by
  induction rng with
  | nil => exact Option.noConfusion h
  | cons r rest ih =>
    simp only [randomLoop] at h
    cases hg : alts.get? (r % alts.length) with
    | none =>
      simp only [hg] at h
      exact Option.noConfusion h
    | some a =>
      simp only [hg] at h
      cases b with
      | true =>
        by_cases h1 : (onl && !a.is_battle_ws) = true
        · rw [if_pos h1] at h
          exact ih h
        · rw [if_neg h1] at h
          by_cases h2 : a.is_battle_ignore = true
          · rw [if_pos h2] at h
            exact ih h
          · rw [if_neg h2] at h
            have hk : r % alts.length = k := Option.some.inj h
            refine ⟨a, hk ▸ hg, ?_, ?_⟩
            · intro _
              refine ⟨Bool.not_eq_true _ ▸ h2, fun honl => ?_⟩
              cases hws : a.is_battle_ws with
              | false => exact absurd (by rw [honl, hws]; rfl) h1
              | true => rfl
            · intro hb
              exact Bool.noConfusion hb
      | false =>
        by_cases h1 : (onl && !a.is_normal_ws) = true
        · rw [if_pos h1] at h
          exact ih h
        · rw [if_neg h1] at h
          by_cases h2 : a.is_normal_ignore = true
          · rw [if_pos h2] at h
            exact ih h
          · rw [if_neg h2] at h
            have hk : r % alts.length = k := Option.some.inj h
            refine ⟨a, hk ▸ hg, ?_, ?_⟩
            · intro hb
              exact Bool.noConfusion hb
            · intro _
              refine ⟨Bool.not_eq_true _ ▸ h2, fun honl => ?_⟩
              cases hws : a.is_normal_ws with
              | false => exact absurd (by rw [honl, hws]; rfl) h1
              | true => rfl

/-- C4 (amended).  `get_random_alt` draws among *all* discovered entries of
the stage — index 0 (vanilla) included — re-drawing only when a draw is
disqualified by the online-safety or ignore flags; a stage with no catalog
entry (or an empty list) resolves to 0, and any returned ordinal is in
range and qualified. -/
theorem get_random_alt_qualified (mgr : StageAltManager) (s : Hash40) (b : Bool)
    (rng : List Nat) (k : Nat) (hk : get_random_alt mgr s b rng = some k) :
    (hfind mgr.alt_infos s = none → k = 0) ∧
    ∀ info, hfind mgr.alt_infos s = some info →
      (info.alts_found = [] → k = 0) ∧
      (info.alts_found ≠ [] →
        ∃ a, info.alts_found.get? k = some a ∧
          (b = true →
            a.is_battle_ignore = false ∧ (mgr.is_online = true → a.is_battle_ws = true)) ∧
          (b = false →
            a.is_normal_ignore = false ∧ (mgr.is_online = true → a.is_normal_ws = true))) := by
  unfold get_random_alt at hk
  cases hinfo : hfind mgr.alt_infos s with
  | none =>
    simp only [hinfo] at hk
    refine ⟨fun _ => (Option.some.inj hk).symm, ?_⟩
    intro info h
    exact Option.noConfusion h
  | some info =>
    simp only [hinfo] at hk
    refine ⟨fun h => Option.noConfusion h, ?_⟩
    intro info' hinfo'
    have : info' = info := Option.some.inj hinfo'.symm
    subst this
    constructor
    · intro hempty
      rw [hempty] at hk
      simp only [List.isEmpty_nil, if_true] at hk
      exact (Option.some.inj hk).symm
    · intro hne
      rw [if_neg (by simp [List.isEmpty_iff, hne])] at hk
      exact randomLoop_qualified info'.alts_found mgr.is_online b rng k hk

/-- C4 witness for the amended statement: the draw `1` returns ordinal 1,
which is in range and fully qualified. -/
theorem get_random_alt_qualified_witness :
    ∃ a, c4Info.alts_found.get? 1 = some a ∧
      (true = true → a.is_battle_ignore = false ∧ (c4Mgr.is_online = true → a.is_battle_ws = true)) ∧
      (true = false → a.is_normal_ignore = false ∧ (c4Mgr.is_online = true → a.is_normal_ws = true)) :=
  (((get_random_alt_qualified c4Mgr 7 true [1] 1 rfl).2 c4Info rfl).2 (by decide))

/-! ## C7: the walker's depth guard is an equality test, not `≤` -/

/-- The walker as the spec reads: `depth ≤ 0` yields empty, `depth = d`
recurses into subfolders with `d − 1` (identical to `walk_search_section`
except for the depth guard). -/
def walk_search_section_spec : Nat → SearchLayout → Hash40 → Int → Option (List SearchEntry)
  | 0, _, _, _ => none
  | fuel + 1, L, h, depth =>
    if depth ≤ 0 then some []
    else
      match getFolderPathEntry L h with
      | none => some []
      | some fe =>
        siblingWalk L
          (fun p pathIndex =>
            if p.isDir then
              match walk_search_section_spec fuel L p.path (depth - 1) with
              | none => none
              | some children => some (.folder pathIndex children)
            else some (.file pathIndex))
          (fuel + 1) fe.firstChild

/-- The sibling loop only depends on the visit function pointwise. -/
theorem siblingWalk_congr (L : SearchLayout) (v1 v2 : PathEntry → Nat → Option SearchEntry)
    (hv : ∀ p i, v1 p i = v2 p i) :
    ∀ fuel ci, siblingWalk L v1 fuel ci = siblingWalk L v2 fuel ci := by
  intro fuel
  induction fuel with
  | zero => intro ci; rfl
  | succ n ih =>
    intro ci
    by_cases hci : ci = invalidIdx
    · simp [siblingWalk, hci]
    · simp only [siblingWalk, hci, if_false]
      cases hpl : L.pathListIndices.get? ci with
      | none => rfl
      | some pi =>
        by_cases hpi : pi = invalidIdx
        · simp [hpi]
        · simp only [hpi, if_false]
          cases hpe : L.pathList.get? pi with
          | none => rfl
          | some p =>
            simp only [hpe]
            rw [hv p pi]
            cases v2 p pi with
            | none => rfl
            | some entry => rw [ih p.sibling]

/-- C7 (amended).  For every non-negative depth the walker agrees with the
spec's description (`0` yields empty, `d > 0` walks the sibling chain
recursing with `d − 1`); the divergence is confined to negative depths. -/
theorem walk_matches_spec_nonneg :
    ∀ (fuel : Nat) (L : SearchLayout) (h : Hash40) (d : Int), 0 ≤ d →
      walk_search_section fuel L h d = walk_search_section_spec fuel L h d := by
  intro fuel
  induction fuel with
  | zero => intro L h d hd; rfl
  | succ n ih =>
    intro L h d hd
    by_cases h0 : d = 0
    · subst h0
      rfl
    · have hgt : ¬ d ≤ 0 := by omega
      simp only [walk_search_section, walk_search_section_spec, if_neg h0, if_neg hgt]
      cases getFolderPathEntry L h with
      | none => rfl
      | some fe =>
        apply siblingWalk_congr
        intro p i
        by_cases hdir : p.isDir = true
        · simp only [hdir, if_true]
          rw [ih L p.path (d - 1) (by omega)]
        · simp [hdir]

/-- C7 witness for the amended statement, at depth 1 on the concrete
layout. -/
theorem walk_matches_spec_nonneg_witness :
    walk_search_section 5 cLayout 1 1 = walk_search_section_spec 5 cLayout 1 1 :=
  walk_matches_spec_nonneg 5 cLayout 1 1 (by decide)

/-- C7 counterexample: at depth `-1` the walker does *not* yield the empty
sequence (the guard is `depth == 0`): on the concrete layout it yields the
folder's one child, while the spec's `≤ 0` reading yields none. -/
theorem walk_negative_depth_not_empty :
    (walk_search_section 5 cLayout 1 (-1)).map List.length = some 1 ∧
    (walk_search_section_spec 5 cLayout 1 (-1)).map List.length = some 0 :=
  ⟨rfl, rfl⟩

/-! ## C8: `get_prev_alt` from ordinal 0 -/

theorem hfind_mem {α : Type} (l : List (Hash40 × α)) (h : Hash40) (v : α)
    (hf : hfind l h = some v) : (h, v) ∈ l := by
  induction l with
  | nil => exact Option.noConfusion hf
  | cons p rest ih =>
    obtain ⟨k, w⟩ := p
    rw [hfind_cons] at hf
    by_cases hk : k = h
    · rw [if_pos hk] at hf
      subst hk
      rw [Option.some.inj hf]
      exact List.mem_cons_self _ _
    · rw [if_neg hk] at hf
      exact List.mem_cons_of_mem _ (ih hf)

/-- Modelled from the spec: the catalog shape guaranteed by the Alt Catalog
Builder (not among the provided sources).  Every stage's alt list is
non-empty — ordinal 0 is always synthesized as the vanilla `StageAlt`,
which is "always available, always safe" (both wifi-safe flags set) — and
alt lists are materialised in memory, so shorter than `usize::MAX`. -/
def CatalogWF (mgr : StageAltManager) : Prop :=
  ∀ p ∈ mgr.alt_infos,
    p.2.alts_found.length ≠ 0 ∧
    p.2.alts_found.length < 2 ^ 64 ∧
    ∀ a ∈ p.2.alts_found.take 1, a.is_normal_ws = true ∧ a.is_battle_ws = true

/-- One-step unfolding of `get_prev_alt` at positive fuel. -/
theorem get_prev_alt_succ (fuel : Nat) (mgr : StageAltManager) (s : Hash40) (ci : Nat)
    (b : Bool) :
    get_prev_alt (fuel + 1) mgr s ci b =
      match hfind mgr.alt_infos s with
      | none => some 0
      | some info =>
        match info.alts_found.get? ((ci + (2 ^ 64 - 1)) % 2 ^ 64) with
        | some alt =>
          if wifiSkip mgr.is_online b alt then
            get_prev_alt fuel mgr s ((ci + (2 ^ 64 - 1)) % 2 ^ 64) b
          else some ((ci + (2 ^ 64 - 1)) % 2 ^ 64)
        | none => get_prev_alt fuel mgr s info.alts_found.length b := rfl

/-- A call at cursor 1 examines the vanilla entry 0, which is never
skipped, and returns 0. -/
theorem get_prev_alt_at_one (mgr : StageAltManager) (s : Hash40) (b : Bool)
    (info : StageAltInfo) (hinfo : hfind mgr.alt_infos s = some info)
    (hne : info.alts_found.length ≠ 0)
    (hsafe : ∀ a ∈ info.alts_found.take 1, a.is_normal_ws = true ∧ a.is_battle_ws = true)
    (F : Nat) : get_prev_alt (F + 1) mgr s 1 b = some 0 := by
  rw [get_prev_alt_succ]
  have harith : (1 + (2 ^ 64 - 1)) % 2 ^ 64 = 0 := by omega
  rw [harith]
  cases hl : info.alts_found with
  | nil =>
    rw [hl] at hne
    simp at hne
  | cons a0 rest =>
    have ha0 : info.alts_found.get? 0 = some a0 := by rw [hl]; rfl
    have hmem : a0 ∈ info.alts_found.take 1 := by
      rw [hl]
      simp
    obtain ⟨hn, hbt⟩ := hsafe a0 hmem
    have hskip : wifiSkip mgr.is_online b a0 = false := by
      simp [wifiSkip, hn, hbt]
    simp only [hinfo, ha0]
    rw [if_neg (by simp [hskip])]

/-- Walking backward from cursor `ci ≥ 1` scans downward and terminates:
entry 0 (vanilla) always passes the online-safety check. -/
theorem get_prev_alt_scan (mgr : StageAltManager) (s : Hash40) (b : Bool)
    (info : StageAltInfo) (hinfo : hfind mgr.alt_infos s = some info)
    (hlen : info.alts_found.length < 2 ^ 64)
    (hsafe : ∀ a ∈ info.alts_found.take 1, a.is_normal_ws = true ∧ a.is_battle_ws = true) :
    ∀ (F ci : Nat), 1 ≤ ci → ci ≤ info.alts_found.length → ci ≤ F + 1 →
      ∃ k, get_prev_alt (F + 1) mgr s ci b = some k := by
  intro F
  induction F with
  | zero =>
    intro ci h1 h2 h3
    have hci : ci = 1 := by omega
    subst hci
    exact ⟨0, get_prev_alt_at_one mgr s b info hinfo (by omega) hsafe 0⟩
  | succ F ih =>
    intro ci h1 h2 _
    by_cases hc1 : ci = 1
    · subst hc1
      exact ⟨0, get_prev_alt_at_one mgr s b info hinfo (by omega) hsafe (F + 1)⟩
    · have hci2 : 2 ≤ ci := by omega
      have harith : (ci + (2 ^ 64 - 1)) % 2 ^ 64 = ci - 1 := by omega
      obtain ⟨a, ha⟩ : ∃ a, info.alts_found.get? (ci - 1) = some a := by
        cases hg : info.alts_found.get? (ci - 1) with
        | none =>
          rw [List.get?_eq_none] at hg
          omega
        | some a => exact ⟨a, rfl⟩
      by_cases hskip : wifiSkip mgr.is_online b a = true
      · obtain ⟨k, hk⟩ := ih (ci - 1) (by omega) (by omega) (by omega)
        refine ⟨k, ?_⟩
        rw [get_prev_alt_succ, harith]
        simp only [hinfo, ha]
        rw [if_pos hskip]
        exact hk
      · refine ⟨ci - 1, ?_⟩
        rw [get_prev_alt_succ, harith]
        simp only [hinfo, ha]
        rw [if_neg hskip]

/-- Sufficient fuel for `get_prev_alt` from cursor 0. -/
def prevFuel (mgr : StageAltManager) (s : Hash40) : Nat :=
  match hfind mgr.alt_infos s with
  | none => 1
  | some info => info.alts_found.length + 2

/-- C8.  Under the spec's catalog shape, `get_prev_alt` called with cursor
0 is total: the wrapping unsigned decrement produces an out-of-range index,
the walk restarts at "one past the last entry", scans downward, and returns
an ordinal (entry 0 — the always-safe vanilla — stops the scan at the
latest); a stage with no catalog entry resolves to ordinal 0. -/
theorem get_prev_alt_wraps_total (mgr : StageAltManager) (s : Hash40) (b : Bool)
    (hwf : CatalogWF mgr) :
    (∃ k, get_prev_alt (prevFuel mgr s) mgr s 0 b = some k) ∧
    (hfind mgr.alt_infos s = none → get_prev_alt (prevFuel mgr s) mgr s 0 b = some 0) := by
  cases hinfo : hfind mgr.alt_infos s with
  | none =>
    have hf : prevFuel mgr s = 1 := by simp [prevFuel, hinfo]
    rw [hf]
    have hval : get_prev_alt 1 mgr s 0 b = some 0 := by
      rw [get_prev_alt_succ]
      simp only [hinfo]
    exact ⟨⟨0, hval⟩, fun _ => hval⟩
  | some info =>
    obtain ⟨hne0, hlen0, hsafe0⟩ := hwf (s, info) (hfind_mem mgr.alt_infos s info hinfo)
    have hne : info.alts_found.length ≠ 0 := hne0
    have hlen : info.alts_found.length < 2 ^ 64 := hlen0
    have hsafe : ∀ a ∈ info.alts_found.take 1, a.is_normal_ws = true ∧ a.is_battle_ws = true :=
      hsafe0
    have hfuel : prevFuel mgr s = info.alts_found.length + 2 := by simp [prevFuel, hinfo]
    rw [hfuel]
    refine ⟨?_, fun hnone => Option.noConfusion hnone⟩
    have harith : (0 + (2 ^ 64 - 1)) % 2 ^ 64 = 2 ^ 64 - 1 := by omega
    have hoob : info.alts_found.get? (2 ^ 64 - 1) = none := by
      rw [List.get?_eq_none]
      omega
    have hstep : get_prev_alt (info.alts_found.length + 2) mgr s 0 b =
        get_prev_alt (info.alts_found.length + 1) mgr s info.alts_found.length b := by
      rw [get_prev_alt_succ, harith]
      simp only [hinfo, hoob]
    rw [hstep]
    exact get_prev_alt_scan mgr s b info hinfo hlen hsafe info.alts_found.length
      info.alts_found.length (by omega) (by omega) (by omega)

/-- An unsafe alt for the C8 witness. -/
def c8Unsafe : StageAlt :=
  { alt_folders := [], sharing_base := [], ui_paths := [0, 0, 0, 0, 0]
  , is_normal_ws := false, is_normal_ignore := false
  , is_battle_ws := false, is_battle_ignore := false }

/-- Catalog entry for stage `7`: safe vanilla plus one unsafe alt. -/
def c8Info : StageAltInfo :=
  { stage_name := 7, stage_folder := 8, normal_folder := 3, battle_folder := 4
  , alts_found := [c3Vanilla, c8Unsafe] }

/-- Online manager for the C8 witness. -/
def c8Mgr : StageAltManager :=
  { filepath_backup := [(27, 10), (34, 20)]
  , path_backup := [(27, 100), (34, 200)]
  , folder_backup := [(27, 100), (34, 200)]
  , alt_infos := [(7, c8Info)], selection := []
  , current_index := 0, current_alt := none, is_online := true }

/-- C8 witness: a concrete online manager whose stage has an unsafe last
alt; stepping backward from ordinal 0 still returns an ordinal. -/
theorem get_prev_alt_wraps_total_witness :
    ∃ k, get_prev_alt (prevFuel c8Mgr 7) c8Mgr 7 0 true = some k :=
  (get_prev_alt_wraps_total c8Mgr 7 true (by unfold CatalogWF; decide)).1


/-! ## C6: order-fix idempotence -/

/-- Concrete layout for the C6 counterexample.  `path_list_indices` is
*not* the identity: slot 1 maps to path entry 2.  Folder `100` (one file
child, path entry 0) is the base; folder `200` is the variant, whose
original chain is slot 3 → path entry 1.  Path entries 1 and 2 are both
named `5`. -/
def c6Layout : SearchLayout :=
  { folderPathToIndex := [(100, 0), (200, 1)]
  , folderPathList := [{ path := 100, firstChild := 0 }, { path := 200, firstChild := 3 }]
  , pathListIndices := [0, 2, 2, 1, 3]
  , pathList :=
      [ { path := 101, sibling := invalidIdx, fileName := 5, ext := 0, parent := 100, isDir := false }
      , { path := 201, sibling := invalidIdx, fileName := 5, ext := 0, parent := 200, isDir := false }
      , { path := 202, sibling := invalidIdx, fileName := 5, ext := 0, parent := 200, isDir := false }
      , { path := 200, sibling := invalidIdx, fileName := 20, ext := 0, parent := 0, isDir := true } ] }

/-- The C6 counterexample section (`path_to_index` resolves the variant
folder hash `200` through slot 4). -/
def c6Sec : SearchSection :=
  { layout := c6Layout, pathToIndex := [(200, 4)] }

/-- The state after the first order-fix run on `c6Sec`: the variant
folder's first-child slot holds path-list index 1. -/
def c6S1 : SearchSection :=
  { layout :=
      { folderPathToIndex := [(100, 0), (200, 1)]
      , folderPathList := [{ path := 100, firstChild := 0 }, { path := 200, firstChild := 1 }]
      , pathListIndices := [0, 2, 2, 1, 3]
      , pathList := c6Layout.pathList }
  , pathToIndex := [(200, 4)] }

/-- The state after the second order-fix run: the first-child slot now
holds path-list index 2. -/
def c6S2 : SearchSection :=
  { layout :=
      { folderPathToIndex := [(100, 0), (200, 1)]
      , folderPathList := [{ path := 100, firstChild := 0 }, { path := 200, firstChild := 2 }]
      , pathListIndices := [0, 2, 2, 1, 3]
      , pathList := c6Layout.pathList }
  , pathToIndex := [(200, 4)] }

/-- The static (never-mutated) part of a path entry: everything except the
sibling link. -/
def PathEntry.stat (p : PathEntry) : Hash40 × Hash40 × Hash40 × Hash40 × Bool :=
  (p.path, p.fileName, p.ext, p.parent, p.isDir)

/-- Two sections agreeing on everything `file_order_fix` never mutates:
the hash tables, `path_list_indices`, list lengths, folder-entry paths and
path-entry static fields. -/
def staticEq (s s' : SearchSection) : Prop :=
  s'.pathToIndex = s.pathToIndex ∧
  s'.layout.folderPathToIndex = s.layout.folderPathToIndex ∧
  s'.layout.pathListIndices = s.layout.pathListIndices ∧
  s'.layout.folderPathList.length = s.layout.folderPathList.length ∧
  (∀ j, (s'.layout.folderPathList.get? j).map FolderEntry.path =
    (s.layout.folderPathList.get? j).map FolderEntry.path) ∧
  s'.layout.pathList.length = s.layout.pathList.length ∧
  (∀ i, (s'.layout.pathList.get? i).map PathEntry.stat =
    (s.layout.pathList.get? i).map PathEntry.stat)

theorem staticEq_refl (s : SearchSection) : staticEq s s :=
  ⟨rfl, rfl, rfl, rfl, fun _ => rfl, rfl, fun _ => rfl⟩

theorem staticEq_trans {s t u : SearchSection} (h1 : staticEq s t) (h2 : staticEq t u) :
    staticEq s u := by
  obtain ⟨a1, a2, a3, a4, a5, a6, a7⟩ := h1
  obtain ⟨b1, b2, b3, b4, b5, b6, b7⟩ := h2
  exact ⟨b1.trans a1, b2.trans a2, b3.trans a3, b4.trans a4,
    fun j => (b5 j).trans (a5 j), b6.trans a6, fun i => (b7 i).trans (a7 i)⟩

theorem setSibling_staticEq (s s' : SearchSection) (i v : Nat)
    (h : setSibling s i v = some s') : staticEq s s' := by
  unfold setSibling at h
  cases hg : s.layout.pathList.get? i with
  | none =>
    rw [hg] at h
    exact Option.noConfusion h
  | some p =>
    rw [hg] at h
    cases h
    refine ⟨rfl, rfl, rfl, rfl, fun j => rfl, by simp, fun k => ?_⟩
    by_cases hk : i = k
    · subst hk
      rw [List.get?_set_eq _ _ _]
      rw [hg]
      rfl
    · rw [List.get?_set_ne _ _ hk]

theorem setFirstChild_staticEq (s s' : SearchSection) (i v : Nat)
    (h : setFirstChild s i v = some s') : staticEq s s' := by
  unfold setFirstChild at h
  cases hg : s.layout.folderPathList.get? i with
  | none =>
    rw [hg] at h
    exact Option.noConfusion h
  | some fe =>
    rw [hg] at h
    cases h
    refine ⟨rfl, rfl, rfl, by simp, fun j => ?_, rfl, fun k => rfl⟩
    by_cases hj : i = j
    · subst hj
      rw [List.get?_set_eq _ _ _]
      rw [hg]
      rfl
    · rw [List.get?_set_ne _ _ hj]

theorem writeChain_staticEq (l : List Nat) :
    ∀ s s' : SearchSection, writeChain s l = some s' → staticEq s s' := by
  induction l with
  | nil =>
    intro s s' h
    unfold writeChain at h
    cases h
    exact staticEq_refl s
  | cons i rest ih =>
    intro s s' h
    cases rest with
    | nil => exact setSibling_staticEq s s' i invalidIdx h
    | cons j more =>
      unfold writeChain at h
      cases hs : setSibling s i j with
      | none =>
        simp only [hs] at h
        exact Option.noConfusion h
      | some s2 =>
        simp only [hs] at h
        exact staticEq_trans (setSibling_staticEq s s2 i j hs) (ih s2 s' h)

theorem fixLoop_staticEq (fixRec : SearchSection → Hash40 → Hash40 → Option SearchSection)
    (hrec : ∀ u u' a b, fixRec u a b = some u' → staticEq u u')
    (gdcFuel dstIndex : Nat) (entries : List SearchEntry) :
    ∀ (s s2 : SearchSection) (ordered ordered2 : List Nat),
      fixLoop fixRec gdcFuel dstIndex entries s ordered = some (s2, ordered2) →
      staticEq s s2 := by
  induction entries with
  | nil =>
    intro s s2 ordered ordered2 h
    unfold fixLoop at h
    cases h
    exact staticEq_refl s
  | cons entry rest ih =>
    intro s s2 ordered ordered2 h
    unfold fixLoop at h
    cases hsc : s.layout.pathList.get? entry.topIndex with
    | none =>
      simp only [hsc] at h
      exact Option.noConfusion h
    | some srcChild =>
      simp only [hsc] at h
      cases hdc : get_direct_child gdcFuel s.layout dstIndex srcChild.fileName with
      | none =>
        simp only [hdc] at h
        exact Option.noConfusion h
      | some dc =>
        cases dc with
        | none =>
          simp only [hdc] at h
          exact ih s s2 ordered ordered2 h
        | some dstChild =>
          simp only [hdc] at h
          cases hdp : s.layout.pathList.get? dstChild with
          | none =>
            simp only [hdp] at h
            exact Option.noConfusion h
          | some dstChildPath =>
            simp only [hdp] at h
            by_cases hdir : dstChildPath.isDir = true
            · rw [if_pos hdir] at h
              cases hrc : fixRec s srcChild.path dstChildPath.path with
              | none =>
                simp only [hrc] at h
                exact Option.noConfusion h
              | some sA =>
                simp only [hrc] at h
                exact staticEq_trans (hrec s sA srcChild.path dstChildPath.path hrc)
                  (ih sA s2 (ordered ++ [dstChild]) ordered2 h)
            · rw [if_neg hdir] at h
              exact ih s s2 (ordered ++ [dstChild]) ordered2 h

theorem file_order_fix_staticEq (fuel : Nat) :
    ∀ (s s' : SearchSection) (src dst : Hash40),
      file_order_fix fuel s src dst = some s' → staticEq s s' := by
  induction fuel with
  | zero => intro s s' src dst h; exact Option.noConfusion h
  | succ fuel ih =>
    intro s s' src dst h
    unfold file_order_fix at h
    cases h1 : getPathListIndex s dst with
    | none =>
      simp only [h1] at h
      exact Option.noConfusion h
    | some o1 =>
      cases o1 with
      | none =>
        simp only [h1] at h
        cases h
        exact staticEq_refl s
      | some dstIndex =>
        simp only [h1] at h
        cases h2 : s.layout.pathList.get? dstIndex with
        | none =>
          simp only [h2] at h
          exact Option.noConfusion h
        | some dstPath =>
          simp only [h2] at h
          by_cases h3 : dstPath.isDir = true
          · rw [if_neg (by simp [h3])] at h
            cases h4 : walk_search_section (fuel + 1) s.layout src 1 with
            | none =>
              simp only [h4] at h
              exact Option.noConfusion h
            | some sourceEntries =>
              simp only [h4] at h
              by_cases h5 : sourceEntries.isEmpty = true
              · rw [if_pos h5] at h
                cases h
                exact staticEq_refl s
              · rw [if_neg h5] at h
                cases h6 : fixLoop (file_order_fix fuel) (fuel + 1) dstIndex sourceEntries s []
                  with
                | none =>
                  simp only [h6] at h
                  exact Option.noConfusion h
                | some p =>
                  obtain ⟨s2, ordered⟩ := p
                  simp only [h6] at h
                  have hst2 : staticEq s s2 :=
                    fixLoop_staticEq (file_order_fix fuel)
                      (fun u u' a b hr => ih u u' a b hr) (fuel + 1) dstIndex
                      sourceEntries s s2 [] ordered h6
                  cases h7 : walk_search_section (fuel + 1) s2.layout dst 1 with
                  | none =>
                    simp only [h7] at h
                    exact Option.noConfusion h
                  | some dstEntries =>
                    simp only [h7] at h
                    cases h8 : hfind s2.layout.folderPathToIndex dst with
                    | none =>
                      simp only [h8] at h
                      cases h
                      exact hst2
                    | some folderPathIndex =>
                      simp only [h8] at h
                      cases h9 : appendMissing ordered dstEntries with
                      | nil =>
                        simp only [h9] at h
                        exact staticEq_trans hst2
                          (setFirstChild_staticEq s2 s' folderPathIndex invalidIdx h)
                      | cons first more =>
                        simp only [h9] at h
                        cases h10 : setFirstChild s2 folderPathIndex first with
                        | none =>
                          simp only [h10] at h
                          exact Option.noConfusion h
                        | some s3 =>
                          simp only [h10] at h
                          exact staticEq_trans hst2
                            (staticEq_trans
                              (setFirstChild_staticEq s2 s3 folderPathIndex first h10)
                              (writeChain_staticEq (first :: more) s3 s' h))
          · rw [if_pos (by simp [h3])] at h
            cases h
            exact staticEq_refl s

theorem getElem?_set_of_get? {α : Type} (l : List α) (i : Nat) (p a : α)
    (h : l.get? i = some p) : (l.set i a)[i]? = some a := by
  have hi : i < l.length := by
    by_contra hge
    rw [List.get?_eq_none.mpr (Nat.le_of_not_lt hge)] at h
    exact Option.noConfusion h
  simp [List.getElem?_set_self', List.get?_eq_getElem?] at h ⊢
  simp [h]

theorem list_set_self {α : Type} (l : List α) (i : Nat) (a : α)
    (h : l.get? i = some a) : l.set i a = l := by
  induction l generalizing i with
  | nil => exact Option.noConfusion h
  | cons x xs ih =>
    cases i with
    | zero =>
      cases h
      rfl
    | succ n =>
      simp only [List.set]
      rw [ih n h]

/-- The sibling links written by `writeChain`: each listed entry points at
the next, the last at the sentinel. -/
def chainInv (s : SearchSection) : List Nat → Prop
  | [] => True
  | [i] => ∃ p, s.layout.pathList.get? i = some p ∧ p.sibling = invalidIdx
  | i :: j :: rest =>
    (∃ p, s.layout.pathList.get? i = some p ∧ p.sibling = j) ∧ chainInv s (j :: rest)

theorem setSibling_get_eq (s s' : SearchSection) (i v : Nat)
    (h : setSibling s i v = some s') :
    ∃ p, s.layout.pathList.get? i = some p ∧
      s'.layout.pathList.get? i = some { p with sibling := v } := by
  unfold setSibling at h
  cases hg : s.layout.pathList.get? i with
  | none =>
    rw [hg] at h
    exact Option.noConfusion h
  | some p =>
    rw [hg] at h
    cases h
    refine ⟨p, rfl, ?_⟩
    simp only [List.get?_eq_getElem?]
    exact getElem?_set_of_get? _ _ _ _ hg

theorem setSibling_get_ne (s s' : SearchSection) (i v : Nat)
    (h : setSibling s i v = some s') (k : Nat) (hk : k ≠ i) :
    s'.layout.pathList.get? k = s.layout.pathList.get? k := by
  unfold setSibling at h
  cases hg : s.layout.pathList.get? i with
  | none =>
    rw [hg] at h
    exact Option.noConfusion h
  | some p =>
    rw [hg] at h
    cases h
    simp only
    rw [List.get?_set_ne _ _ (fun hh => hk hh.symm)]

theorem setSibling_fpl (s s' : SearchSection) (i v : Nat)
    (h : setSibling s i v = some s') :
    s'.layout.folderPathList = s.layout.folderPathList := by
  unfold setSibling at h
  cases hg : s.layout.pathList.get? i with
  | none =>
    rw [hg] at h
    exact Option.noConfusion h
  | some p =>
    rw [hg] at h
    cases h
    rfl

/-- Success, frame and resulting link structure of `writeChain` on a
duplicate-free, in-bounds list. -/
theorem writeChain_spec (l : List Nat) (s : SearchSection)
    (hnd : l.Nodup) (hb : ∀ i ∈ l, (s.layout.pathList.get? i).isSome) :
    ∃ s', writeChain s l = some s' ∧ chainInv s' l ∧
      (∀ k, k ∉ l → s'.layout.pathList.get? k = s.layout.pathList.get? k) ∧
      s'.layout.folderPathList = s.layout.folderPathList := by
  induction l generalizing s with
  | nil => exact ⟨s, rfl, trivial, fun k _ => rfl, rfl⟩
  | cons i rest ih =>
    cases rest with
    | nil =>
      obtain ⟨p, hp⟩ := Option.isSome_iff_exists.mp (hb i (List.mem_cons_self _ _))
      have hset : setSibling s i invalidIdx =
          some { s with layout := { s.layout with
            pathList := s.layout.pathList.set i { p with sibling := invalidIdx } } } := by
        unfold setSibling
        rw [hp]
      refine ⟨_, hset, ?_, ?_, rfl⟩
      · refine ⟨{ p with sibling := invalidIdx }, ?_, rfl⟩
        simp only [List.get?_eq_getElem?]
        exact getElem?_set_of_get? _ _ _ _ hp
      · intro k hk
        have : k ≠ i := by
          intro hh
          exact hk (hh ▸ List.mem_cons_self _ _)
        simp only
        rw [List.get?_set_ne _ _ (fun hh => this hh.symm)]
    | cons j more =>
      obtain ⟨p, hp⟩ := Option.isSome_iff_exists.mp (hb i (List.mem_cons_self _ _))
      have hset : setSibling s i j =
          some { s with layout := { s.layout with
            pathList := s.layout.pathList.set i { p with sibling := j } } } := by
        unfold setSibling
        rw [hp]
      set sA : SearchSection := { s with layout := { s.layout with
        pathList := s.layout.pathList.set i { p with sibling := j } } } with hsA
      have hndr : (j :: more).Nodup := (List.nodup_cons.mp hnd).2
      have hinotin : i ∉ (j :: more) := (List.nodup_cons.mp hnd).1
      have hbr : ∀ x ∈ (j :: more), (sA.layout.pathList.get? x).isSome := by
        intro x hx
        have hxi : x ≠ i := fun hh => hinotin (hh ▸ hx)
        have : sA.layout.pathList.get? x = s.layout.pathList.get? x := by
          simp only [hsA]
          rw [List.get?_set_ne _ _ (fun hh => hxi hh.symm)]
        rw [this]
        exact hb x (List.mem_cons_of_mem _ hx)
      obtain ⟨s', hrun, hchain, hframe, hfpl⟩ := ih sA hndr hbr
      refine ⟨s', ?_, ?_, ?_, ?_⟩
      · unfold writeChain
        rw [hset]
        exact hrun
      · refine ⟨⟨{ p with sibling := j }, ?_, rfl⟩, hchain⟩
        rw [hframe i hinotin]
        simp only [hsA, List.get?_eq_getElem?]
        exact getElem?_set_of_get? _ _ _ _ hp
      · intro k hk
        have hki : k ≠ i := fun hh => hk (hh ▸ List.mem_cons_self _ _)
        have hkr : k ∉ (j :: more) := fun hh => hk (List.mem_cons_of_mem _ hh)
        rw [hframe k hkr]
        simp only [hsA]
        rw [List.get?_set_ne _ _ (fun hh => hki hh.symm)]
      · rw [hfpl]

/-- Rewriting a chain that is already in place changes nothing. -/
theorem writeChain_noop (l : List Nat) (s : SearchSection) (h : chainInv s l) :
    writeChain s l = some s := by
  induction l generalizing s with
  | nil => rfl
  | cons i rest ih =>
    cases rest with
    | nil =>
      obtain ⟨p, hp, hsib⟩ := h
      unfold writeChain setSibling
      simp only [hp]
      have : ({ p with sibling := invalidIdx } : PathEntry) = p := by
        rw [← hsib]
      rw [this, list_set_self _ _ _ hp]
    | cons j more =>
      obtain ⟨⟨p, hp, hsib⟩, hrest⟩ := h
      unfold writeChain
      have hset : setSibling s i j = some s := by
        unfold setSibling
        simp only [hp]
        have : ({ p with sibling := j } : PathEntry) = p := by
          rw [← hsib]
        rw [this, list_set_self _ _ _ hp]
      rw [hset]
      exact ih s hrest

theorem setFirstChild_spec (s : SearchSection) (j v : Nat) (fe : FolderEntry)
    (hfe : s.layout.folderPathList.get? j = some fe) :
    ∃ s', setFirstChild s j v = some s' ∧
      s'.layout.folderPathList.get? j = some { fe with firstChild := v } ∧
      (∀ k, k ≠ j → s'.layout.folderPathList.get? k = s.layout.folderPathList.get? k) ∧
      s'.layout.pathList = s.layout.pathList := by
  have hw : setFirstChild s j v = some { s with layout := { s.layout with
      folderPathList := s.layout.folderPathList.set j { fe with firstChild := v } } } := by
    unfold setFirstChild
    simp only [hfe]
  refine ⟨_, hw, ?_, ?_, rfl⟩
  · simp only [List.get?_eq_getElem?]
    exact getElem?_set_of_get? _ _ _ _ hfe
  · intro k hk
    simp only
    rw [List.get?_set_ne _ _ (fun hh => hk hh.symm)]

theorem setFirstChild_noop (s : SearchSection) (j : Nat) (fe : FolderEntry)
    (hfe : s.layout.folderPathList.get? j = some fe) :
    setFirstChild s j fe.firstChild = some s := by
  unfold setFirstChild
  simp only [hfe]
  have : ({ fe with firstChild := fe.firstChild } : FolderEntry) = fe := rfl
  rw [this, list_set_self _ _ _ hfe]

theorem siblingWalk_length (L : SearchLayout) (v : PathEntry → Nat → Option SearchEntry) :
    ∀ (F ci : Nat) (l : List SearchEntry), siblingWalk L v F ci = some l → l.length < F := by
  intro F
  induction F with
  | zero => intro ci l h; exact Option.noConfusion h
  | succ n ih =>
    intro ci l h
    unfold siblingWalk at h
    by_cases hci : ci = invalidIdx
    · rw [if_pos hci] at h
      cases h
      simp
    · rw [if_neg hci] at h
      cases hpl : L.pathListIndices.get? ci with
      | none =>
        simp only [hpl] at h
        exact Option.noConfusion h
      | some pi =>
        simp only [hpl] at h
        by_cases hpi : pi = invalidIdx
        · rw [if_pos hpi] at h
          cases h
          simp
        · rw [if_neg hpi] at h
          cases hpe : L.pathList.get? pi with
          | none =>
            simp only [hpe] at h
            exact Option.noConfusion h
          | some p =>
            simp only [hpe] at h
            cases hv : v p pi with
            | none =>
              simp only [hv] at h
              exact Option.noConfusion h
            | some entry =>
              simp only [hv] at h
              cases hr : siblingWalk L v n p.sibling with
              | none =>
                simp only [hr] at h
                exact Option.noConfusion h
              | some rest =>
                simp only [hr] at h
                cases h
                have := ih p.sibling rest hr
                simp only [List.length_cons]
                omega

/-- The one-level visit function of `walk_search_section` at depth 1. -/
def visitD1 (wf : Nat) (L : SearchLayout) (p : PathEntry) (pathIndex : Nat) :
    Option SearchEntry :=
  if p.isDir then
    match walk_search_section wf L p.path 0 with
    | none => none
    | some children => some (.folder pathIndex children)
  else some (.file pathIndex)

theorem walk_depth_one (F : Nat) (L : SearchLayout) (h : Hash40) :
    walk_search_section (F + 1) L h 1 =
      match getFolderPathEntry L h with
      | none => some []
      | some fe => siblingWalk L (visitD1 F L) (F + 1) fe.firstChild := rfl

theorem visitD1_topIndex (wf : Nat) (L : SearchLayout) (p : PathEntry) (i : Nat)
    (e : SearchEntry) (h : visitD1 wf L p i = some e) : e.topIndex = i := by
  unfold visitD1 at h
  by_cases hd : p.isDir = true
  · rw [if_pos hd] at h
    cases hw : walk_search_section wf L p.path 0 with
    | none =>
      simp only [hw] at h
      exact Option.noConfusion h
    | some children =>
      simp only [hw] at h
      cases h
      rfl
  · rw [if_neg hd] at h
    cases h
    rfl

/-- First entry of a sibling chain carrying a given file name. -/
def findByName (L : SearchLayout) (n : Hash40) : List Nat → Option Nat
  | [] => none
  | i :: rest =>
    match L.pathList.get? i with
    | none => findByName L n rest
    | some p => if p.fileName = n then some i else findByName L n rest

/-- `get_direct_child`'s scan agrees with name search over the walked
sibling chain (they follow the same links with the same fuel). -/
theorem gdcLoop_vs_walk (L : SearchLayout) (v : PathEntry → Nat → Option SearchEntry)
    (hvtop : ∀ p i e, v p i = some e → e.topIndex = i) (n : Hash40) :
    ∀ (F ci : Nat) (l : List SearchEntry), siblingWalk L v F ci = some l →
      getDirectChildLoop L n F ci = some (findByName L n (l.map SearchEntry.topIndex)) := by
  intro F
  induction F with
  | zero => intro ci l h; exact Option.noConfusion h
  | succ m ih =>
    intro ci l h
    unfold siblingWalk at h
    by_cases hci : ci = invalidIdx
    · rw [if_pos hci] at h
      cases h
      unfold getDirectChildLoop
      rw [if_pos hci]
      rfl
    · rw [if_neg hci] at h
      cases hpl : L.pathListIndices.get? ci with
      | none =>
        simp only [hpl] at h
        exact Option.noConfusion h
      | some pi =>
        simp only [hpl] at h
        by_cases hpi : pi = invalidIdx
        · rw [if_pos hpi] at h
          cases h
          unfold getDirectChildLoop
          rw [if_neg hci]
          simp only [hpl]
          rw [if_pos hpi]
          rfl
        · rw [if_neg hpi] at h
          cases hpe : L.pathList.get? pi with
          | none =>
            simp only [hpe] at h
            exact Option.noConfusion h
          | some p =>
            simp only [hpe] at h
            cases hv : v p pi with
            | none =>
              simp only [hv] at h
              exact Option.noConfusion h
            | some entry =>
              simp only [hv] at h
              cases hr : siblingWalk L v m p.sibling with
              | none =>
                simp only [hr] at h
                exact Option.noConfusion h
              | some rest =>
                simp only [hr] at h
                cases h
                have htop : entry.topIndex = pi := hvtop p pi entry hv
                unfold getDirectChildLoop
                rw [if_neg hci]
                simp only [hpl]
                rw [if_neg hpi]
                simp only [hpe]
                simp only [List.map_cons, htop, findByName, hpe]
                by_cases hn : p.fileName = n
                · rw [if_pos hn, if_pos hn]
                · rw [if_neg hn, if_neg hn]
                  exact ih p.sibling rest hr

theorem findByName_mem (L : SearchLayout) (n : Hash40) :
    ∀ (l : List Nat) (x : Nat), findByName L n l = some x →
      x ∈ l ∧ ∃ p, L.pathList.get? x = some p ∧ p.fileName = n := by
  intro l
  induction l with
  | nil => intro x h; exact Option.noConfusion h
  | cons i rest ih =>
    intro x h
    unfold findByName at h
    cases hg : L.pathList.get? i with
    | none =>
      simp only [hg] at h
      obtain ⟨hm, hp⟩ := ih x h
      exact ⟨List.mem_cons_of_mem _ hm, hp⟩
    | some p =>
      simp only [hg] at h
      by_cases hn : p.fileName = n
      · rw [if_pos hn] at h
        cases h
        exact ⟨List.mem_cons_self _ _, p, hg, hn⟩
      · rw [if_neg hn] at h
        obtain ⟨hm, hp⟩ := ih x h
        exact ⟨List.mem_cons_of_mem _ hm, hp⟩

theorem findByName_none (L : SearchLayout) (n : Hash40) :
    ∀ (l : List Nat), findByName L n l = none →
      ∀ i ∈ l, ∀ p, L.pathList.get? i = some p → p.fileName ≠ n := by
  intro l
  induction l with
  | nil => intro _ i hi; simp at hi
  | cons j rest ih =>
    intro h i hi p hp
    unfold findByName at h
    cases hg : L.pathList.get? j with
    | none =>
      simp only [hg] at h
      cases List.mem_cons.mp hi with
      | inl hij =>
        subst hij
        rw [hp] at hg
        exact Option.noConfusion hg
      | inr hir => exact ih h i hir p hp
    | some q =>
      simp only [hg] at h
      by_cases hn : q.fileName = n
      · rw [if_pos hn] at h
        exact Option.noConfusion h
      · rw [if_neg hn] at h
        cases List.mem_cons.mp hi with
        | inl hij =>
          subst hij
          rw [hp] at hg
          cases hg
          exact hn
        | inr hir => exact ih h i hir p hp

/-- Name search depends only on the set of chain members when the pool of
candidate entries carries pairwise distinct names. -/
theorem findByName_ext (L : SearchLayout) (n : Hash40) (l1 l2 base : List Nat)
    (hs1 : ∀ x ∈ l1, x ∈ base) (hs2 : ∀ x ∈ l2, x ∈ base)
    (hset : ∀ x, x ∈ l1 ↔ x ∈ l2)
    (hb : ∀ i ∈ base, (L.pathList.get? i).isSome)
    (hinj : ∀ i j p q, i ∈ base → j ∈ base → L.pathList.get? i = some p →
      L.pathList.get? j = some q → p.fileName = q.fileName → i = j) :
    findByName L n l1 = findByName L n l2 := by
  cases h1 : findByName L n l1 with
  | some x =>
    obtain ⟨hm1, p, hp, hn⟩ := findByName_mem L n l1 x h1
    cases h2 : findByName L n l2 with
    | some y =>
      obtain ⟨hm2, q, hq, hqn⟩ := findByName_mem L n l2 y h2
      have : x = y :=
        hinj x y p q (hs1 x hm1) (hs2 y hm2) hp hq (hn.trans hqn.symm)
      rw [this]
    | none =>
      have hx2 : x ∈ l2 := (hset x).mp hm1
      exact absurd hn (findByName_none L n l2 h2 x hx2 p hp)
  | none =>
    cases h2 : findByName L n l2 with
    | some y =>
      obtain ⟨hm2, q, hq, hqn⟩ := findByName_mem L n l2 y h2
      have hy1 : y ∈ l1 := (hset y).mpr hm2
      exact absurd hqn (findByName_none L n l1 h1 y hy1 q hq)
    | none => rfl

theorem siblingWalk_entries_isSome (L : SearchLayout)
    (v : PathEntry → Nat → Option SearchEntry)
    (hvtop : ∀ p i e, v p i = some e → e.topIndex = i) :
    ∀ (F ci : Nat) (l : List SearchEntry), siblingWalk L v F ci = some l →
      ∀ e ∈ l, (L.pathList.get? e.topIndex).isSome := by
  intro F
  induction F with
  | zero => intro ci l h; exact Option.noConfusion h
  | succ m ih =>
    intro ci l h e he
    unfold siblingWalk at h
    by_cases hci : ci = invalidIdx
    · rw [if_pos hci] at h
      cases h
      simp at he
    · rw [if_neg hci] at h
      cases hpl : L.pathListIndices.get? ci with
      | none =>
        simp only [hpl] at h
        exact Option.noConfusion h
      | some pi =>
        simp only [hpl] at h
        by_cases hpi : pi = invalidIdx
        · rw [if_pos hpi] at h
          cases h
          simp at he
        · rw [if_neg hpi] at h
          cases hpe : L.pathList.get? pi with
          | none =>
            simp only [hpe] at h
            exact Option.noConfusion h
          | some p =>
            simp only [hpe] at h
            cases hv : v p pi with
            | none =>
              simp only [hv] at h
              exact Option.noConfusion h
            | some entry =>
              simp only [hv] at h
              cases hr : siblingWalk L v m p.sibling with
              | none =>
                simp only [hr] at h
                exact Option.noConfusion h
              | some rest =>
                simp only [hr] at h
                cases h
                cases List.mem_cons.mp he with
                | inl hee =>
                  subst hee
                  rw [hvtop p pi e hv, hpe]
                  rfl
                | inr hee => exact ih p.sibling rest hr e hee

/-- Walking a sibling chain that `writeChain` has just laid down yields
exactly the written list (identity `path_list_indices`, in-bounds entries,
no directories among them). -/
theorem chain_siblingWalk (s : SearchSection) (wf : Nat)
    (hpli : s.layout.pathListIndices = List.range s.layout.pathList.length)
    (hlen : s.layout.pathList.length ≤ invalidIdx) :
    ∀ (l : List Nat) (F : Nat), chainInv s l → l.length ≤ F →
      (∀ i ∈ l, ∀ p, s.layout.pathList.get? i = some p → p.isDir = false) →
      siblingWalk s.layout (visitD1 wf s.layout) (F + 1) (l.headD invalidIdx) =
        some (l.map SearchEntry.file) := by
  intro l
  induction l with
  | nil =>
    intro F _ _ _
    show siblingWalk s.layout (visitD1 wf s.layout) (F + 1) invalidIdx =
      some (List.map SearchEntry.file [])
    unfold siblingWalk
    rw [if_pos rfl]
    rfl
  | cons i rest ih =>
    intro F hchain hF hflat
    obtain ⟨p, hp, hsib⟩ : ∃ p, s.layout.pathList.get? i = some p ∧
        p.sibling = rest.headD invalidIdx := by
      cases rest with
      | nil => exact hchain
      | cons j more =>
        obtain ⟨⟨p, hp, hs⟩, _⟩ := hchain
        exact ⟨p, hp, hs⟩
    have hi : i < s.layout.pathList.length := (List.get?_eq_some.mp hp).1
    have hiv : i ≠ invalidIdx := by omega
    have hpli_i : s.layout.pathListIndices.get? i = some i := by
      rw [hpli]
      exact List.get?_range hi
    have hvis : visitD1 wf s.layout p i = some (SearchEntry.file i) := by
      unfold visitD1
      rw [if_neg (by rw [hflat i (List.mem_cons_self _ _) p hp]; simp)]
    have hrest : chainInv s rest := by
      cases rest with
      | nil => trivial
      | cons j more => exact hchain.2
    cases F with
    | zero => simp at hF
    | succ F2 =>
      have hrec := ih F2 hrest (by simp at hF; omega)
        (fun x hx q hq => hflat x (List.mem_cons_of_mem _ hx) q hq)
      unfold siblingWalk
      simp only [List.headD_cons]
      rw [if_neg hiv]
      simp only [hpli_i]
      rw [if_neg hiv]
      simp only [hp, hvis, hsib, hrec]
      rfl

/-- Scanning that same freshly written chain for a name is `findByName`. -/
theorem chain_gdcLoop (s : SearchSection) (n : Hash40)
    (hpli : s.layout.pathListIndices = List.range s.layout.pathList.length)
    (hlen : s.layout.pathList.length ≤ invalidIdx) :
    ∀ (l : List Nat) (F : Nat), chainInv s l → l.length ≤ F →
      getDirectChildLoop s.layout n (F + 1) (l.headD invalidIdx) =
        some (findByName s.layout n l) := by
  intro l
  induction l with
  | nil =>
    intro F _ _
    show getDirectChildLoop s.layout n (F + 1) invalidIdx = some (findByName s.layout n [])
    unfold getDirectChildLoop
    rw [if_pos rfl]
    rfl
  | cons i rest ih =>
    intro F hchain hF
    obtain ⟨p, hp, hsib⟩ : ∃ p, s.layout.pathList.get? i = some p ∧
        p.sibling = rest.headD invalidIdx := by
      cases rest with
      | nil => exact hchain
      | cons j more =>
        obtain ⟨⟨p, hp, hs⟩, _⟩ := hchain
        exact ⟨p, hp, hs⟩
    have hi : i < s.layout.pathList.length := (List.get?_eq_some.mp hp).1
    have hiv : i ≠ invalidIdx := by omega
    have hpli_i : s.layout.pathListIndices.get? i = some i := by
      rw [hpli]
      exact List.get?_range hi
    have hrest : chainInv s rest := by
      cases rest with
      | nil => trivial
      | cons j more => exact hchain.2
    unfold getDirectChildLoop
    simp only [List.headD_cons]
    rw [if_neg hiv]
    simp only [hpli_i]
    rw [if_neg hiv]
    simp only [hp]
    unfold findByName
    simp only [hp]
    by_cases hn : p.fileName = n
    · rw [if_pos hn, if_pos hn]
    · rw [if_neg hn, if_neg hn]
      cases F with
      | zero => simp at hF
      | succ F2 =>
        rw [hsib]
        exact ih F2 hrest (by simp at hF; omega)

/-- A depth-1 walk is unchanged in a second layout agreeing on
`path_list_indices` and the path entries the walk visits. -/
theorem siblingWalk1_frame (L L2 : SearchLayout) (wf : Nat)
    (hpli : L2.pathListIndices = L.pathListIndices) :
    ∀ (F ci : Nat) (l : List SearchEntry),
      siblingWalk L (visitD1 wf L) F ci = some l →
      (∀ i, (∃ e ∈ l, SearchEntry.topIndex e = i) → L2.pathList.get? i = L.pathList.get? i) →
      siblingWalk L2 (visitD1 wf L2) F ci = some l := by
  intro F
  induction F with
  | zero => intro ci l h; exact Option.noConfusion h
  | succ m ih =>
    intro ci l h hent
    unfold siblingWalk at h
    by_cases hci : ci = invalidIdx
    · rw [if_pos hci] at h
      unfold siblingWalk
      rw [if_pos hci]
      exact h
    · rw [if_neg hci] at h
      cases hpl : L.pathListIndices.get? ci with
      | none =>
        simp only [hpl] at h
        exact Option.noConfusion h
      | some pi =>
        simp only [hpl] at h
        by_cases hpi : pi = invalidIdx
        · rw [if_pos hpi] at h
          unfold siblingWalk
          rw [if_neg hci, hpli]
          simp only [hpl]
          rw [if_pos hpi]
          exact h
        · rw [if_neg hpi] at h
          cases hpe : L.pathList.get? pi with
          | none =>
            simp only [hpe] at h
            exact Option.noConfusion h
          | some p =>
            simp only [hpe] at h
            cases hv : visitD1 wf L p pi with
            | none =>
              simp only [hv] at h
              exact Option.noConfusion h
            | some entry =>
              simp only [hv] at h
              cases hr : siblingWalk L (visitD1 wf L) m p.sibling with
              | none =>
                simp only [hr] at h
                exact Option.noConfusion h
              | some rest =>
                simp only [hr] at h
                cases h
                have htop : entry.topIndex = pi := visitD1_topIndex wf L p pi entry hv
                have hpe2 : L2.pathList.get? pi = some p := by
                  rw [hent pi ⟨entry, List.mem_cons_self _ _, htop⟩, hpe]
                have hv2 : visitD1 wf L2 p pi = some entry := by
                  unfold visitD1 at hv ⊢
                  by_cases hd : p.isDir = true
                  · rw [if_pos hd] at hv ⊢
                    cases wf with
                    | zero => exact Option.noConfusion hv
                    | succ w => exact hv
                  · rw [if_neg hd] at hv ⊢
                    exact hv
                have hrec := ih p.sibling rest hr
                  (fun i hi => hent i (by
                    obtain ⟨e, he, hte⟩ := hi
                    exact ⟨e, List.mem_cons_of_mem _ he, hte⟩))
                unfold siblingWalk
                rw [if_neg hci, hpli]
                simp only [hpl]
                rw [if_neg hpi]
                simp only [hpe2, hv2, hrec]

theorem nat_contains_iff (l : List Nat) (x : Nat) : l.contains x = true ↔ x ∈ l :=
  List.elem_iff

theorem appendMissing_cons (acc : List Nat) (e : SearchEntry) (rest : List SearchEntry) :
    appendMissing acc (e :: rest) =
      if acc.contains e.topIndex = true then appendMissing acc rest
      else appendMissing (acc ++ [e.topIndex]) rest := rfl

theorem appendMissing_split (es1 es2 : List SearchEntry) :
    ∀ acc : List Nat,
      appendMissing acc (es1 ++ es2) = appendMissing (appendMissing acc es1) es2 := by
  induction es1 with
  | nil => intro acc; rfl
  | cons e rest ih =>
    intro acc
    simp only [List.cons_append, appendMissing_cons]
    by_cases hc : acc.contains e.topIndex = true
    · rw [if_pos hc, if_pos hc, ih]
    · rw [if_neg hc, if_neg hc, ih]

theorem appendMissing_all_mem (es : List SearchEntry) :
    ∀ acc : List Nat, (∀ e ∈ es, e.topIndex ∈ acc) → appendMissing acc es = acc := by
  induction es with
  | nil => intro acc _; rfl
  | cons e rest ih =>
    intro acc h
    unfold appendMissing
    rw [if_pos ((nat_contains_iff _ _).mpr (h e (List.mem_cons_self _ _)))]
    exact ih acc fun x hx => h x (List.mem_cons_of_mem _ hx)

theorem appendMissing_disjoint (es : List SearchEntry) :
    ∀ acc : List Nat, (es.map SearchEntry.topIndex).Nodup →
      (∀ e ∈ es, e.topIndex ∉ acc) →
      appendMissing acc es = acc ++ es.map SearchEntry.topIndex := by
  induction es with
  | nil => intro acc _ _; simp [appendMissing]
  | cons e rest ih =>
    intro acc hnd hdisj
    unfold appendMissing
    have hne : ¬ acc.contains e.topIndex = true := by
      rw [nat_contains_iff]
      exact hdisj e (List.mem_cons_self _ _)
    rw [if_neg hne]
    simp only [List.map_cons, List.nodup_cons] at hnd
    have := ih (acc ++ [e.topIndex]) hnd.2 ?_
    · rw [this]
      simp
    · intro x hx hmem
      cases List.mem_append.mp hmem with
      | inl hl => exact hdisj x (List.mem_cons_of_mem _ hx) hl
      | inr hr =>
        simp only [List.mem_singleton] at hr
        exact hnd.1 (hr ▸ List.mem_map_of_mem SearchEntry.topIndex hx)

theorem appendMissing_mem (es : List SearchEntry) :
    ∀ (acc : List Nat) (x : Nat), x ∈ appendMissing acc es →
      x ∈ acc ∨ x ∈ es.map SearchEntry.topIndex := by
  induction es with
  | nil => intro acc x h; exact Or.inl h
  | cons e rest ih =>
    intro acc x h
    unfold appendMissing at h
    by_cases hc : acc.contains e.topIndex = true
    · rw [if_pos hc] at h
      cases ih acc x h with
      | inl hl => exact Or.inl hl
      | inr hr => exact Or.inr (by simp only [List.map_cons]; exact List.mem_cons_of_mem _ hr)
    · rw [if_neg hc] at h
      cases ih (acc ++ [e.topIndex]) x h with
      | inl hl =>
        cases List.mem_append.mp hl with
        | inl h2 => exact Or.inl h2
        | inr h2 =>
          simp only [List.mem_singleton] at h2
          exact Or.inr (by simp only [List.map_cons]; exact h2 ▸ List.mem_cons_self _ _)
      | inr hr => exact Or.inr (by simp only [List.map_cons]; exact List.mem_cons_of_mem _ hr)

theorem appendMissing_sup_acc (es : List SearchEntry) :
    ∀ (acc : List Nat) (x : Nat), x ∈ acc → x ∈ appendMissing acc es := by
  induction es with
  | nil => intro acc x h; exact h
  | cons e rest ih =>
    intro acc x h
    unfold appendMissing
    by_cases hc : acc.contains e.topIndex = true
    · rw [if_pos hc]
      exact ih acc x h
    · rw [if_neg hc]
      exact ih _ x (List.mem_append.mpr (Or.inl h))

theorem appendMissing_sup_es (es : List SearchEntry) :
    ∀ (acc : List Nat) (x : Nat), x ∈ es.map SearchEntry.topIndex →
      x ∈ appendMissing acc es := by
  induction es with
  | nil => intro acc x h; simp at h
  | cons e rest ih =>
    intro acc x h
    unfold appendMissing
    simp only [List.map_cons, List.mem_cons] at h
    by_cases hc : acc.contains e.topIndex = true
    · rw [if_pos hc]
      cases h with
      | inl hl => exact appendMissing_sup_acc rest acc x (hl ▸ (nat_contains_iff _ _).mp hc)
      | inr hr => exact ih acc x hr
    · rw [if_neg hc]
      cases h with
      | inl hl =>
        exact appendMissing_sup_acc rest _ x (List.mem_append.mpr (Or.inr (by simp [hl])))
      | inr hr => exact ih _ x hr

theorem appendMissing_nodup (es : List SearchEntry) :
    ∀ acc : List Nat, acc.Nodup → (appendMissing acc es).Nodup := by
  induction es with
  | nil => intro acc h; exact h
  | cons e rest ih =>
    intro acc h
    unfold appendMissing
    by_cases hc : acc.contains e.topIndex = true
    · rw [if_pos hc]
      exact ih acc h
    · rw [if_neg hc]
      refine ih _ ?_
      rw [List.nodup_append]
      refine ⟨h, List.nodup_singleton _, ?_⟩
      intro x hx hmem
      simp only [List.mem_singleton] at hmem
      subst hmem
      exact absurd ((nat_contains_iff _ _).mpr hx) hc

/-- The pure match list of the flat matching loop: per source entry, the
same-named destination child found by `get_direct_child`. -/
def matchedOf (L : SearchLayout) (g dI : Nat) : List SearchEntry → Option (List Nat)
  | [] => some []
  | e :: rest =>
    match L.pathList.get? e.topIndex with
    | none => none
    | some p =>
      match get_direct_child g L dI p.fileName with
      | none => none
      | some none => matchedOf L g dI rest
      | some (some i) =>
        match matchedOf L g dI rest with
        | none => none
        | some d => some (i :: d)

/-- When every found destination child is a plain file, the matching loop
leaves the state untouched and appends exactly `matchedOf`. -/
theorem fixLoop_flat_destruct (fr : SearchSection → Hash40 → Hash40 → Option SearchSection)
    (g dI : Nat) (entries : List SearchEntry) :
    ∀ (s sOut : SearchSection) (acc out : List Nat),
      fixLoop fr g dI entries s acc = some (sOut, out) →
      (∀ n i, get_direct_child g s.layout dI n = some (some i) →
        ∃ q, s.layout.pathList.get? i = some q ∧ q.isDir = false) →
      sOut = s ∧ ∃ d, matchedOf s.layout g dI entries = some d ∧ out = acc ++ d := by
  induction entries with
  | nil =>
    intro s sOut acc out h _
    unfold fixLoop at h
    simp only [Option.some.injEq, Prod.mk.injEq] at h
    exact ⟨h.1.symm, [], rfl, by rw [← h.2, List.append_nil]⟩
  | cons e rest ih =>
    intro s sOut acc out h hfl
    unfold fixLoop at h
    cases hsc : s.layout.pathList.get? e.topIndex with
    | none =>
      simp only [hsc] at h
      exact Option.noConfusion h
    | some srcChild =>
      simp only [hsc] at h
      cases hdc : get_direct_child g s.layout dI srcChild.fileName with
      | none =>
        simp only [hdc] at h
        exact Option.noConfusion h
      | some dc =>
        cases dc with
        | none =>
          simp only [hdc] at h
          obtain ⟨hs, d, hm, hout⟩ := ih s sOut acc out h hfl
          refine ⟨hs, d, ?_, hout⟩
          unfold matchedOf
          simp only [hsc, hdc, hm]
        | some i =>
          simp only [hdc] at h
          obtain ⟨q, hq, hqd⟩ := hfl srcChild.fileName i hdc
          simp only [hq] at h
          rw [if_neg (by simp [hqd])] at h
          obtain ⟨hs, d, hm, hout⟩ := ih s sOut (acc ++ [i]) out h hfl
          refine ⟨hs, i :: d, ?_, ?_⟩
          · unfold matchedOf
            simp only [hsc, hdc, hm]
          · rw [hout]
            simp

/-- Conversely, a computed `matchedOf` list drives the loop to completion
without state change. -/
theorem fixLoop_flat_construct (fr : SearchSection → Hash40 → Hash40 → Option SearchSection)
    (g dI : Nat) (entries : List SearchEntry) :
    ∀ (s : SearchSection) (acc d : List Nat),
      matchedOf s.layout g dI entries = some d →
      (∀ n i, get_direct_child g s.layout dI n = some (some i) →
        ∃ q, s.layout.pathList.get? i = some q ∧ q.isDir = false) →
      fixLoop fr g dI entries s acc = some (s, acc ++ d) := by
  induction entries with
  | nil =>
    intro s acc d h _
    unfold matchedOf at h
    cases h
    simp [fixLoop]
  | cons e rest ih =>
    intro s acc d h hfl
    unfold matchedOf at h
    cases hsc : s.layout.pathList.get? e.topIndex with
    | none =>
      simp only [hsc] at h
      exact Option.noConfusion h
    | some srcChild =>
      simp only [hsc] at h
      cases hdc : get_direct_child g s.layout dI srcChild.fileName with
      | none =>
        simp only [hdc] at h
        exact Option.noConfusion h
      | some dc =>
        cases dc with
        | none =>
          simp only [hdc] at h
          unfold fixLoop
          simp only [hsc, hdc]
          exact ih s acc d h hfl
        | some i =>
          simp only [hdc] at h
          cases hm : matchedOf s.layout g dI rest with
          | none =>
            simp only [hm] at h
            exact Option.noConfusion h
          | some d2 =>
            simp only [hm] at h
            cases h
            obtain ⟨q, hq, hqd⟩ := hfl srcChild.fileName i hdc
            unfold fixLoop
            simp only [hsc, hdc, hq]
            rw [if_neg (by simp [hqd])]
            have hrec := ih s (acc ++ [i]) d2 hm hfl
            rw [hrec]
            simp

theorem matchedOf_congr (L L2 : SearchLayout) (g dI : Nat) (entries : List SearchEntry)
    (hgdc : ∀ n, get_direct_child g L2 dI n = get_direct_child g L dI n) :
    ∀ (hent : ∀ e ∈ entries, L2.pathList.get? e.topIndex = L.pathList.get? e.topIndex),
      matchedOf L2 g dI entries = matchedOf L g dI entries := by
  induction entries with
  | nil => intro _; rfl
  | cons e rest ih =>
    intro hent
    have hrest := ih fun x hx => hent x (List.mem_cons_of_mem _ hx)
    have he := hent e (List.mem_cons_self _ _)
    cases hg : L.pathList.get? e.topIndex with
    | none =>
      unfold matchedOf
      rw [he]
      simp only [hg]
    | some p =>
      unfold matchedOf
      rw [he]
      simp only [hg, hgdc p.fileName, hrest]

theorem findByName_congr (L L2 : SearchLayout) (n : Hash40) :
    ∀ l : List Nat,
      (∀ i ∈ l, (L2.pathList.get? i).map PathEntry.stat =
        (L.pathList.get? i).map PathEntry.stat) →
      findByName L2 n l = findByName L n l := by
  intro l
  induction l with
  | nil => intro _; rfl
  | cons i rest ih =>
    intro hent
    have hrest := ih fun x hx => hent x (List.mem_cons_of_mem _ hx)
    have hmap := hent i (List.mem_cons_self _ _)
    cases h1 : L.pathList.get? i with
    | none =>
      rw [h1] at hmap
      cases h2 : L2.pathList.get? i with
      | none =>
        unfold findByName
        simp only [h1, h2]
        exact hrest
      | some q =>
        rw [h2] at hmap
        exact Option.noConfusion hmap
    | some p =>
      rw [h1] at hmap
      cases h2 : L2.pathList.get? i with
      | none =>
        rw [h2] at hmap
        exact Option.noConfusion hmap
      | some q =>
        rw [h2] at hmap
        have hname : q.fileName = p.fileName := by
          have hst := Option.some.inj hmap
          unfold PathEntry.stat at hst
          simp only [Prod.mk.injEq] at hst
          exact hst.2.1
        unfold findByName
        simp only [h1, h2, hname, hrest]

theorem getPathListIndex_congr (s s2 : SearchSection) (h : Hash40)
    (hp2i : s2.pathToIndex = s.pathToIndex)
    (hpli : s2.layout.pathListIndices = s.layout.pathListIndices) :
    getPathListIndex s2 h = getPathListIndex s h := by
  unfold getPathListIndex
  rw [hp2i, hpli]

theorem walk1_entries_isSome (L : SearchLayout) (h : Hash40) (F : Nat)
    (l : List SearchEntry) (hw : walk_search_section (F + 1) L h 1 = some l) :
    ∀ e ∈ l, (L.pathList.get? e.topIndex).isSome := by
  rw [walk_depth_one] at hw
  cases hf : getFolderPathEntry L h with
  | none =>
    rw [hf] at hw
    cases hw
    intro e he
    simp at he
  | some fe =>
    simp only [hf] at hw
    exact siblingWalk_entries_isSome L (visitD1 F L) (visitD1_topIndex F L) (F + 1)
      fe.firstChild l hw

theorem getFolderPathEntry_some (L : SearchLayout) (h : Hash40) (fe : FolderEntry)
    (hg : getFolderPathEntry L h = some fe) :
    ∃ j, hfind L.folderPathToIndex h = some j ∧ j ≠ invalidIdx ∧
      L.folderPathList.get? j = some fe := by
  unfold getFolderPathEntry at hg
  cases hf : hfind L.folderPathToIndex h with
  | none =>
    simp only [hf] at hg
    exact Option.noConfusion hg
  | some j =>
    simp only [hf] at hg
    by_cases hj : j = invalidIdx
    · rw [if_pos hj] at hg
      exact Option.noConfusion hg
    · rw [if_neg hj] at hg
      exact ⟨j, rfl, hj, hg⟩

theorem getFolderPathEntry_mk (L : SearchLayout) (h : Hash40) (j : Nat) (fe : FolderEntry)
    (hf : hfind L.folderPathToIndex h = some j) (hj : j ≠ invalidIdx)
    (hfe : L.folderPathList.get? j = some fe) : getFolderPathEntry L h = some fe := by
  unfold getFolderPathEntry
  simp only [hf]
  rw [if_neg hj]
  exact hfe

theorem walk1_make (F : Nat) (L : SearchLayout) (h : Hash40) (fe : FolderEntry)
    (l : List SearchEntry) (hfe : getFolderPathEntry L h = some fe)
    (hw : siblingWalk L (visitD1 F L) (F + 1) fe.firstChild = some l) :
    walk_search_section (F + 1) L h 1 = some l := by
  rw [walk_depth_one]
  simp only [hfe]
  exact hw

theorem walk1_cases (F : Nat) (L : SearchLayout) (h : Hash40) (l : List SearchEntry)
    (hw : walk_search_section (F + 1) L h 1 = some l) :
    (getFolderPathEntry L h = none ∧ l = []) ∨
      ∃ fe, getFolderPathEntry L h = some fe ∧
        siblingWalk L (visitD1 F L) (F + 1) fe.firstChild = some l := by
  rw [walk_depth_one] at hw
  cases hf : getFolderPathEntry L h with
  | none =>
    simp only [hf] at hw
    cases hw
    exact Or.inl ⟨rfl, rfl⟩
  | some fe =>
    simp only [hf] at hw
    exact Or.inr ⟨fe, rfl, hw⟩

/-- The `get_direct_child` scan over a folder is name search over the walked
depth-1 entry list of that folder. -/
theorem gdc_char (F : Nat) (L : SearchLayout) (dstIndex : Nat) (dst : Hash40)
    (dstEs : List SearchEntry) (dstPath : PathEntry)
    (hdp : L.pathList.get? dstIndex = some dstPath)
    (hpath : dstPath.path = dst)
    (hdw : walk_search_section (F + 1) L dst 1 = some dstEs) :
    ∀ n, get_direct_child (F + 1) L dstIndex n =
      some (findByName L n (dstEs.map SearchEntry.topIndex)) := by
  intro n
  unfold get_direct_child
  simp only [hdp]
  rw [hpath]
  rw [walk_depth_one] at hdw
  cases hf : getFolderPathEntry L dst with
  | none =>
    simp only [hf] at hdw
    cases hdw
    rfl
  | some fe =>
    simp only [hf] at hdw
    exact gdcLoop_vs_walk L (visitD1 F L) (visitD1_topIndex F L) n (F + 1) fe.firstChild
      dstEs hdw

/-- Provenance of matched indices: each comes from some source entry's name
search. -/
theorem matchedOf_prov (L : SearchLayout) (g dI : Nat) (entries : List SearchEntry) :
    ∀ d, matchedOf L g dI entries = some d →
      ∀ x ∈ d, ∃ e, e ∈ entries ∧ ∃ pe, L.pathList.get? e.topIndex = some pe ∧
        get_direct_child g L dI pe.fileName = some (some x) := by
  induction entries with
  | nil =>
    intro d h x hx
    unfold matchedOf at h
    cases h
    simp at hx
  | cons e rest ih =>
    intro d h x hx
    unfold matchedOf at h
    cases hsc : L.pathList.get? e.topIndex with
    | none =>
      simp only [hsc] at h
      exact Option.noConfusion h
    | some p =>
      simp only [hsc] at h
      cases hdc : get_direct_child g L dI p.fileName with
      | none =>
        simp only [hdc] at h
        exact Option.noConfusion h
      | some dc =>
        cases dc with
        | none =>
          simp only [hdc] at h
          obtain ⟨e2, he2, pe, hpe, hg2⟩ := ih d h x hx
          exact ⟨e2, List.mem_cons_of_mem _ he2, pe, hpe, hg2⟩
        | some i =>
          simp only [hdc] at h
          cases hm : matchedOf L g dI rest with
          | none =>
            simp only [hm] at h
            exact Option.noConfusion h
          | some dr =>
            simp only [hm] at h
            cases h
            cases List.mem_cons.mp hx with
            | inl hxi =>
              subst hxi
              exact ⟨e, List.mem_cons_self _ _, p, hsc, hdc⟩
            | inr hxr =>
              obtain ⟨e2, he2, pe, hpe, hg2⟩ := ih dr hm x hxr
              exact ⟨e2, List.mem_cons_of_mem _ he2, pe, hpe, hg2⟩

/-- With pairwise-distinct source names and name-faithful child lookup the
matched list has no duplicates. -/
theorem matchedOf_nodup (L : SearchLayout) (g dI : Nat)
    (hname : ∀ n x, get_direct_child g L dI n = some (some x) →
      ∃ q, L.pathList.get? x = some q ∧ q.fileName = n) :
    ∀ (entries : List SearchEntry) (d : List Nat),
      entries.Pairwise (fun e1 e2 => ∀ p1 p2, L.pathList.get? e1.topIndex = some p1 →
        L.pathList.get? e2.topIndex = some p2 → p1.fileName ≠ p2.fileName) →
      matchedOf L g dI entries = some d → d.Nodup := by
  intro entries
  induction entries with
  | nil =>
    intro d _ h
    unfold matchedOf at h
    cases h
    exact List.nodup_nil
  | cons e rest ih =>
    intro d hpw h
    rw [List.pairwise_cons] at hpw
    unfold matchedOf at h
    cases hsc : L.pathList.get? e.topIndex with
    | none =>
      simp only [hsc] at h
      exact Option.noConfusion h
    | some p =>
      simp only [hsc] at h
      cases hdc : get_direct_child g L dI p.fileName with
      | none =>
        simp only [hdc] at h
        exact Option.noConfusion h
      | some dc =>
        cases dc with
        | none =>
          simp only [hdc] at h
          exact ih d hpw.2 h
        | some i =>
          simp only [hdc] at h
          cases hm : matchedOf L g dI rest with
          | none =>
            simp only [hm] at h
            exact Option.noConfusion h
          | some dr =>
            simp only [hm] at h
            cases h
            rw [List.nodup_cons]
            refine ⟨?_, ih dr hpw.2 hm⟩
            intro hin
            obtain ⟨e2, he2, pe2, hpe2, hg2⟩ := matchedOf_prov L g dI rest dr hm i hin
            obtain ⟨qi, hqi, hqn⟩ := hname p.fileName i hdc
            obtain ⟨qi2, hqi2, hqn2⟩ := hname pe2.fileName i hg2
            rw [hqi] at hqi2
            have hq : qi = qi2 := Option.some.inj hqi2
            exact hpw.1 e2 he2 p pe2 hsc hpe2 (by rw [← hqn, hq]; exact hqn2)

theorem appendMissing_prefix (es : List SearchEntry) :
    ∀ acc : List Nat, ∃ t, appendMissing acc es = acc ++ t := by
  induction es with
  | nil => intro acc; exact ⟨[], by simp [appendMissing]⟩
  | cons e rest ih =>
    intro acc
    rw [appendMissing_cons]
    by_cases hc : acc.contains e.topIndex = true
    · rw [if_pos hc]
      exact ih acc
    · rw [if_neg hc]
      obtain ⟨t, ht⟩ := ih (acc ++ [e.topIndex])
      exact ⟨e.topIndex :: t, by rw [ht]; simp⟩

/-- Transfer the static fields of a path entry across a static-equal pair of
lookups. -/
theorem stat_transfer (o1 o2 : Option PathEntry) (p : PathEntry)
    (h : o1.map PathEntry.stat = o2.map PathEntry.stat) (h2 : o2 = some p) :
    ∃ q, o1 = some q ∧ q.path = p.path ∧ q.fileName = p.fileName ∧ q.isDir = p.isDir := by
  subst h2
  cases o1 with
  | none => simp at h
  | some q =>
    simp only [Option.map_some'] at h
    have hst := Option.some.inj h
    unfold PathEntry.stat at hst
    simp only [Prod.mk.injEq] at hst
    exact ⟨q, rfl, hst.1, hst.2.1, hst.2.2.2.2⟩

theorem tops_of_files (l : List Nat) :
    (l.map SearchEntry.file).map SearchEntry.topIndex = l := by
  induction l with
  | nil => rfl
  | cons a t ih =>
    simp only [List.map_cons]
    rw [ih]
    rfl

theorem staticEq_symm {s t : SearchSection} (h : staticEq s t) : staticEq t s := by
  obtain ⟨a1, a2, a3, a4, a5, a6, a7⟩ := h
  exact ⟨a1.symm, a2.symm, a3.symm, a4.symm, fun j => (a5 j).symm, a6.symm,
    fun i => (a7 i).symm⟩

theorem staticEq_pli (s t : SearchSection) (h : staticEq s t)
    (hpli : s.layout.pathListIndices = List.range s.layout.pathList.length) :
    t.layout.pathListIndices = List.range t.layout.pathList.length := by
  obtain ⟨_, _, a3, _, _, a6, _⟩ := h
  rw [a3, a6, hpli]

theorem staticEq_len (s t : SearchSection) (h : staticEq s t)
    (hlen : s.layout.pathList.length ≤ invalidIdx) :
    t.layout.pathList.length ≤ invalidIdx := by
  obtain ⟨_, _, _, _, _, a6, _⟩ := h
  rw [a6]
  exact hlen

theorem getFolderPathEntry_none_congr (L L2 : SearchLayout) (a : Hash40)
    (h : getFolderPathEntry L a = none)
    (hf2i : L2.folderPathToIndex = L.folderPathToIndex)
    (hlen : L2.folderPathList.length = L.folderPathList.length) :
    getFolderPathEntry L2 a = none := by
  cases hf : hfind L.folderPathToIndex a with
  | none =>
    unfold getFolderPathEntry
    rw [hf2i]
    simp only [hf]
  | some j =>
    unfold getFolderPathEntry at h
    simp only [hf] at h
    unfold getFolderPathEntry
    rw [hf2i]
    simp only [hf]
    by_cases hj : j = invalidIdx
    · rw [if_pos hj]
    · rw [if_neg hj] at h
      rw [if_neg hj]
      rw [List.get?_eq_none] at h ⊢
      rw [hlen]
      exact h

/-- The depth-one walker node for a path-list index: a file leaf or a folder
node with the (empty at depth 1) child list. -/
def entryAt (L : SearchLayout) (i : Nat) : SearchEntry :=
  match L.pathList.get? i with
  | some p => if p.isDir then .folder i [] else .file i
  | none => .file i

theorem entryAt_topIndex (L : SearchLayout) (i : Nat) :
    (entryAt L i).topIndex = i := by
  cases h : L.pathList.get? i with
  | none =>
    unfold entryAt
    simp only [h]
    rfl
  | some p =>
    unfold entryAt
    simp only [h]
    by_cases hd : p.isDir = true
    · rw [if_pos hd]
      rfl
    · rw [if_neg hd]
      rfl

theorem tops_of_entryAt (L : SearchLayout) (l : List Nat) :
    (l.map (entryAt L)).map SearchEntry.topIndex = l := by
  induction l with
  | nil => rfl
  | cons a t ih =>
    simp only [List.map_cons]
    rw [ih, entryAt_topIndex]

/-- Walking a freshly written chain (identity indirection, in-bounds) yields
the per-index walker nodes, directories included (their depth-0 child walk is
empty). -/
theorem chain_siblingWalk_gen (s : SearchSection) (w : Nat)
    (hpli : s.layout.pathListIndices = List.range s.layout.pathList.length)
    (hlen : s.layout.pathList.length ≤ invalidIdx) :
    ∀ (l : List Nat) (F : Nat), chainInv s l → l.length ≤ F →
      siblingWalk s.layout (visitD1 (w + 1) s.layout) (F + 1) (l.headD invalidIdx) =
        some (l.map (entryAt s.layout)) := by
  intro l
  induction l with
  | nil =>
    intro F _ _
    show siblingWalk s.layout (visitD1 (w + 1) s.layout) (F + 1) invalidIdx =
      some (List.map (entryAt s.layout) [])
    unfold siblingWalk
    rw [if_pos rfl]
    rfl
  | cons i rest ih =>
    intro F hchain hF
    obtain ⟨p, hp, hsib⟩ : ∃ p, s.layout.pathList.get? i = some p ∧
        p.sibling = rest.headD invalidIdx := by
      cases rest with
      | nil => exact hchain
      | cons j more =>
        obtain ⟨⟨p, hp, hs⟩, _⟩ := hchain
        exact ⟨p, hp, hs⟩
    have hi : i < s.layout.pathList.length := (List.get?_eq_some.mp hp).1
    have hiv : i ≠ invalidIdx := by omega
    have hpli_i : s.layout.pathListIndices.get? i = some i := by
      rw [hpli]
      exact List.get?_range hi
    have hvis : visitD1 (w + 1) s.layout p i = some (entryAt s.layout i) := by
      unfold visitD1 entryAt
      simp only [hp]
      by_cases hd : p.isDir = true
      · rw [if_pos hd, if_pos hd]
        rfl
      · rw [if_neg hd, if_neg hd]
    have hrest : chainInv s rest := by
      cases rest with
      | nil => trivial
      | cons j more => exact hchain.2
    cases F with
    | zero => simp at hF
    | succ F2 =>
      have hrec := ih F2 hrest (by simp at hF; omega)
      unfold siblingWalk
      simp only [List.headD_cons]
      rw [if_neg hiv]
      simp only [hpli_i]
      rw [if_neg hiv]
      simp only [hp, hvis, hsib, hrec]
      rfl

theorem chainInv_congr (s u : SearchSection) :
    ∀ l : List Nat, chainInv s l →
      (∀ i ∈ l, u.layout.pathList.get? i = s.layout.pathList.get? i) →
      chainInv u l := by
  intro l
  induction l with
  | nil => intro _ _; trivial
  | cons i rest ih =>
    intro h hag
    cases rest with
    | nil =>
      obtain ⟨p, hp, hs⟩ := h
      exact ⟨p, by rw [hag i (List.mem_cons_self _ _)]; exact hp, hs⟩
    | cons j more =>
      obtain ⟨⟨p, hp, hs⟩, hr⟩ := h
      exact ⟨⟨p, by rw [hag i (List.mem_cons_self _ _)]; exact hp, hs⟩,
        ih hr fun x hx => hag x (List.mem_cons_of_mem _ hx)⟩

/-- Depth-one walks agree across layouts that agree on the folder entry, the
indirection table, and the visited path entries. -/
theorem walk1_congr (F : Nat) (L L2 : SearchLayout) (a : Hash40) (l : List SearchEntry)
    (hw : walk_search_section (F + 1) L a 1 = some l)
    (hfe : getFolderPathEntry L2 a = getFolderPathEntry L a)
    (hpli : L2.pathListIndices = L.pathListIndices)
    (hent : ∀ i, (∃ e ∈ l, SearchEntry.topIndex e = i) →
      L2.pathList.get? i = L.pathList.get? i) :
    walk_search_section (F + 1) L2 a 1 = some l := by
  cases walk1_cases F L a l hw with
  | inl hcase =>
    rw [walk_depth_one, hfe]
    simp only [hcase.1]
    rw [hcase.2]
  | inr hcase =>
    obtain ⟨fe, hfe1, hsw⟩ := hcase
    have hsw2 := siblingWalk1_frame L L2 F hpli (F + 1) fe.firstChild l hsw hent
    exact walk1_make F L2 a fe l (by rw [hfe, hfe1]) hsw2

/-- Per-source-entry outcome of the matching loop: no same-named destination
child, a matched file child, or a matched directory child with the sub-pair's
folder hashes and its read/write regions. -/
inductive StepSpec where
  | skip
  | fmatch (i : Nat)
  | dmatch (i : Nat) (a2 b2 : Hash40) (R2 V2 : List Nat)

/-- The matched destination indices, in loop order. -/
def stepsMatched : List StepSpec → List Nat
  | [] => []
  | .skip :: r => stepsMatched r
  | .fmatch i :: r => i :: stepsMatched r
  | .dmatch i _ _ _ _ :: r => i :: stepsMatched r

/-- The path-list regions of the directory sub-pairs, concatenated. -/
def stepsR : List StepSpec → List Nat
  | [] => []
  | .dmatch _ _ _ R2 _ :: r => R2 ++ stepsR r
  | _ :: r => stepsR r

/-- The folder-path-list regions of the directory sub-pairs, concatenated. -/
def stepsV : List StepSpec → List Nat
  | [] => []
  | .dmatch _ _ _ _ V2 :: r => V2 ++ stepsV r
  | _ :: r => stepsV r

/-- Consistency of one loop step with the state: the source child resolves,
its name search gives the recorded outcome, and a directory match carries a
certificate (`C`, instantiated with `Covers` one fuel lower) for the
sub-pair. -/
def StepOk (C : SearchSection → Hash40 → Hash40 → List Nat → List Nat → Prop)
    (g : Nat) (s : SearchSection) (dI : Nat) : SearchEntry → StepSpec → Prop := fun e st =>
  ∃ sp, s.layout.pathList.get? e.topIndex = some sp ∧
    match st with
    | .skip => get_direct_child g s.layout dI sp.fileName = some none
    | .fmatch i => get_direct_child g s.layout dI sp.fileName = some (some i) ∧
        ∃ q, s.layout.pathList.get? i = some q ∧ q.isDir = false
    | .dmatch i a2 b2 R2 V2 =>
        get_direct_child g s.layout dI sp.fileName = some (some i) ∧
        ∃ q, s.layout.pathList.get? i = some q ∧ q.isDir = true ∧
          a2 = sp.path ∧ b2 = q.path ∧ C s a2 b2 R2 V2

/-- One level of the well-formedness certificate for a base/variant pair:
either the pair takes one of `file_order_fix`'s early exits (unresolved or
non-directory destination, missing or empty source folder), or the main path
is fully resolved with duplicate-free, distinctly named children and mutually
disjoint sub-regions.  `R`/`V` collect the path-list and folder-path-list
slots the pair's run reads or writes. -/
def CoversBody (C : SearchSection → Hash40 → Hash40 → List Nat → List Nat → Prop)
    (wfuel : Nat) (s : SearchSection) (a b : Hash40) (R V : List Nat) : Prop :=
  (getPathListIndex s b = some none ∧ R = [] ∧ V = []) ∨
  (∃ dI dp, getPathListIndex s b = some (some dI) ∧
    s.layout.pathList.get? dI = some dp ∧ dp.isDir = false ∧ R = [] ∧ V = []) ∨
  (∃ dI dp, getPathListIndex s b = some (some dI) ∧
    s.layout.pathList.get? dI = some dp ∧ dp.isDir = true ∧
    getFolderPathEntry s.layout a = none ∧ R = [] ∧ V = []) ∨
  (∃ dI dp jS feS, getPathListIndex s b = some (some dI) ∧
    s.layout.pathList.get? dI = some dp ∧ dp.isDir = true ∧
    hfind s.layout.folderPathToIndex a = some jS ∧ jS ≠ invalidIdx ∧
    s.layout.folderPathList.get? jS = some feS ∧ feS.firstChild = invalidIdx ∧
    R = [] ∧ V = [jS]) ∨
  (∃ dI dp jS feS fIdx feD srcEs dstEs steps,
    getPathListIndex s b = some (some dI) ∧
    s.layout.pathList.get? dI = some dp ∧ dp.isDir = true ∧ dp.path = b ∧
    hfind s.layout.folderPathToIndex a = some jS ∧ jS ≠ invalidIdx ∧
    s.layout.folderPathList.get? jS = some feS ∧
    walk_search_section wfuel s.layout a 1 = some srcEs ∧ srcEs ≠ [] ∧
    walk_search_section wfuel s.layout b 1 = some dstEs ∧
    hfind s.layout.folderPathToIndex b = some fIdx ∧ fIdx ≠ invalidIdx ∧
    s.layout.folderPathList.get? fIdx = some feD ∧
    List.Forall₂ (StepOk C wfuel s dI) srcEs steps ∧
    (dstEs.map SearchEntry.topIndex).Nodup ∧
    (∀ i j p q, i ∈ dstEs.map SearchEntry.topIndex → j ∈ dstEs.map SearchEntry.topIndex →
      s.layout.pathList.get? i = some p → s.layout.pathList.get? j = some q →
      p.fileName = q.fileName → i = j) ∧
    srcEs.Pairwise (fun e1 e2 => ∀ p1 p2,
      s.layout.pathList.get? e1.topIndex = some p1 →
      s.layout.pathList.get? e2.topIndex = some p2 → p1.fileName ≠ p2.fileName) ∧
    R = srcEs.map SearchEntry.topIndex ++ dstEs.map SearchEntry.topIndex ++ stepsR steps ∧
    V = jS :: fIdx :: stepsV steps ∧
    R.Nodup ∧ V.Nodup)

/-- The hereditary well-formedness certificate, indexed by the fuel given to
`file_order_fix`: each directory sub-pair carries the certificate one fuel
lower, mirroring the recursion. -/
def Covers : Nat → SearchSection → Hash40 → Hash40 → List Nat → List Nat → Prop
  | 0 => fun _ _ _ _ _ => False
  | F + 1 => CoversBody (Covers F) (F + 1)

theorem Covers_succ (F : Nat) (s : SearchSection) (a b : Hash40) (R V : List Nat) :
    Covers (F + 1) s a b R V = CoversBody (Covers F) (F + 1) s a b R V := rfl

theorem stepsMatched_prov (C : SearchSection → Hash40 → Hash40 → List Nat → List Nat → Prop)
    (g : Nat) (s : SearchSection) (dI : Nat) :
    ∀ (entries : List SearchEntry) (steps : List StepSpec),
      List.Forall₂ (StepOk C g s dI) entries steps →
      ∀ x ∈ stepsMatched steps, ∃ e, e ∈ entries ∧ ∃ sp,
        s.layout.pathList.get? e.topIndex = some sp ∧
        get_direct_child g s.layout dI sp.fileName = some (some x) := by
  intro entries steps h
  induction h with
  | nil => intro x hx; simp [stepsMatched] at hx
  | @cons e st es sts hab _ ih =>
    intro x hx
    cases st with
    | skip =>
      obtain ⟨e2, he2, sp, hsp, hg⟩ := ih x hx
      exact ⟨e2, List.mem_cons_of_mem _ he2, sp, hsp, hg⟩
    | fmatch i =>
      obtain ⟨sp, hsp, hg, _⟩ := hab
      cases List.mem_cons.mp hx with
      | inl hxi =>
        subst hxi
        exact ⟨e, List.mem_cons_self _ _, sp, hsp, hg⟩
      | inr hxr =>
        obtain ⟨e2, he2, sp2, hsp2, hg2⟩ := ih x hxr
        exact ⟨e2, List.mem_cons_of_mem _ he2, sp2, hsp2, hg2⟩
    | dmatch i a2 b2 R2 V2 =>
      obtain ⟨sp, hsp, hg, _⟩ := hab
      cases List.mem_cons.mp hx with
      | inl hxi =>
        subst hxi
        exact ⟨e, List.mem_cons_self _ _, sp, hsp, hg⟩
      | inr hxr =>
        obtain ⟨e2, he2, sp2, hsp2, hg2⟩ := ih x hxr
        exact ⟨e2, List.mem_cons_of_mem _ he2, sp2, hsp2, hg2⟩

theorem stepsMatched_nodup (C : SearchSection → Hash40 → Hash40 → List Nat → List Nat → Prop)
    (g : Nat) (s : SearchSection) (dI : Nat)
    (hname : ∀ n x, get_direct_child g s.layout dI n = some (some x) →
      ∃ q, s.layout.pathList.get? x = some q ∧ q.fileName = n) :
    ∀ (entries : List SearchEntry) (steps : List StepSpec),
      List.Forall₂ (StepOk C g s dI) entries steps →
      entries.Pairwise (fun e1 e2 => ∀ p1 p2,
        s.layout.pathList.get? e1.topIndex = some p1 →
        s.layout.pathList.get? e2.topIndex = some p2 → p1.fileName ≠ p2.fileName) →
      (stepsMatched steps).Nodup := by
  intro entries steps h
  induction h with
  | nil => intro _; exact List.nodup_nil
  | @cons e st es sts hab htail ih =>
    intro hpw
    rw [List.pairwise_cons] at hpw
    cases st with
    | skip => exact ih hpw.2
    | fmatch i =>
      obtain ⟨sp, hsp, hg, _⟩ := hab
      rw [show stepsMatched (StepSpec.fmatch i :: sts) = i :: stepsMatched sts from rfl,
        List.nodup_cons]
      refine ⟨?_, ih hpw.2⟩
      intro hin
      obtain ⟨e2, he2, sp2, hsp2, hg2⟩ := stepsMatched_prov C g s dI es sts htail i hin
      obtain ⟨q1, hq1, hq1n⟩ := hname sp.fileName i hg
      obtain ⟨q2, hq2, hq2n⟩ := hname sp2.fileName i hg2
      rw [hq1] at hq2
      have hq : q1 = q2 := Option.some.inj hq2
      exact hpw.1 e2 he2 sp sp2 hsp hsp2 (by rw [← hq1n, hq]; exact hq2n)
    | dmatch i a2 b2 R2 V2 =>
      obtain ⟨sp, hsp, hg, _⟩ := hab
      rw [show stepsMatched (StepSpec.dmatch i a2 b2 R2 V2 :: sts) =
        i :: stepsMatched sts from rfl, List.nodup_cons]
      refine ⟨?_, ih hpw.2⟩
      intro hin
      obtain ⟨e2, he2, sp2, hsp2, hg2⟩ := stepsMatched_prov C g s dI es sts htail i hin
      obtain ⟨q1, hq1, hq1n⟩ := hname sp.fileName i hg
      obtain ⟨q2, hq2, hq2n⟩ := hname sp2.fileName i hg2
      rw [hq1] at hq2
      have hq : q1 = q2 := Option.some.inj hq2
      exact hpw.1 e2 he2 sp sp2 hsp hsp2 (by rw [← hq1n, hq]; exact hq2n)

theorem stepOk_frame_all (F wfuel : Nat) (s t : SearchSection) (dI : Nat)
    (ihC : ∀ (s2 t2 : SearchSection) (a b : Hash40) (R V : List Nat),
      Covers F s2 a b R V → staticEq s2 t2 →
      (∀ k ∈ R, t2.layout.pathList.get? k = s2.layout.pathList.get? k) →
      (∀ j ∈ V, t2.layout.folderPathList.get? j = s2.layout.folderPathList.get? j) →
      Covers F t2 a b R V)
    (hst : staticEq s t)
    (hgdc : ∀ n, get_direct_child wfuel t.layout dI n =
      get_direct_child wfuel s.layout dI n) :
    ∀ (entries : List SearchEntry) (steps : List StepSpec),
      List.Forall₂ (StepOk (Covers F) wfuel s dI) entries steps →
      (∀ k ∈ entries.map SearchEntry.topIndex,
        t.layout.pathList.get? k = s.layout.pathList.get? k) →
      (∀ k ∈ stepsR steps, t.layout.pathList.get? k = s.layout.pathList.get? k) →
      (∀ j ∈ stepsV steps,
        t.layout.folderPathList.get? j = s.layout.folderPathList.get? j) →
      List.Forall₂ (StepOk (Covers F) wfuel t dI) entries steps := by
  intro entries steps h
  induction h with
  | nil => intro _ _ _; exact List.Forall₂.nil
  | @cons e st es sts hab _ ih =>
    intro hE hsR hsV
    have hEhead : t.layout.pathList.get? e.topIndex =
        s.layout.pathList.get? e.topIndex :=
      hE e.topIndex (by simp)
    have hEtail : ∀ k ∈ es.map SearchEntry.topIndex,
        t.layout.pathList.get? k = s.layout.pathList.get? k :=
      fun k hk => hE k (by simp only [List.map_cons, List.mem_cons]; exact Or.inr hk)
    cases st with
    | skip =>
      obtain ⟨sp, hsp, hg⟩ := hab
      exact List.Forall₂.cons ⟨sp, by rw [hEhead]; exact hsp, by rw [hgdc]; exact hg⟩
        (ih hEtail hsR hsV)
    | fmatch i =>
      obtain ⟨sp, hsp, hg, q, hq, hqd⟩ := hab
      obtain ⟨q', hq', _, _, hqd'⟩ :=
        stat_transfer (t.layout.pathList.get? i) (s.layout.pathList.get? i) q
          (hst.2.2.2.2.2.2 i) hq
      exact List.Forall₂.cons ⟨sp, by rw [hEhead]; exact hsp, by rw [hgdc]; exact hg,
        q', hq', by rw [hqd']; exact hqd⟩ (ih hEtail hsR hsV)
    | dmatch i a2 b2 R2 V2 =>
      obtain ⟨sp, hsp, hg, q, hq, hqd, ha2, hb2, hcov⟩ := hab
      obtain ⟨q', hq', hpath', _, hqd'⟩ :=
        stat_transfer (t.layout.pathList.get? i) (s.layout.pathList.get? i) q
          (hst.2.2.2.2.2.2 i) hq
      have hsRhead : ∀ k ∈ R2,
          t.layout.pathList.get? k = s.layout.pathList.get? k :=
        fun k hk => hsR k (List.mem_append.mpr (Or.inl hk))
      have hsVhead : ∀ j ∈ V2,
          t.layout.folderPathList.get? j = s.layout.folderPathList.get? j :=
        fun j hj => hsV j (List.mem_append.mpr (Or.inl hj))
      have hsRtail : ∀ k ∈ stepsR sts,
          t.layout.pathList.get? k = s.layout.pathList.get? k :=
        fun k hk => hsR k (List.mem_append.mpr (Or.inr hk))
      have hsVtail : ∀ j ∈ stepsV sts,
          t.layout.folderPathList.get? j = s.layout.folderPathList.get? j :=
        fun j hj => hsV j (List.mem_append.mpr (Or.inr hj))
      exact List.Forall₂.cons ⟨sp, by rw [hEhead]; exact hsp, by rw [hgdc]; exact hg,
        q', hq', by rw [hqd']; exact hqd, ha2, by rw [hb2, ← hpath'],
        ihC s t a2 b2 R2 V2 hcov hst hsRhead hsVhead⟩ (ih hEtail hsRtail hsVtail)

theorem covers_frame : ∀ (F : Nat) (s t : SearchSection) (a b : Hash40) (R V : List Nat),
    Covers F s a b R V → staticEq s t →
    (∀ k ∈ R, t.layout.pathList.get? k = s.layout.pathList.get? k) →
    (∀ j ∈ V, t.layout.folderPathList.get? j = s.layout.folderPathList.get? j) →
    Covers F t a b R V := by
  intro F
  induction F with
  | zero => intro s t a b R V h _ _ _; exact h.elim
  | succ F ih =>
    intro s t a b R V hc hst hR hV
    rw [Covers_succ] at hc ⊢
    unfold CoversBody at hc ⊢
    have hstc := hst
    obtain ⟨hp2i, hf2i, hpli, hfplLen, hfplPath, hplLen, hplStat⟩ := hstc
    rcases hc with ⟨c1, hR0, hV0⟩ | ⟨dI, dp, c1, c2, c3, hR0, hV0⟩ |
      ⟨dI, dp, c1, c2, c3, c4, hR0, hV0⟩ |
      ⟨dI, dp, jS, feS, c1, c2, c3, c4, c5, c6, c7, hR0, hV0⟩ |
      ⟨dI, dp, jS, feS, fIdx, feD, srcEs, dstEs, steps, c1, c2, c3, c4, c5, c6, c7,
        c8, c9, c10, c11, c12, c13, c14, c15, c16, c17, hReq, hVeq, hRnd, hVnd⟩
    · exact Or.inl ⟨by rw [getPathListIndex_congr s t b hp2i hpli]; exact c1, hR0, hV0⟩
    · obtain ⟨dp', hdp', _, _, hdir'⟩ :=
        stat_transfer (t.layout.pathList.get? dI) (s.layout.pathList.get? dI) dp
          (hplStat dI) c2
      exact Or.inr (Or.inl ⟨dI, dp',
        by rw [getPathListIndex_congr s t b hp2i hpli]; exact c1, hdp',
        by rw [hdir']; exact c3, hR0, hV0⟩)
    · obtain ⟨dp', hdp', _, _, hdir'⟩ :=
        stat_transfer (t.layout.pathList.get? dI) (s.layout.pathList.get? dI) dp
          (hplStat dI) c2
      exact Or.inr (Or.inr (Or.inl ⟨dI, dp',
        by rw [getPathListIndex_congr s t b hp2i hpli]; exact c1, hdp',
        by rw [hdir']; exact c3,
        getFolderPathEntry_none_congr s.layout t.layout a c4 hf2i hfplLen, hR0, hV0⟩))
    · obtain ⟨dp', hdp', _, _, hdir'⟩ :=
        stat_transfer (t.layout.pathList.get? dI) (s.layout.pathList.get? dI) dp
          (hplStat dI) c2
      exact Or.inr (Or.inr (Or.inr (Or.inl ⟨dI, dp', jS, feS,
        by rw [getPathListIndex_congr s t b hp2i hpli]; exact c1, hdp',
        by rw [hdir']; exact c3,
        by rw [hf2i]; exact c4, c5,
        by rw [hV jS (by rw [hV0]; exact List.mem_singleton_self _)]; exact c6,
        c7, hR0, hV0⟩)))
    · subst hReq
      subst hVeq
      have hsrcR : ∀ k ∈ srcEs.map SearchEntry.topIndex,
          t.layout.pathList.get? k = s.layout.pathList.get? k :=
        fun k hk => hR k (List.mem_append.mpr (Or.inl (List.mem_append.mpr (Or.inl hk))))
      have hdstR : ∀ k ∈ dstEs.map SearchEntry.topIndex,
          t.layout.pathList.get? k = s.layout.pathList.get? k :=
        fun k hk => hR k (List.mem_append.mpr (Or.inl (List.mem_append.mpr (Or.inr hk))))
      have hstepsR : ∀ k ∈ stepsR steps,
          t.layout.pathList.get? k = s.layout.pathList.get? k :=
        fun k hk => hR k (List.mem_append.mpr (Or.inr hk))
      have hjSV : t.layout.folderPathList.get? jS = s.layout.folderPathList.get? jS :=
        hV jS (List.mem_cons_self _ _)
      have hfIdxV : t.layout.folderPathList.get? fIdx =
          s.layout.folderPathList.get? fIdx :=
        hV fIdx (List.mem_cons_of_mem _ (List.mem_cons_self _ _))
      have hstepsV : ∀ j ∈ stepsV steps,
          t.layout.folderPathList.get? j = s.layout.folderPathList.get? j :=
        fun j hj => hV j (List.mem_cons_of_mem _ (List.mem_cons_of_mem _ hj))
      have hgfS_s : getFolderPathEntry s.layout a = some feS :=
        getFolderPathEntry_mk s.layout a jS feS c5 c6 c7
      have hgfS_t : getFolderPathEntry t.layout a = some feS :=
        getFolderPathEntry_mk t.layout a jS feS (by rw [hf2i]; exact c5) c6
          (by rw [hjSV]; exact c7)
      have hgfD_s : getFolderPathEntry s.layout b = some feD :=
        getFolderPathEntry_mk s.layout b fIdx feD c11 c12 c13
      have hgfD_t : getFolderPathEntry t.layout b = some feD :=
        getFolderPathEntry_mk t.layout b fIdx feD (by rw [hf2i]; exact c11) c12
          (by rw [hfIdxV]; exact c13)
      have hwa_t : walk_search_section (F + 1) t.layout a 1 = some srcEs :=
        walk1_congr F s.layout t.layout a srcEs c8 (hgfS_t.trans hgfS_s.symm) hpli
          (fun i hi => hsrcR i (by
            obtain ⟨e, he, hei⟩ := hi
            rw [← hei]
            exact List.mem_map_of_mem _ he))
      have hwb_t : walk_search_section (F + 1) t.layout b 1 = some dstEs :=
        walk1_congr F s.layout t.layout b dstEs c10 (hgfD_t.trans hgfD_s.symm) hpli
          (fun i hi => hdstR i (by
            obtain ⟨e, he, hei⟩ := hi
            rw [← hei]
            exact List.mem_map_of_mem _ he))
      obtain ⟨dp', hdp', hdpPath, _, hdpDir⟩ :=
        stat_transfer (t.layout.pathList.get? dI) (s.layout.pathList.get? dI) dp
          (hplStat dI) c2
      have hgdcT : ∀ n, get_direct_child (F + 1) t.layout dI n =
          get_direct_child (F + 1) s.layout dI n := by
        intro n
        rw [gdc_char F t.layout dI b dstEs dp' hdp' (by rw [hdpPath]; exact c4) hwb_t n,
          gdc_char F s.layout dI b dstEs dp c2 c4 c10 n]
        congr 1
        exact findByName_congr s.layout t.layout n _ (fun i _ => hplStat i)
      have hsteps_t := stepOk_frame_all F (F + 1) s t dI ih hst hgdcT srcEs steps c14
        hsrcR hstepsR hstepsV
      refine Or.inr (Or.inr (Or.inr (Or.inr ⟨dI, dp', jS, feS, fIdx, feD, srcEs, dstEs,
        steps, ?_, hdp', by rw [hdpDir]; exact c3, by rw [hdpPath]; exact c4,
        by rw [hf2i]; exact c5, c6, by rw [hjSV]; exact c7,
        hwa_t, c9, hwb_t, by rw [hf2i]; exact c11, c12, by rw [hfIdxV]; exact c13,
        hsteps_t, c15, ?_, ?_, rfl, rfl, hRnd, hVnd⟩)))
      · rw [getPathListIndex_congr s t b hp2i hpli]
        exact c1
      · intro i j p q hi hj hpi hpj hn
        exact c16 i j p q hi hj ((hdstR i hi).symm.trans hpi)
          ((hdstR j hj).symm.trans hpj) hn
      · refine List.Pairwise.imp_of_mem ?_ c17
        intro e1 e2 h1 h2 hf p1 p2 hp1 hp2
        exact hf p1 p2
          ((hsrcR e1.topIndex (List.mem_map_of_mem _ h1)).symm.trans hp1)
          ((hsrcR e2.topIndex (List.mem_map_of_mem _ h2)).symm.trans hp2)

/-- Simulation of the matching loop: run 1 (state `t`) produces exactly the
recorded matches while writing only inside the sub-pair regions, and at any
later state `u` agreeing with run 1's output on those regions the loop is a
state-level no-op with the same matches.  `ihP` is the induction hypothesis
for the recursive `file_order_fix` calls one fuel lower. -/
theorem fixGenLoop (F : Nat)
    (ihP : ∀ (s2 s2' : SearchSection) (a b : Hash40) (R2 V2 : List Nat),
      s2.layout.pathListIndices = List.range s2.layout.pathList.length →
      s2.layout.pathList.length ≤ invalidIdx →
      Covers F s2 a b R2 V2 →
      file_order_fix F s2 a b = some s2' →
      (∀ k, k ∉ R2 → s2'.layout.pathList.get? k = s2.layout.pathList.get? k) ∧
      (∀ j, j ∉ V2 →
        s2'.layout.folderPathList.get? j = s2.layout.folderPathList.get? j) ∧
      (∀ u, staticEq s2' u →
        (∀ k ∈ R2, u.layout.pathList.get? k = s2'.layout.pathList.get? k) →
        (∀ j ∈ V2, u.layout.folderPathList.get? j = s2'.layout.folderPathList.get? j) →
        file_order_fix F u a b = some u))
    (s : SearchSection)
    (hpli : s.layout.pathListIndices = List.range s.layout.pathList.length)
    (hlen : s.layout.pathList.length ≤ invalidIdx)
    (dI fIdx : Nat) (dtops : List Nat)
    (hgdct : ∀ t : SearchSection, staticEq s t →
      (∀ k ∈ dtops, t.layout.pathList.get? k = s.layout.pathList.get? k) →
      t.layout.folderPathList.get? fIdx = s.layout.folderPathList.get? fIdx →
      ∀ n, get_direct_child (F + 1) t.layout dI n =
        get_direct_child (F + 1) s.layout dI n) :
    ∀ (entries : List SearchEntry) (steps : List StepSpec),
      List.Forall₂ (StepOk (Covers F) (F + 1) s dI) entries steps →
      ∀ (t t' : SearchSection) (acc out : List Nat),
        fixLoop (file_order_fix F) (F + 1) dI entries t acc = some (t', out) →
        staticEq s t →
        (∀ k ∈ entries.map SearchEntry.topIndex,
          t.layout.pathList.get? k = s.layout.pathList.get? k) →
        (∀ k ∈ dtops, t.layout.pathList.get? k = s.layout.pathList.get? k) →
        t.layout.folderPathList.get? fIdx = s.layout.folderPathList.get? fIdx →
        (∀ k ∈ stepsR steps, t.layout.pathList.get? k = s.layout.pathList.get? k) →
        (∀ j ∈ stepsV steps,
          t.layout.folderPathList.get? j = s.layout.folderPathList.get? j) →
        (∀ k ∈ entries.map SearchEntry.topIndex, k ∉ stepsR steps) →
        (∀ k ∈ dtops, k ∉ stepsR steps) →
        fIdx ∉ stepsV steps →
        (stepsR steps).Nodup →
        (stepsV steps).Nodup →
        out = acc ++ stepsMatched steps ∧
        (∀ k, k ∉ stepsR steps →
          t'.layout.pathList.get? k = t.layout.pathList.get? k) ∧
        (∀ j, j ∉ stepsV steps →
          t'.layout.folderPathList.get? j = t.layout.folderPathList.get? j) ∧
        (∀ (u : SearchSection) (acc2 : List Nat),
          staticEq s u →
          (∀ n, get_direct_child (F + 1) u.layout dI n =
            get_direct_child (F + 1) s.layout dI n) →
          (∀ k ∈ entries.map SearchEntry.topIndex,
            u.layout.pathList.get? k = s.layout.pathList.get? k) →
          (∀ k ∈ stepsR steps, u.layout.pathList.get? k = t'.layout.pathList.get? k) →
          (∀ j ∈ stepsV steps,
            u.layout.folderPathList.get? j = t'.layout.folderPathList.get? j) →
          fixLoop (file_order_fix F) (F + 1) dI entries u acc2 =
            some (u, acc2 ++ stepsMatched steps)) := by
  intro entries steps h
  induction h with
  | nil =>
    intro t t' acc out hrun _ _ _ _ _ _ _ _ _ _ _
    unfold fixLoop at hrun
    cases hrun
    refine ⟨by simp [stepsMatched], fun k _ => rfl, fun j _ => rfl, ?_⟩
    intro u acc2 _ _ _ _ _
    unfold fixLoop
    simp [stepsMatched]
  | @cons e st es sts hab htail ih =>
    intro t t' acc out hrun hst hEt hDt hFt hRt hVt hdisjE hdisjD hfV hndR hndV
    have hEhead := hEt e.topIndex (by simp)
    have hEtail : ∀ k ∈ es.map SearchEntry.topIndex,
        t.layout.pathList.get? k = s.layout.pathList.get? k :=
      fun k hk => hEt k (by simp only [List.map_cons, List.mem_cons]; exact Or.inr hk)
    have hdisjEtail : ∀ k ∈ es.map SearchEntry.topIndex, k ∉ stepsR sts := by
      intro k hk
      cases st with
      | skip => exact hdisjE k (by simp only [List.map_cons, List.mem_cons]; exact Or.inr hk)
      | fmatch i => exact hdisjE k (by simp only [List.map_cons, List.mem_cons]; exact Or.inr hk)
      | dmatch i a2 b2 R2 V2 =>
        intro hmem
        exact hdisjE k (by simp only [List.map_cons, List.mem_cons]; exact Or.inr hk)
          (List.mem_append.mpr (Or.inr hmem))
    unfold fixLoop at hrun
    cases st with
    | skip =>
      obtain ⟨sp, hsp, hg⟩ := hab
      have hsp_t : t.layout.pathList.get? e.topIndex = some sp := by
        rw [hEhead]; exact hsp
      have hg_t : get_direct_child (F + 1) t.layout dI sp.fileName = some none :=
        (hgdct t hst hDt hFt sp.fileName).trans hg
      simp only [hsp_t, hg_t] at hrun
      obtain ⟨hout, hfr, hfv, hL3⟩ := ih t t' acc out hrun hst hEtail hDt hFt hRt hVt
        hdisjEtail hdisjD hfV hndR hndV
      refine ⟨hout, hfr, hfv, ?_⟩
      intro u acc2 hsu hgdcu hEu hRu hVu
      have hsp_u : u.layout.pathList.get? e.topIndex = some sp := by
        rw [hEu e.topIndex (by simp)]; exact hsp
      have hg_u : get_direct_child (F + 1) u.layout dI sp.fileName = some none :=
        (hgdcu sp.fileName).trans hg
      unfold fixLoop
      simp only [hsp_u, hg_u]
      exact hL3 u acc2 hsu hgdcu
        (fun k hk => hEu k (by simp only [List.map_cons, List.mem_cons]; exact Or.inr hk))
        hRu hVu
    | fmatch i =>
      obtain ⟨sp, hsp, hg, q, hq, hqd⟩ := hab
      have hsp_t : t.layout.pathList.get? e.topIndex = some sp := by
        rw [hEhead]; exact hsp
      have hg_t : get_direct_child (F + 1) t.layout dI sp.fileName = some (some i) :=
        (hgdct t hst hDt hFt sp.fileName).trans hg
      obtain ⟨qt, hqt, _, _, hqtd⟩ :=
        stat_transfer (t.layout.pathList.get? i) (s.layout.pathList.get? i) q
          (hst.2.2.2.2.2.2 i) hq
      simp only [hsp_t, hg_t, hqt] at hrun
      rw [if_neg (by rw [hqtd, hqd]; simp)] at hrun
      obtain ⟨hout, hfr, hfv, hL3⟩ := ih t t' (acc ++ [i]) out hrun hst hEtail hDt hFt
        hRt hVt hdisjEtail hdisjD hfV hndR hndV
      refine ⟨by rw [hout]; simp [stepsMatched], hfr, hfv, ?_⟩
      intro u acc2 hsu hgdcu hEu hRu hVu
      have hsp_u : u.layout.pathList.get? e.topIndex = some sp := by
        rw [hEu e.topIndex (by simp)]; exact hsp
      have hg_u : get_direct_child (F + 1) u.layout dI sp.fileName = some (some i) :=
        (hgdcu sp.fileName).trans hg
      obtain ⟨qu, hqu, _, _, hqud⟩ :=
        stat_transfer (u.layout.pathList.get? i) (s.layout.pathList.get? i) q
          (hsu.2.2.2.2.2.2 i) hq
      unfold fixLoop
      simp only [hsp_u, hg_u, hqu]
      rw [if_neg (by rw [hqud, hqd]; simp)]
      have := hL3 u (acc2 ++ [i]) hsu hgdcu
        (fun k hk => hEu k (by simp only [List.map_cons, List.mem_cons]; exact Or.inr hk))
        hRu hVu
      rw [this]
      simp [stepsMatched]
    | dmatch i a2 b2 R2 V2 =>
      obtain ⟨sp, hsp, hg, q, hq, hqd, ha2, hb2, hcov⟩ := hab
      have hRhead : ∀ k ∈ R2, t.layout.pathList.get? k = s.layout.pathList.get? k :=
        fun k hk => hRt k (List.mem_append.mpr (Or.inl hk))
      have hVhead : ∀ j ∈ V2,
          t.layout.folderPathList.get? j = s.layout.folderPathList.get? j :=
        fun j hj => hVt j (List.mem_append.mpr (Or.inl hj))
      have hndR2 := (List.nodup_append.mp hndR).1
      have hndRtail := (List.nodup_append.mp hndR).2.1
      have hdisjR2tail := (List.nodup_append.mp hndR).2.2
      have hndV2 := (List.nodup_append.mp hndV).1
      have hndVtail := (List.nodup_append.mp hndV).2.1
      have hdisjV2tail := (List.nodup_append.mp hndV).2.2
      have hsp_t : t.layout.pathList.get? e.topIndex = some sp := by
        rw [hEhead]; exact hsp
      have hg_t : get_direct_child (F + 1) t.layout dI sp.fileName = some (some i) :=
        (hgdct t hst hDt hFt sp.fileName).trans hg
      obtain ⟨qt, hqt, hqtp, _, hqtd⟩ :=
        stat_transfer (t.layout.pathList.get? i) (s.layout.pathList.get? i) q
          (hst.2.2.2.2.2.2 i) hq
      simp only [hsp_t, hg_t, hqt] at hrun
      rw [if_pos (by rw [hqtd]; exact hqd)] at hrun
      rw [show sp.path = a2 from ha2.symm,
        show qt.path = b2 from by rw [hqtp, ← hb2]] at hrun
      cases hrec : file_order_fix F t a2 b2 with
      | none =>
        simp only [hrec] at hrun
        exact Option.noConfusion hrun
      | some tN =>
        simp only [hrec] at hrun
        have hstN : staticEq s tN :=
          staticEq_trans hst (file_order_fix_staticEq F t tN a2 b2 hrec)
        obtain ⟨subFrameR, subFrameV, subIII⟩ :=
          ihP t tN a2 b2 R2 V2 (staticEq_pli s t hst hpli) (staticEq_len s t hst hlen)
            (covers_frame F s t a2 b2 R2 V2 hcov hst hRhead hVhead) hrec
        have hE_tN : ∀ k ∈ es.map SearchEntry.topIndex,
            tN.layout.pathList.get? k = s.layout.pathList.get? k := by
          intro k hk
          have hk2 : k ∉ R2 := fun hmem =>
            hdisjE k (by simp only [List.map_cons, List.mem_cons]; exact Or.inr hk)
              (List.mem_append.mpr (Or.inl hmem))
          rw [subFrameR k hk2]
          exact hEtail k hk
        have hD_tN : ∀ k ∈ dtops,
            tN.layout.pathList.get? k = s.layout.pathList.get? k := by
          intro k hk
          have hk2 : k ∉ R2 := fun hmem =>
            hdisjD k hk (List.mem_append.mpr (Or.inl hmem))
          rw [subFrameR k hk2]
          exact hDt k hk
        have hF_tN : tN.layout.folderPathList.get? fIdx =
            s.layout.folderPathList.get? fIdx := by
          have hk2 : fIdx ∉ V2 := fun hmem => hfV (List.mem_append.mpr (Or.inl hmem))
          rw [subFrameV fIdx hk2]
          exact hFt
        have hR_tN : ∀ k ∈ stepsR sts,
            tN.layout.pathList.get? k = s.layout.pathList.get? k := by
          intro k hk
          have hk2 : k ∉ R2 := fun hmem => hdisjR2tail hmem hk
          rw [subFrameR k hk2]
          exact hRt k (List.mem_append.mpr (Or.inr hk))
        have hV_tN : ∀ j ∈ stepsV sts,
            tN.layout.folderPathList.get? j = s.layout.folderPathList.get? j := by
          intro j hj
          have hj2 : j ∉ V2 := fun hmem => hdisjV2tail hmem hj
          rw [subFrameV j hj2]
          exact hVt j (List.mem_append.mpr (Or.inr hj))
        have hdisjDtail : ∀ k ∈ dtops, k ∉ stepsR sts :=
          fun k hk hmem => hdisjD k hk (List.mem_append.mpr (Or.inr hmem))
        have hfVtail : fIdx ∉ stepsV sts :=
          fun hmem => hfV (List.mem_append.mpr (Or.inr hmem))
        obtain ⟨hout, hfr, hfv, hL3⟩ := ih tN t' (acc ++ [i]) out hrun hstN hE_tN hD_tN
          hF_tN hR_tN hV_tN hdisjEtail hdisjDtail hfVtail hndRtail hndVtail
        refine ⟨by rw [hout]; simp [stepsMatched], ?_, ?_, ?_⟩
        · intro k hk
          have hk2 : k ∉ R2 := fun hmem => hk (List.mem_append.mpr (Or.inl hmem))
          have hk3 : k ∉ stepsR sts := fun hmem => hk (List.mem_append.mpr (Or.inr hmem))
          rw [hfr k hk3, subFrameR k hk2]
        · intro j hj
          have hj2 : j ∉ V2 := fun hmem => hj (List.mem_append.mpr (Or.inl hmem))
          have hj3 : j ∉ stepsV sts := fun hmem => hj (List.mem_append.mpr (Or.inr hmem))
          rw [hfv j hj3, subFrameV j hj2]
        · intro u acc2 hsu hgdcu hEu hRu hVu
          have hsp_u : u.layout.pathList.get? e.topIndex = some sp := by
            rw [hEu e.topIndex (by simp)]; exact hsp
          have hg_u : get_direct_child (F + 1) u.layout dI sp.fileName =
              some (some i) := (hgdcu sp.fileName).trans hg
          obtain ⟨qu, hqu, hqup, _, hqud⟩ :=
            stat_transfer (u.layout.pathList.get? i) (s.layout.pathList.get? i) q
              (hsu.2.2.2.2.2.2 i) hq
          have hsub_u : file_order_fix F u a2 b2 = some u := by
            refine subIII u (staticEq_trans (staticEq_symm hstN) hsu) ?_ ?_
            · intro k hk
              have h1 : u.layout.pathList.get? k = t'.layout.pathList.get? k :=
                hRu k (List.mem_append.mpr (Or.inl hk))
              have h2 : t'.layout.pathList.get? k = tN.layout.pathList.get? k :=
                hfr k (fun hmem => hdisjR2tail hk hmem)
              exact h1.trans h2
            · intro j hj
              have h1 : u.layout.folderPathList.get? j =
                  t'.layout.folderPathList.get? j :=
                hVu j (List.mem_append.mpr (Or.inl hj))
              have h2 : t'.layout.folderPathList.get? j =
                  tN.layout.folderPathList.get? j :=
                hfv j (fun hmem => hdisjV2tail hj hmem)
              exact h1.trans h2
          unfold fixLoop
          simp only [hsp_u, hg_u, hqu]
          rw [if_pos (by rw [hqud]; exact hqd)]
          rw [show sp.path = a2 from ha2.symm,
            show qu.path = b2 from by rw [hqup, ← hb2]]
          simp only [hsub_u]
          have := hL3 u (acc2 ++ [i]) hsu hgdcu
            (fun k hk => hEu k
              (by simp only [List.map_cons, List.mem_cons]; exact Or.inr hk))
            (fun k hk => hRu k (List.mem_append.mpr (Or.inr hk)))
            (fun j hj => hVu j (List.mem_append.mpr (Or.inr hj)))
          rw [this]
          simp [stepsMatched]

/-- Main induction for the general idempotence argument: a run of
`file_order_fix` covered by the certificate writes only inside its regions,
and at any state that is static-equal to the result and agrees with it on
those regions the same run is a state-level no-op. -/
theorem fix_general : ∀ (F : Nat) (s s' : SearchSection) (a b : Hash40) (R V : List Nat),
    s.layout.pathListIndices = List.range s.layout.pathList.length →
    s.layout.pathList.length ≤ invalidIdx →
    Covers F s a b R V →
    file_order_fix F s a b = some s' →
    (∀ k, k ∉ R → s'.layout.pathList.get? k = s.layout.pathList.get? k) ∧
    (∀ j, j ∉ V → s'.layout.folderPathList.get? j = s.layout.folderPathList.get? j) ∧
    (∀ u, staticEq s' u →
      (∀ k ∈ R, u.layout.pathList.get? k = s'.layout.pathList.get? k) →
      (∀ j ∈ V, u.layout.folderPathList.get? j = s'.layout.folderPathList.get? j) →
      file_order_fix F u a b = some u) := by
  intro F
  induction F with
  | zero => intro s s' a b R V _ _ hcov _; exact hcov.elim
  | succ F ihF =>
    intro s s' a b R V hpli hlen hcov h1
    have hss' : staticEq s s' := file_order_fix_staticEq (F + 1) s s' a b h1
    rw [Covers_succ] at hcov
    unfold CoversBody at hcov
    rcases hcov with ⟨c1, hR0, hV0⟩ | ⟨dI, dp, c1, c2, c3, hR0, hV0⟩ |
      ⟨dI, dp, c1, c2, c3, c4, hR0, hV0⟩ |
      ⟨dI, dp, jS, feS, c1, c2, c3, c4, c5, c6, c7, hR0, hV0⟩ |
      ⟨dI, dp, jS, feS, fIdx, feD, srcEs, dstEs, steps, c1, c2, c3, c4, c5, c6, c7,
        c8, c9, c10, c11, c12, c13, c14, c15, c16, c17, hReq, hVeq, hRnd, hVnd⟩
    · -- destination hash unresolved: early exit
      subst hR0
      subst hV0
      unfold file_order_fix at h1
      simp only [c1] at h1
      cases h1
      refine ⟨fun k _ => rfl, fun j _ => rfl, ?_⟩
      intro u hsu _ _
      unfold file_order_fix
      rw [getPathListIndex_congr s u b hsu.1 hsu.2.2.1]
      simp only [c1]
    · -- destination is not a directory: early exit
      subst hR0
      subst hV0
      unfold file_order_fix at h1
      simp only [c1, c2] at h1
      rw [if_pos (by rw [c3]; rfl)] at h1
      cases h1
      refine ⟨fun k _ => rfl, fun j _ => rfl, ?_⟩
      intro u hsu _ _
      obtain ⟨dpU, hdpU, _, _, hdirU⟩ :=
        stat_transfer (u.layout.pathList.get? dI) (s.layout.pathList.get? dI) dp
          (hsu.2.2.2.2.2.2 dI) c2
      unfold file_order_fix
      rw [getPathListIndex_congr s u b hsu.1 hsu.2.2.1]
      simp only [c1, hdpU]
      rw [if_pos (by rw [hdirU, c3]; rfl)]
    · -- source folder missing: the depth-one walk is empty, early exit
      subst hR0
      subst hV0
      have hwa : walk_search_section (F + 1) s.layout a 1 = some [] := by
        rw [walk_depth_one]
        simp only [c4]
      unfold file_order_fix at h1
      simp only [c1, c2] at h1
      rw [if_neg (by simp [c3])] at h1
      simp only [hwa] at h1
      have h1e : some s = some s' := h1
      cases h1e
      refine ⟨fun k _ => rfl, fun j _ => rfl, ?_⟩
      intro u hsu _ _
      obtain ⟨dpU, hdpU, _, _, hdirU⟩ :=
        stat_transfer (u.layout.pathList.get? dI) (s.layout.pathList.get? dI) dp
          (hsu.2.2.2.2.2.2 dI) c2
      have hwaU : walk_search_section (F + 1) u.layout a 1 = some [] := by
        rw [walk_depth_one]
        simp only [getFolderPathEntry_none_congr s.layout u.layout a c4 hsu.2.1
          hsu.2.2.2.1]
      unfold file_order_fix
      rw [getPathListIndex_congr s u b hsu.1 hsu.2.2.1]
      simp only [c1, hdpU]
      rw [if_neg (by rw [hdirU]; simp [c3])]
      simp only [hwaU]
      rfl
    · -- empty source folder: the walk yields no entries, early exit
      subst hR0
      subst hV0
      have hgfa : getFolderPathEntry s.layout a = some feS :=
        getFolderPathEntry_mk s.layout a jS feS c4 c5 c6
      have hwa : walk_search_section (F + 1) s.layout a 1 = some [] := by
        refine walk1_make F s.layout a feS [] hgfa ?_
        rw [c7]
        unfold siblingWalk
        rw [if_pos rfl]
      unfold file_order_fix at h1
      simp only [c1, c2] at h1
      rw [if_neg (by simp [c3])] at h1
      simp only [hwa] at h1
      have h1e : some s = some s' := h1
      cases h1e
      refine ⟨fun k _ => rfl, fun j _ => rfl, ?_⟩
      intro u hsu _ hVu
      obtain ⟨dpU, hdpU, _, _, hdirU⟩ :=
        stat_transfer (u.layout.pathList.get? dI) (s.layout.pathList.get? dI) dp
          (hsu.2.2.2.2.2.2 dI) c2
      have hfplU : u.layout.folderPathList.get? jS = some feS := by
        rw [hVu jS (List.mem_singleton_self _)]
        exact c6
      have hgfaU : getFolderPathEntry u.layout a = some feS :=
        getFolderPathEntry_mk u.layout a jS feS (by rw [hsu.2.1]; exact c4) c5 hfplU
      have hwaU : walk_search_section (F + 1) u.layout a 1 = some [] := by
        refine walk1_make F u.layout a feS [] hgfaU ?_
        rw [c7]
        unfold siblingWalk
        rw [if_pos rfl]
      unfold file_order_fix
      rw [getPathListIndex_congr s u b hsu.1 hsu.2.2.1]
      simp only [c1, hdpU]
      rw [if_neg (by rw [hdirU]; simp [c3])]
      simp only [hwaU]
      rfl
    · -- main path
      subst hReq
      subst hVeq
      -- disjointness facts from the region nodup hypotheses
      have hnd12 := (List.nodup_append.mp hRnd).1
      have ndStepsR := (List.nodup_append.mp hRnd).2.1
      have disj12 := (List.nodup_append.mp hRnd).2.2
      have disjSrcDst := (List.nodup_append.mp hnd12).2.2
      have hjS1 := (List.nodup_cons.mp hVnd).1
      have hfVnotin := (List.nodup_cons.mp (List.nodup_cons.mp hVnd).2).1
      have ndStepsV := (List.nodup_cons.mp (List.nodup_cons.mp hVnd).2).2
      have hdisjE : ∀ k ∈ srcEs.map SearchEntry.topIndex, k ∉ stepsR steps :=
        fun k hk hm => disj12 (List.mem_append.mpr (Or.inl hk)) hm
      have hdisjD : ∀ k ∈ dstEs.map SearchEntry.topIndex, k ∉ stepsR steps :=
        fun k hk hm => disj12 (List.mem_append.mpr (Or.inr hk)) hm
      have hjSneq : jS ≠ fIdx := fun h => hjS1 (h ▸ List.mem_cons_self _ _)
      have hjSnotV : jS ∉ stepsV steps := fun h => hjS1 (List.mem_cons_of_mem _ h)
      -- the canonical name-search characterisation of get_direct_child at s
      have hgdcS : ∀ n, get_direct_child (F + 1) s.layout dI n =
          some (findByName s.layout n (dstEs.map SearchEntry.topIndex)) :=
        gdc_char F s.layout dI b dstEs dp c2 c4 c10
      have hnameS : ∀ n x, get_direct_child (F + 1) s.layout dI n = some (some x) →
          ∃ q, s.layout.pathList.get? x = some q ∧ q.fileName = n := by
        intro n x h
        rw [hgdcS n] at h
        obtain ⟨_, q, hq, hqn⟩ := findByName_mem s.layout n _ x (Option.some.inj h)
        exact ⟨q, hq, hqn⟩
      have hmatched_sub : ∀ x ∈ stepsMatched steps, x ∈ dstEs.map SearchEntry.topIndex := by
        intro x hx
        obtain ⟨e, _, sp, _, hg⟩ :=
          stepsMatched_prov (Covers F) (F + 1) s dI srcEs steps c14 x hx
        rw [hgdcS] at hg
        exact (findByName_mem s.layout sp.fileName _ x (Option.some.inj hg)).1
      have hmatched_nd : (stepsMatched steps).Nodup :=
        stepsMatched_nodup (Covers F) (F + 1) s dI hnameS srcEs steps c14 c17
      have hbS : ∀ i ∈ dstEs.map SearchEntry.topIndex,
          (s.layout.pathList.get? i).isSome := by
        intro i hi
        obtain ⟨e, he, hei⟩ := List.mem_map.mp hi
        rw [← hei]
        exact walk1_entries_isSome s.layout b F dstEs c10 e he
      have hgfS : getFolderPathEntry s.layout a = some feS :=
        getFolderPathEntry_mk s.layout a jS feS c5 c6 c7
      have hgfD : getFolderPathEntry s.layout b = some feD :=
        getFolderPathEntry_mk s.layout b fIdx feD c11 c12 c13
      -- get_direct_child congruence for states reached during the loop
      have hgdct : ∀ t : SearchSection, staticEq s t →
          (∀ k ∈ dstEs.map SearchEntry.topIndex,
            t.layout.pathList.get? k = s.layout.pathList.get? k) →
          t.layout.folderPathList.get? fIdx = s.layout.folderPathList.get? fIdx →
          ∀ n, get_direct_child (F + 1) t.layout dI n =
            get_direct_child (F + 1) s.layout dI n := by
        intro t hst hdt hft n
        have hgfDt : getFolderPathEntry t.layout b = some feD :=
          getFolderPathEntry_mk t.layout b fIdx feD (by rw [hst.2.1]; exact c11) c12
            (by rw [hft]; exact c13)
        have hwt : walk_search_section (F + 1) t.layout b 1 = some dstEs :=
          walk1_congr F s.layout t.layout b dstEs c10 (hgfDt.trans hgfD.symm)
            hst.2.2.1 (fun i hi => hdt i (by
              obtain ⟨e, he, hei⟩ := hi
              rw [← hei]
              exact List.mem_map_of_mem _ he))
        obtain ⟨dpT, hdpT, hdpTpath, _, _⟩ :=
          stat_transfer (t.layout.pathList.get? dI) (s.layout.pathList.get? dI) dp
            (hst.2.2.2.2.2.2 dI) c2
        rw [gdc_char F t.layout dI b dstEs dpT hdpT (by rw [hdpTpath]; exact c4) hwt n,
          hgdcS n]
        congr 1
        exact findByName_congr s.layout t.layout n _ (fun i hi => by rw [hdt i hi])
      -- run 1: navigate to the loop
      have hne : ¬ srcEs.isEmpty = true := by
        cases srcEs with
        | nil => exact absurd rfl c9
        | cons x xs => simp
      unfold file_order_fix at h1
      simp only [c1, c2] at h1
      rw [if_neg (by simp [c3])] at h1
      simp only [c8] at h1
      rw [if_neg hne] at h1
      cases hloop : fixLoop (file_order_fix F) (F + 1) dI srcEs s [] with
      | none =>
        simp only [hloop] at h1
        exact Option.noConfusion h1
      | some pr =>
        obtain ⟨s2, ordered⟩ := pr
        simp only [hloop] at h1
        obtain ⟨hord, hlfR, hlfV, hL3⟩ := fixGenLoop F ihF s hpli hlen dI fIdx
          (dstEs.map SearchEntry.topIndex) hgdct srcEs steps c14 s s2 [] ordered hloop
          (staticEq_refl s) (fun k _ => rfl) (fun k _ => rfl) rfl (fun k _ => rfl)
          (fun j _ => rfl) hdisjE hdisjD hfVnotin ndStepsR ndStepsV
        have hordS : ordered = stepsMatched steps := by simpa using hord
        subst hordS
        have hs2static : staticEq s s2 :=
          fixLoop_staticEq (file_order_fix F)
            (fun w w' a2 b2 hr => file_order_fix_staticEq F w w' a2 b2 hr) (F + 1) dI
            srcEs s s2 [] (stepsMatched steps) hloop
        have hfeD2 : s2.layout.folderPathList.get? fIdx = some feD := by
          rw [hlfV fIdx hfVnotin]
          exact c13
        have hgfD2 : getFolderPathEntry s2.layout b = some feD :=
          getFolderPathEntry_mk s2.layout b fIdx feD (by rw [hs2static.2.1]; exact c11)
            c12 hfeD2
        have hw2 : walk_search_section (F + 1) s2.layout b 1 = some dstEs :=
          walk1_congr F s.layout s2.layout b dstEs c10 (hgfD2.trans hgfD.symm)
            hs2static.2.2.1 (fun i hi => hlfR i (hdisjD i (by
              obtain ⟨e, he, hei⟩ := hi
              rw [← hei]
              exact List.mem_map_of_mem _ he)))
        simp only [hw2] at h1
        have hf2i2 : hfind s2.layout.folderPathToIndex b = some fIdx := by
          rw [hs2static.2.1]
          exact c11
        simp only [hf2i2] at h1
        -- the appended chain list and its properties
        have hfin_nd : (appendMissing (stepsMatched steps) dstEs).Nodup :=
          appendMissing_nodup dstEs (stepsMatched steps) hmatched_nd
        have hfin_sub : ∀ x ∈ appendMissing (stepsMatched steps) dstEs,
            x ∈ dstEs.map SearchEntry.topIndex := fun x hx =>
          (appendMissing_mem dstEs (stepsMatched steps) x hx).elim
            (fun h => hmatched_sub x h) (fun h => h)
        obtain ⟨T, hT⟩ := appendMissing_prefix dstEs (stepsMatched steps)
        have hdstlen : dstEs.length ≤ F := by
          cases walk1_cases F s.layout b dstEs c10 with
          | inl h =>
            rw [h.2]
            simp
          | inr h =>
            obtain ⟨fe, _, hsw⟩ := h
            have := siblingWalk_length s.layout (visitD1 F s.layout) (F + 1)
              fe.firstChild dstEs hsw
            omega
        have hfin_lenF : (appendMissing (stepsMatched steps) dstEs).length ≤ F := by
          have hsub := List.subperm_of_subset hfin_nd (fun x hx => hfin_sub x hx)
          have hle := hsub.length_le
          rw [List.length_map] at hle
          omega
        have hfin_boundS : ∀ i ∈ appendMissing (stepsMatched steps) dstEs,
            (s.layout.pathList.get? i).isSome := by
          intro i hi
          obtain ⟨e, he, hei⟩ := List.mem_map.mp (hfin_sub i hi)
          rw [← hei]
          exact walk1_entries_isSome s.layout b F dstEs c10 e he
        cases hfc : appendMissing (stepsMatched steps) dstEs with
        | nil =>
          -- no destination children at all
          simp only [hfc] at h1
          have hdstnil : dstEs = [] := by
            cases hd : dstEs with
            | nil => rfl
            | cons e r =>
              exfalso
              have hmem : e.topIndex ∈ appendMissing (stepsMatched steps) dstEs :=
                appendMissing_sup_es dstEs (stepsMatched steps) e.topIndex
                  (by rw [hd]; simp)
              rw [hfc] at hmem
              simp at hmem
          subst hdstnil
          have hmatched_nil : stepsMatched steps = [] := by
            have hMT : stepsMatched steps ++ T = [] := by rw [← hT, hfc]
            exact (List.append_eq_nil.mp hMT).1
          obtain ⟨s'', hset, hfeSet, hfr, hplEq⟩ :=
            setFirstChild_spec s2 fIdx invalidIdx feD hfeD2
          rw [hset] at h1
          obtain rfl : s' = s'' := (Option.some.inj h1).symm
          refine ⟨?_, ?_, ?_⟩
          · intro k hk
            have hk2 : k ∉ stepsR steps := fun hm =>
              hk (List.mem_append.mpr (Or.inr hm))
            rw [show s'.layout.pathList = s2.layout.pathList from hplEq]
            exact hlfR k hk2
          · intro j hj
            have hj1 : j ≠ fIdx := fun h =>
              hj (h ▸ List.mem_cons_of_mem _ (List.mem_cons_self _ _))
            have hj2 : j ∉ stepsV steps := fun hm =>
              hj (List.mem_cons_of_mem _ (List.mem_cons_of_mem _ hm))
            rw [hfr j hj1]
            exact hlfV j hj2
          · intro u hsu hRu hVu
            have hsU : staticEq s u := staticEq_trans hss' hsu
            obtain ⟨dpU, hdpU, hdpUpath, _, hdirU⟩ :=
              stat_transfer (u.layout.pathList.get? dI) (s.layout.pathList.get? dI)
                dp (hsU.2.2.2.2.2.2 dI) c2
            have hEu : ∀ k ∈ srcEs.map SearchEntry.topIndex,
                u.layout.pathList.get? k = s.layout.pathList.get? k := by
              intro k hk
              rw [hRu k (List.mem_append.mpr (Or.inl (List.mem_append.mpr (Or.inl hk)))),
                show s'.layout.pathList = s2.layout.pathList from hplEq]
              exact hlfR k (hdisjE k hk)
            have hfplJSu : u.layout.folderPathList.get? jS = some feS := by
              rw [hVu jS (List.mem_cons_self _ _), hfr jS hjSneq, hlfV jS hjSnotV]
              exact c7
            have hgfaU : getFolderPathEntry u.layout a = some feS :=
              getFolderPathEntry_mk u.layout a jS feS (by rw [hsU.2.1]; exact c5) c6
                hfplJSu
            have hwaU : walk_search_section (F + 1) u.layout a 1 = some srcEs :=
              walk1_congr F s.layout u.layout a srcEs c8 (hgfaU.trans hgfS.symm)
                hsU.2.2.1 (fun i hi => hEu i (by
                  obtain ⟨e, he, hei⟩ := hi
                  rw [← hei]
                  exact List.mem_map_of_mem _ he))
            have hfplfIdxU : u.layout.folderPathList.get? fIdx =
                some { feD with firstChild := invalidIdx } := by
              rw [hVu fIdx (List.mem_cons_of_mem _ (List.mem_cons_self _ _))]
              exact hfeSet
            have hgfbU : getFolderPathEntry u.layout b =
                some { feD with firstChild := invalidIdx } :=
              getFolderPathEntry_mk u.layout b fIdx _ (by rw [hsU.2.1]; exact c11) c12
                hfplfIdxU
            have hwbU : walk_search_section (F + 1) u.layout b 1 = some [] := by
              refine walk1_make F u.layout b { feD with firstChild := invalidIdx } []
                hgfbU ?_
              show siblingWalk u.layout (visitD1 F u.layout) (F + 1) invalidIdx =
                some []
              unfold siblingWalk
              rw [if_pos rfl]
            have hgdcU : ∀ n, get_direct_child (F + 1) u.layout dI n =
                get_direct_child (F + 1) s.layout dI n := by
              intro n
              rw [gdc_char F u.layout dI b [] dpU hdpU (by rw [hdpUpath]; exact c4)
                hwbU n, hgdcS n]
              rfl
            have hRu2 : ∀ k ∈ stepsR steps,
                u.layout.pathList.get? k = s2.layout.pathList.get? k := by
              intro k hk
              rw [hRu k (List.mem_append.mpr (Or.inr hk)),
                show s'.layout.pathList = s2.layout.pathList from hplEq]
            have hVu2 : ∀ j ∈ stepsV steps,
                u.layout.folderPathList.get? j = s2.layout.folderPathList.get? j := by
              intro j hj
              have hjne : j ≠ fIdx := fun h => hfVnotin (h ▸ hj)
              rw [hVu j (List.mem_cons_of_mem _ (List.mem_cons_of_mem _ hj)),
                hfr j hjne]
            have hloopU : fixLoop (file_order_fix F) (F + 1) dI srcEs u [] =
                some (u, []) := by
              rw [hL3 u [] hsU hgdcU hEu hRu2 hVu2, hmatched_nil]
              rfl
            have hsetU : setFirstChild u fIdx invalidIdx = some u :=
              setFirstChild_noop u fIdx { feD with firstChild := invalidIdx }
                hfplfIdxU
            unfold file_order_fix
            rw [getPathListIndex_congr s u b hsU.1 hsU.2.2.1]
            simp only [c1, hdpU]
            rw [if_neg (by rw [hdirU]; simp [c3])]
            simp only [hwaU]
            rw [if_neg hne]
            simp only [hloopU, hwbU]
            rw [show hfind u.layout.folderPathToIndex b = some fIdx from by
              rw [hsU.2.1]; exact c11]
            exact hsetU
        | cons first more =>
          simp only [hfc] at h1
          obtain ⟨s3, hset3, hfe3, hfr3, hpl3⟩ :=
            setFirstChild_spec s2 fIdx first feD hfeD2
          simp only [hset3] at h1
          have hnd_fm : (first :: more).Nodup := by
            rw [← hfc]
            exact hfin_nd
          have hsub_fm : ∀ x ∈ first :: more, x ∈ dstEs.map SearchEntry.topIndex :=
            fun x hx => hfin_sub x (by rw [hfc]; exact hx)
          have hb3 : ∀ i ∈ first :: more, (s3.layout.pathList.get? i).isSome := by
            intro i hi
            rw [show s3.layout.pathList = s2.layout.pathList from hpl3,
              hlfR i (hdisjD i (hsub_fm i hi))]
            exact hfin_boundS i (by rw [hfc]; exact hi)
          obtain ⟨s4, hwc, hchain4, hfrW, hfplW⟩ :=
            writeChain_spec (first :: more) s3 hnd_fm hb3
          rw [hwc] at h1
          obtain rfl : s' = s4 := (Option.some.inj h1).symm
          have hlen_fm : (first :: more).length ≤ F := by
            rw [← hfc]
            exact hfin_lenF
          refine ⟨?_, ?_, ?_⟩
          · intro k hk
            have hkfin : k ∉ first :: more := fun hm =>
              hk (List.mem_append.mpr (Or.inl (List.mem_append.mpr
                (Or.inr (hsub_fm k hm)))))
            have hkR : k ∉ stepsR steps := fun hm =>
              hk (List.mem_append.mpr (Or.inr hm))
            rw [hfrW k hkfin, show s3.layout.pathList = s2.layout.pathList from hpl3]
            exact hlfR k hkR
          · intro j hj
            have hj1 : j ≠ fIdx := fun h =>
              hj (h ▸ List.mem_cons_of_mem _ (List.mem_cons_self _ _))
            have hj2 : j ∉ stepsV steps := fun hm =>
              hj (List.mem_cons_of_mem _ (List.mem_cons_of_mem _ hm))
            rw [show s'.layout.folderPathList = s3.layout.folderPathList from hfplW,
              hfr3 j hj1]
            exact hlfV j hj2
          · intro u hsu hRu hVu
            have hsU : staticEq s u := staticEq_trans hss' hsu
            obtain ⟨dpU, hdpU, hdpUpath, _, hdirU⟩ :=
              stat_transfer (u.layout.pathList.get? dI) (s.layout.pathList.get? dI)
                dp (hsU.2.2.2.2.2.2 dI) c2
            have hEu : ∀ k ∈ srcEs.map SearchEntry.topIndex,
                u.layout.pathList.get? k = s.layout.pathList.get? k := by
              intro k hk
              have hkfin : k ∉ first :: more := fun hm =>
                disjSrcDst hk (hsub_fm k hm)
              rw [hRu k (List.mem_append.mpr (Or.inl (List.mem_append.mpr (Or.inl hk)))),
                hfrW k hkfin, show s3.layout.pathList = s2.layout.pathList from hpl3]
              exact hlfR k (hdisjE k hk)
            have hfplJSu : u.layout.folderPathList.get? jS = some feS := by
              rw [hVu jS (List.mem_cons_self _ _),
                show s'.layout.folderPathList = s3.layout.folderPathList from hfplW,
                hfr3 jS hjSneq, hlfV jS hjSnotV]
              exact c7
            have hgfaU : getFolderPathEntry u.layout a = some feS :=
              getFolderPathEntry_mk u.layout a jS feS (by rw [hsU.2.1]; exact c5) c6
                hfplJSu
            have hwaU : walk_search_section (F + 1) u.layout a 1 = some srcEs :=
              walk1_congr F s.layout u.layout a srcEs c8 (hgfaU.trans hgfS.symm)
                hsU.2.2.1 (fun i hi => hEu i (by
                  obtain ⟨e, he, hei⟩ := hi
                  rw [← hei]
                  exact List.mem_map_of_mem _ he))
            have hchainU : chainInv u (first :: more) := by
              refine chainInv_congr s' u (first :: more) hchain4 ?_
              intro i hi
              exact hRu i (List.mem_append.mpr (Or.inl (List.mem_append.mpr
                (Or.inr (hsub_fm i hi)))))
            have hfplfIdxU : u.layout.folderPathList.get? fIdx =
                some { feD with firstChild := first } := by
              rw [hVu fIdx (List.mem_cons_of_mem _ (List.mem_cons_self _ _)),
                show s'.layout.folderPathList = s3.layout.folderPathList from hfplW]
              exact hfe3
            have hgfbU : getFolderPathEntry u.layout b =
                some { feD with firstChild := first } :=
              getFolderPathEntry_mk u.layout b fIdx _ (by rw [hsU.2.1]; exact c11) c12
                hfplfIdxU
            have hswU : siblingWalk u.layout (visitD1 F u.layout) (F + 1)
                ((first :: more).headD invalidIdx) =
                some ((first :: more).map (entryAt u.layout)) := by
              cases F with
              | zero =>
                exfalso
                simp at hlen_fm
              | succ F2 =>
                exact chain_siblingWalk_gen u F2 (staticEq_pli s u hsU hpli)
                  (staticEq_len s u hsU hlen) (first :: more) (F2 + 1) hchainU hlen_fm
            have hwbU : walk_search_section (F + 1) u.layout b 1 =
                some ((first :: more).map (entryAt u.layout)) :=
              walk1_make F u.layout b { feD with firstChild := first }
                ((first :: more).map (entryAt u.layout)) hgfbU hswU
            have hgdcU : ∀ n, get_direct_child (F + 1) u.layout dI n =
                get_direct_child (F + 1) s.layout dI n := by
              intro n
              rw [gdc_char F u.layout dI b ((first :: more).map (entryAt u.layout))
                dpU hdpU (by rw [hdpUpath]; exact c4) hwbU n, hgdcS n]
              congr 1
              rw [tops_of_entryAt]
              rw [findByName_congr s.layout u.layout n (first :: more)
                (fun i _ => hsU.2.2.2.2.2.2 i)]
              exact findByName_ext s.layout n (first :: more)
                (dstEs.map SearchEntry.topIndex) (dstEs.map SearchEntry.topIndex)
                hsub_fm (fun x h => h)
                (fun x => ⟨hsub_fm x, fun h => by
                  rw [← hfc]
                  exact appendMissing_sup_es dstEs (stepsMatched steps) x h⟩)
                hbS c16
            have hRu2 : ∀ k ∈ stepsR steps,
                u.layout.pathList.get? k = s2.layout.pathList.get? k := by
              intro k hk
              have hkfin : k ∉ first :: more := fun hm =>
                hdisjD k (hsub_fm k hm) hk
              rw [hRu k (List.mem_append.mpr (Or.inr hk)), hfrW k hkfin,
                show s3.layout.pathList = s2.layout.pathList from hpl3]
            have hVu2 : ∀ j ∈ stepsV steps,
                u.layout.folderPathList.get? j = s2.layout.folderPathList.get? j := by
              intro j hj
              have hjne : j ≠ fIdx := fun h => hfVnotin (h ▸ hj)
              rw [hVu j (List.mem_cons_of_mem _ (List.mem_cons_of_mem _ hj)),
                show s'.layout.folderPathList = s3.layout.folderPathList from hfplW,
                hfr3 j hjne]
            have hloopU : fixLoop (file_order_fix F) (F + 1) dI srcEs u [] =
                some (u, stepsMatched steps) := by
              rw [hL3 u [] hsU hgdcU hEu hRu2 hVu2]
              rfl
            have hTm : first :: more = stepsMatched steps ++ T := by
              rw [← hfc, hT]
            have hndMT := List.nodup_append.mp (hTm ▸ hnd_fm)
            have happU : appendMissing (stepsMatched steps)
                ((first :: more).map (entryAt u.layout)) = first :: more := by
              rw [hTm, List.map_append, appendMissing_split]
              rw [appendMissing_all_mem ((stepsMatched steps).map (entryAt u.layout))
                (stepsMatched steps) (by
                  intro e he
                  obtain ⟨i, hi, hei⟩ := List.mem_map.mp he
                  rw [← hei, entryAt_topIndex]
                  exact hi)]
              rw [appendMissing_disjoint (T.map (entryAt u.layout))
                (stepsMatched steps) (by rw [tops_of_entryAt]; exact hndMT.2.1) (by
                  intro e he hm
                  obtain ⟨i, hi, hei⟩ := List.mem_map.mp he
                  rw [← hei, entryAt_topIndex] at hm
                  exact hndMT.2.2 hm hi)]
              rw [tops_of_entryAt]
            have hsetU : setFirstChild u fIdx first = some u :=
              setFirstChild_noop u fIdx { feD with firstChild := first } hfplfIdxU
            have hwcU : writeChain u (first :: more) = some u :=
              writeChain_noop (first :: more) u hchainU
            unfold file_order_fix
            rw [getPathListIndex_congr s u b hsU.1 hsU.2.2.1]
            simp only [c1, hdpU]
            rw [if_neg (by rw [hdirU]; simp [c3])]
            simp only [hwaU]
            rw [if_neg hne]
            simp only [hloopU, hwbU]
            rw [show hfind u.layout.folderPathToIndex b = some fIdx from by
              rw [hsU.2.1]; exact c11]
            simp only [happU, hsetU]
            exact hwcU

/-- C6 counterexample.  `file_order_fix` stores raw `path_list` indices in
the first-child/sibling slots, but the walker and `get_direct_child`
dereference those slots through `path_list_indices`; when that table is not
the identity (slot 1 ↦ entry 2 here), the second run resolves the rewritten
chain to different entries and writes a *different* first-child pointer
(2 instead of 1) for the same base/variant pair. -/
theorem file_order_fix_not_idempotent :
    file_order_fix 20 c6Sec 100 200 = some c6S1 ∧
    file_order_fix 20 c6S1 100 200 = some c6S2 ∧
    c6S1.layout.folderPathList.get? 1 ≠ c6S2.layout.folderPathList.get? 1 :=
  ⟨rfl, rfl, by decide⟩

/-- A two-level world for the idempotence witness: base folder `100` and
variant folder `200` each hold one subfolder (named `7`, hashes `110`/`210`),
and those subfolders each hold one file (named `8`).  `path_list_indices` is
the identity. -/
def cGW : SearchSection :=
  { layout :=
      { folderPathToIndex := [(100, 0), (200, 1), (110, 2), (210, 3)]
      , folderPathList :=
          [ { path := 100, firstChild := 1 }
          , { path := 200, firstChild := 2 }
          , { path := 110, firstChild := 3 }
          , { path := 210, firstChild := 4 } ]
      , pathListIndices := [0, 1, 2, 3, 4]
      , pathList :=
          [ { path := 200, sibling := invalidIdx, fileName := 20, ext := 0, parent := 0, isDir := true }
          , { path := 110, sibling := invalidIdx, fileName := 7, ext := 0, parent := 100, isDir := true }
          , { path := 210, sibling := invalidIdx, fileName := 7, ext := 0, parent := 200, isDir := true }
          , { path := 111, sibling := invalidIdx, fileName := 8, ext := 0, parent := 110, isDir := false }
          , { path := 211, sibling := invalidIdx, fileName := 8, ext := 0, parent := 210, isDir := false } ] }
  , pathToIndex := [(200, 0), (210, 2)] }

/-- The certificate for the witness world: the top pair's single child is a
matched subfolder pair, which recursively carries its own (file-level)
certificate. -/
theorem cGW_covers : Covers 5 cGW 100 200 [1, 2, 3, 4] [0, 1, 2, 3] := by
  rw [Covers_succ]
  unfold CoversBody
  refine Or.inr (Or.inr (Or.inr (Or.inr
    ⟨0, { path := 200, sibling := invalidIdx, fileName := 20, ext := 0, parent := 0, isDir := true },
     0, { path := 100, firstChild := 1 },
     1, { path := 200, firstChild := 2 },
     [.folder 1 []], [.folder 2 []], [.dmatch 2 110 210 [3, 4] [2, 3]],
     rfl, rfl, rfl, rfl, rfl, by decide, rfl, rfl, by simp, rfl, rfl, by decide, rfl,
     ?_, by decide, ?_, by simp, rfl, rfl, by decide, by decide⟩)))
  · refine List.Forall₂.cons
      ⟨{ path := 110, sibling := invalidIdx, fileName := 7, ext := 0, parent := 100, isDir := true },
        rfl, rfl,
        { path := 210, sibling := invalidIdx, fileName := 7, ext := 0, parent := 200, isDir := true },
        rfl, rfl, rfl, rfl, ?_⟩ List.Forall₂.nil
    rw [Covers_succ]
    unfold CoversBody
    refine Or.inr (Or.inr (Or.inr (Or.inr
      ⟨2, { path := 210, sibling := invalidIdx, fileName := 7, ext := 0, parent := 200, isDir := true },
       2, { path := 110, firstChild := 3 },
       3, { path := 210, firstChild := 4 },
       [.file 3], [.file 4], [.fmatch 4],
       rfl, rfl, rfl, rfl, rfl, by decide, rfl, rfl, by simp, rfl, rfl, by decide, rfl,
       ?_, by decide, ?_, by simp, rfl, rfl, by decide, by decide⟩)))
    · exact List.Forall₂.cons
        ⟨{ path := 111, sibling := invalidIdx, fileName := 8, ext := 0, parent := 110, isDir := false },
          rfl, rfl,
          { path := 211, sibling := invalidIdx, fileName := 8, ext := 0, parent := 210, isDir := false },
          rfl, rfl⟩ List.Forall₂.nil
    · intro i j p q hi hj _ _ _
      simp at hi hj
      omega
  · intro i j p q hi hj _ _ _
    simp at hi hj
    omega

/-- C6: the spec's unconditional idempotence claim is false (see
`file_order_fix_not_idempotent`: `file_order_fix` stores raw `path_list`
indices in the first-child/sibling slots while the walker and
`get_direct_child` dereference them through `path_list_indices`).  Amended:
on a section whose `path_list_indices` table is the identity (with the path
list in bounds), for a base/variant pair carrying the hereditary
well-formedness certificate `Covers` — each level either takes one of the
routine's early exits or has a resolved directory destination, duplicate-free
and distinctly named children, mutually disjoint sub-pair regions, and
recursively certified matched subfolder pairs — a second run of
`file_order_fix` on the corrected state is a state-level no-op: it reproduces
the same first-child pointer and the same sibling-link chain at every level. -/
theorem file_order_fix_idempotent (fuel : Nat) (s s1 : SearchSection)
    (src dst : Hash40) (R V : List Nat)
    (hpli : s.layout.pathListIndices = List.range s.layout.pathList.length)
    (hlen : s.layout.pathList.length ≤ invalidIdx)
    (hcov : Covers fuel s src dst R V)
    (h1 : file_order_fix fuel s src dst = some s1) :
    file_order_fix fuel s1 src dst = some s1 :=
  (fix_general fuel s s1 src dst R V hpli hlen hcov h1).2.2 s1 (staticEq_refl s1)
    (fun _ _ => rfl) (fun _ _ => rfl)

/-- The idempotence theorem applied at the two-level witness world (the
recursion descends into the matched subfolder pair `110`/`210`): the first
run on `cGW` already reproduces `cGW`, so the theorem yields that the second
runs is a no-op as well. -/
theorem file_order_fix_idempotent_witness :
    file_order_fix 5 cGW 100 200 = some cGW :=
  file_order_fix_idempotent 5 cGW cGW 100 200 [1, 2, 3, 4] [0, 1, 2, 3] rfl
    (by decide) cGW_covers rfl


end StageAlts
